import Mathlib

/-!
# HttpUtils: path patterns, their regular expressions and the request router

A shallow embedding of `PathToRegexp.hpp`, `PathToRegexp.cpp` and `HttpRouter.hpp`.

* A `std::string` is a `List Char` (`Str`); a `char` is a byte, so a character that
  stands for a byte has a code below 256.
* `size_t` arithmetic is on `Nat`, with the wrap-around below zero made explicit.
* A function whose behaviour is undefined on some input, or that can throw from a library
  call, returns `Option` and is `none` there; the `std::logic_error` that
  `PathFunction::operator()` throws is a value of its result type `CallResult`.
* `std::regex` is a library: it is modelled by a parser of the ECMAScript grammar
  (`Regex.compile`) and a backtracking matcher (`Re.run`) that lists the matches in the
  order in which the depth-first executor finds them.
-/

namespace HttpUtils

/-- A `std::string`. -/
abbrev Str := List Char

/-! ## Data model (`PathToRegexp.hpp`) -/

/-- The record `PathKey`. The field `pfx` is the field `prefix` of the source and
`rep` its field `repeat` (both words are reserved in Lean). -/
structure PathKey where
  name : Str
  pfx : Str
  delimiter : Str
  optional : Bool
  rep : Bool
  pattern : Str
deriving DecidableEq, Repr

/-- The variant `PathToken`: `boost::variant<std::string, PathKey>`; `which() == 0` is `lit`. -/
inductive PathToken where
  | lit (s : Str)
  | key (k : PathKey)
deriving DecidableEq, Repr

/-- The two bits of `std::regex::flag_type` the program sets. -/
structure RegexFlags where
  icase : Bool
  ECMAScript : Bool
deriving DecidableEq, Repr

/-- The pair `RegExp`: the source of a regular expression and its flags. -/
structure RegExp where
  source : Str
  flags : RegexFlags
deriving DecidableEq, Repr

def PR_SENSITIVE : Nat := 1 <<< 0
def PR_STRICT : Nat := 1 <<< 1
def PR_END : Nat := 1 <<< 2

/-- The function `pathFlags`: case-insensitive unless `PR_SENSITIVE` is set, always ECMAScript. -/
def pathFlags (options : Nat) : RegexFlags :=
  { icase := if (options &&& PR_SENSITIVE) != 0 then false else true
    ECMAScript := true }

/-! ## String helpers -/

/-- The `size_t` difference `a - b` of two sizes below `2 ^ 64`: it wraps around below zero. -/
def sizeSub (a b : Nat) : Nat :=
  if b ≤ a then a - b else a + 2 ^ 64 - b

/-- The call `s.substr(pos, len)` for `pos ≤ s.size()`. -/
def substr (s : Str) (pos len : Nat) : Str :=
  (s.drop pos).take len

/-- The call `boost::algorithm::ends_with(s, suffix)`. -/
def ends_with (s suffix : Str) : Bool :=
  suffix.isSuffixOf s

/-- One turn of the loop of `escapeString`: the `switch` on the character. -/
def escapeStringStep (res : Str) (c : Char) : Str :=
  match c with
  | '.' => res ++ "\\.".toList
  | '+' => res ++ "\\+".toList
  | '*' => res ++ "\\*".toList
  | '?' => res ++ "\\?".toList
  | '=' => res ++ "\\=".toList
  | '^' => res ++ "\\^".toList
  | '!' => res ++ "\\!".toList
  | ':' => res ++ "\\:".toList
  | '$' => res ++ "\\$".toList
  | '{' => res ++ ['\\', '{']
  | '}' => res ++ ['\\', '}']
  | '(' => res ++ "\\(".toList
  | ')' => res ++ "\\)".toList
  | '[' => res ++ "\\[".toList
  | ']' => res ++ "\\]".toList
  | '|' => res ++ "\\|".toList
  | '/' => res ++ "\\/".toList
  | _ => res ++ [c]

/-- The function `escapeString`: escape a regular expression string. -/
def escapeString (str : Str) : Str :=
  str.foldl escapeStringStep []

/-- One turn of the loop of `escapeGroup`. -/
def escapeGroupStep (res : Str) (c : Char) : Str :=
  match c with
  | '=' => res ++ "\\=".toList
  | '!' => res ++ "\\!".toList
  | ':' => res ++ "\\:".toList
  | '$' => res ++ "\\$".toList
  | '/' => res ++ "\\/".toList
  | '(' => res ++ "\\(".toList
  | ')' => res ++ "\\)".toList
  | _ => res ++ [c]

/-- The function `escapeGroup`: escape the capturing group. -/
def escapeGroup (group : Str) : Str :=
  group.foldl escapeGroupStep []

/-! ## The regex emitter (`tokensToRegExp`) -/

/-- The text a key token adds to the route: the `else` branch of the loop of `tokensToRegExp`. -/
def keyCapture (key : PathKey) : Str :=
  let pfx := escapeString key.pfx
  let capture := key.pattern
  let capture := if key.rep then capture ++ ("(?:".toList ++ pfx ++ capture ++ ")*".toList) else capture
  if key.optional then
    if !pfx.isEmpty then
      "(?:".toList ++ pfx ++ "(".toList ++ capture ++ "))?".toList
    else
      "(".toList ++ capture ++ ")?".toList
  else
    pfx ++ "(".toList ++ capture ++ ")".toList

/-- One turn of the loop of `tokensToRegExp`. -/
def routeStep (route : Str) (token : PathToken) : Str :=
  match token with
  | PathToken.lit s => route ++ escapeString s
  | PathToken.key key => route ++ keyCapture key

/-- The test `lastToken.which() == 0 && ends_with(get<std::string>(lastToken), "/")`. -/
def endsWithSlashToken (lastToken : PathToken) : Bool :=
  match lastToken with
  | PathToken.lit s => ends_with s "/".toList
  | PathToken.key _ => false

/-- The function `tokensToRegExp`. On an empty vector `tokens.back()` is undefined
behaviour: the result is `none`. -/
def tokensToRegExp (tokens : List PathToken) (options : Nat) : Option RegExp :=
  let strict := (options &&& PR_STRICT) != 0
  let end_ := (options &&& PR_END) != 0
  match tokens.getLast? with
  | none => none
  | some lastToken =>
    let endsWithSlash := endsWithSlashToken lastToken
    let route := tokens.foldl routeStep []
    let route :=
      if !strict then
        (if endsWithSlash then substr route 0 (sizeSub route.length 2) else route)
          ++ "(?:\\/(?=$))?".toList
      else route
    let route :=
      if end_ then route ++ ['$']
      else route ++ (if strict && endsWithSlash then [] else "(?=\\/|$)".toList)
    some { source := "^".toList ++ route, flags := pathFlags options }

/-! ## A model of `std::regex` with the ECMAScript grammar

The program builds its regular expressions at run time and searches with them, so the library
has to be part of the model. What is modelled is the behaviour of the depth-first executor:

* the search tries the start positions from left to right and, at the first one where the
  expression matches, takes the first match in the order of priority (the left alternative
  before the right one, one more turn of a greedy quantifier before its end);
* `.` is any character but `\n` and `\r`; `\d`, `\w` and `\s` are the classes of the "C" locale;
* `^` and `$` match only at the start and at the end of the subject;
* a group that took no part in the match has the empty string as its text;
* a turn of a quantifier that reads nothing is dropped, as ECMAScript has it. The library lets
  the loop end after one such turn, so for a loop whose body can match the empty string the
  groups and the extent of a match can differ from the library's. `PATH_REGEXP`, the sources
  emitted for plain tokens and the anchored default patterns, on which the general theorems
  rest, have no such loop.

Not modelled: `\b`, `\B`, back-references, `\cX`, `\xHH`, `\uHHHH`, intervals `{n,m}` and the
named classes `[:alpha:]`; a source that uses one of them does not compile in the model,
although the library compiles it: for such a source `none` says "outside the model", not
"`std::regex_error`".
-/

/-- One item of a bracket expression, or a class escape such as `\d`. -/
inductive ClassItem where
  | single (c : Char)
  | range (lo hi : Char)
  | digit (neg : Bool)
  | word (neg : Bool)
  | space (neg : Bool)
deriving DecidableEq, Repr

/-- The abstract syntax of a regular expression. -/
inductive Re where
  | empty
  | char (c : Char)
  | any
  | cls (neg : Bool) (items : List ClassItem)
  | seq (a b : Re)
  | alt (a b : Re)
  | star (greedy : Bool) (r : Re)
  | group (n : Nat) (r : Re)
  | look (neg : Bool) (r : Re)
  | bol
  | eol
deriving DecidableEq, Repr

/-- The quantifier `r?`: greedy tries `r` first, lazy tries the empty match first. -/
def Re.opt (greedy : Bool) (r : Re) : Re :=
  if greedy then Re.alt r Re.empty else Re.alt Re.empty r

/-- The quantifier `r+`. -/
def Re.plus (greedy : Bool) (r : Re) : Re :=
  Re.seq r (Re.star greedy r)

/-- The class `\w` in the "C" locale. -/
def isWordChar (c : Char) : Bool :=
  c.isAlphanum || c == '_'

/-- The class `\s` in the "C" locale. -/
def isSpaceChar (c : Char) : Bool :=
  c == ' ' || c == '\t' || c == '\n' || c == Char.ofNat 11 || c == Char.ofNat 12 || c == '\r'

/-- Does the item accept the character? With `icase` a single character is compared
after `tolower`, and a range accepts a character whose lower or upper case lies in it. -/
def ClassItem.accepts (icase : Bool) (x : Char) : ClassItem → Bool
  | ClassItem.single c => if icase then c.toLower == x.toLower else c == x
  | ClassItem.range lo hi =>
    if icase then
      (decide (lo ≤ x.toLower) && decide (x.toLower ≤ hi)) ||
        (decide (lo ≤ x.toUpper) && decide (x.toUpper ≤ hi))
    else decide (lo ≤ x) && decide (x ≤ hi)
  | ClassItem.digit neg => neg != x.isDigit
  | ClassItem.word neg => neg != isWordChar x
  | ClassItem.space neg => neg != isSpaceChar x

/-- The state of a match attempt: the number of characters read since the start of the
subject, the characters not yet read, and the texts of the groups closed so far
(the most recent first). -/
structure MState where
  pos : Nat
  rest : Str
  caps : List (Nat × Str)
deriving DecidableEq, Repr

/-- Read one character if it satisfies `p`. -/
def MState.eat (p : Char → Bool) (s : MState) : List MState :=
  match s.rest with
  | [] => []
  | x :: xs => if p x then [{ s with pos := s.pos + 1, rest := xs }] else []

/-- The loop of a quantifier `r*`: `step` is one turn of `r`. A turn that reads nothing
is dropped (the library lets the loop end after one such turn; the two agree when `r` cannot
match the empty string), so `fuel` = the number of unread characters is enough. Greedy tries
one more turn before it tries to stop; lazy the other way round. -/
def starLoop (greedy : Bool) (step : MState → List MState) : Nat → MState → List MState
  | 0, s => [s]
  | fuel + 1, s =>
    let more := ((step s).filter (fun s' => decide (s'.rest.length < s.rest.length))).flatMap
      (starLoop greedy step fuel)
    if greedy then more ++ [s] else s :: more

/-- The backtracking matcher: all the ways `r` can match at state `s`, in the order in
which the depth-first executor of `std::regex` tries them. The first one is the match. -/
def Re.run (icase : Bool) : Re → MState → List MState
  | Re.empty, s => [s]
  | Re.char c, s => s.eat (fun x => if icase then c.toLower == x.toLower else c == x)
  | Re.any, s => s.eat (fun x => x != '\n' && x != '\r')
  | Re.cls neg items, s => s.eat (fun x => neg != items.any (ClassItem.accepts icase x))
  | Re.seq a b, s => (Re.run icase a s).flatMap (fun s' => Re.run icase b s')
  | Re.alt a b, s => Re.run icase a s ++ Re.run icase b s
  | Re.star greedy r, s => starLoop greedy (fun s' => Re.run icase r s') s.rest.length s
  | Re.group n r, s =>
    (Re.run icase r s).map (fun s' => { s' with caps := (n, s.rest.take (s'.pos - s.pos)) :: s'.caps })
  | Re.look neg r, s =>
    match Re.run icase r s with
    | [] => if neg then [s] else []
    | s' :: _ => if neg then [] else [{ s with caps := s'.caps }]
  | Re.bol, s => if s.pos = 0 then [s] else []
  | Re.eol, s => if s.rest.isEmpty then [s] else []

/-- The result of `std::regex_search`, a `std::smatch`: where the match starts, the
matched text and the groups. -/
structure SMatch where
  position : Nat
  whole : Str
  caps : List (Nat × Str)
deriving DecidableEq, Repr

/-- The call `res[i]` converted to a string, or `res.str(i)`: the text of group `i`, empty if the group
took no part in the match. -/
def SMatch.str (m : SMatch) (i : Nat) : Str :=
  if i = 0 then m.whole else (m.caps.lookup i).getD []

/-- The search of `std::regex_search`: the first start position, from `pos` on, at which the
expression matches. -/
def searchFrom (icase : Bool) (re : Re) (pos : Nat) : Str → Option SMatch
  | [] =>
    match re.run icase { pos := pos, rest := [], caps := [] } with
    | s' :: _ => some { position := pos, whole := [], caps := s'.caps }
    | [] => none
  | x :: xs =>
    match re.run icase { pos := pos, rest := x :: xs, caps := [] } with
    | s' :: _ => some { position := pos, whole := (x :: xs).take (s'.pos - pos), caps := s'.caps }
    | [] => searchFrom icase re (pos + 1) xs

/-- The call `std::regex_search(subject, res, re)`. -/
def regex_search (icase : Bool) (re : Re) (subject : Str) : Option SMatch :=
  searchFrom icase re 0 subject

/-! ### Reading the source of a regular expression -/

/-- Sequence two expressions, leaving out an empty tail. -/
def Re.mkSeq (a b : Re) : Re :=
  match b with
  | Re.empty => a
  | _ => Re.seq a b

/-- The character a control escape stands for (`\n`, `\t`, ...), if it is one. -/
def controlEscape (c : Char) : Option Char :=
  if c == 'n' then some '\n'
  else if c == 't' then some '\t'
  else if c == 'r' then some '\r'
  else if c == 'f' then some (Char.ofNat 12)
  else if c == 'v' then some (Char.ofNat 11)
  else if c == '0' then some (Char.ofNat 0)
  else none

/-- The class a class escape stands for (`\d`, `\D`, `\w`, `\W`, `\s`, `\S`), if it is one. -/
def classEscape (c : Char) : Option ClassItem :=
  if c == 'd' then some (ClassItem.digit false)
  else if c == 'D' then some (ClassItem.digit true)
  else if c == 'w' then some (ClassItem.word false)
  else if c == 'W' then some (ClassItem.word true)
  else if c == 's' then some (ClassItem.space false)
  else if c == 'S' then some (ClassItem.space true)
  else none

/-- The atom `\c` outside a bracket expression. Not modelled, hence `none`: `\b`, `\B`,
`\cX`, `\xHH`, `\uHHHH` and back-references. Any other character stands for itself. -/
def escapeAtom (c : Char) : Option Re :=
  match classEscape c with
  | some item => some (Re.cls false [item])
  | none =>
    match controlEscape c with
    | some x => some (Re.char x)
    | none =>
      if c == 'b' || c == 'B' || c == 'c' || c == 'x' || c == 'u' || c.isDigit then none
      else some (Re.char c)

/-- The item `\c` inside a bracket expression; `\b` is the backspace there. -/
def escapeItem (c : Char) : Option ClassItem :=
  match classEscape c with
  | some item => some item
  | none =>
    match controlEscape c with
    | some x => some (ClassItem.single x)
    | none =>
      if c == 'b' then some (ClassItem.single (Char.ofNat 8))
      else if c == 'c' || c == 'x' || c == 'u' || c.isDigit then none
      else some (ClassItem.single c)

/-- One character or escape of a bracket expression, and the rest of the source. -/
def bracketAtom : Str → Option (ClassItem × Str)
  | [] => none
  | '\\' :: c :: rest => (escapeItem c).map (fun item => (item, rest))
  | '\\' :: [] => none
  | '[' :: ':' :: _ => none
  | '[' :: '.' :: _ => none
  | '[' :: '=' :: _ => none
  | c :: rest => some (ClassItem.single c, rest)

/-- The items of a bracket expression up to the closing `]`, and the rest of the source. -/
def bracketItems : Nat → Str → List ClassItem → Option (List ClassItem × Str)
  | 0, _, _ => none
  | _ + 1, [], _ => none
  | _ + 1, ']' :: rest, acc => some (acc.reverse, rest)
  | fuel + 1, inp, acc =>
    match bracketAtom inp with
    | none => none
    | some (ClassItem.single lo, '-' :: ']' :: rest) =>
      some ((ClassItem.single '-' :: ClassItem.single lo :: acc).reverse, rest)
    | some (ClassItem.single lo, '-' :: rest) =>
      match bracketAtom rest with
      | some (ClassItem.single hi, rest') =>
        if lo ≤ hi then bracketItems fuel rest' (ClassItem.range lo hi :: acc) else none
      | _ => none
    | some (item, rest) => bracketItems fuel rest (item :: acc)

/-- A bracket expression, after its `[`. -/
def bracket (inp : Str) : Option (Re × Str) :=
  match inp with
  | '^' :: rest => (bracketItems (rest.length + 1) rest []).map (fun r => (Re.cls true r.1, r.2))
  | _ => (bracketItems (inp.length + 1) inp []).map (fun r => (Re.cls false r.1, r.2))

/-- The quantifiers that follow an atom. The interval `{n,m}` is not modelled. -/
def quantifiers : Nat → Re → Str → Option (Re × Str)
  | 0, _, _ => none
  | fuel + 1, r, inp =>
    match inp with
    | '*' :: '?' :: rest => quantifiers fuel (Re.star false r) rest
    | '*' :: rest => quantifiers fuel (Re.star true r) rest
    | '+' :: '?' :: rest => quantifiers fuel (Re.plus false r) rest
    | '+' :: rest => quantifiers fuel (Re.plus true r) rest
    | '?' :: '?' :: rest => quantifiers fuel (Re.opt false r) rest
    | '?' :: rest => quantifiers fuel (Re.opt true r) rest
    | '{' :: _ => none
    | _ => some (r, inp)

/-- Expect a closing parenthesis. -/
def closeParen (build : Re → Re) : Option (Re × Str × Nat) → Option (Re × Str × Nat)
  | some (r, ')' :: rest, n) => some (build r, rest, n)
  | _ => none

/-- Apply the quantifiers that follow an atom. -/
def withQuantifiers : Option (Re × Str × Nat) → Option (Re × Str × Nat)
  | some (r, rest, n) => (quantifiers (rest.length + 1) r rest).map (fun q => (q.1, q.2, n))
  | none => none

mutual
/-- A disjunction: alternatives separated by `|`. The number counts the capturing groups
opened so far. -/
def parseDisjunction : Nat → Str → Nat → Option (Re × Str × Nat)
  | 0, _, _ => none
  | fuel + 1, inp, n =>
    match parseAlternative fuel inp n with
    | some (a, '|' :: rest, n1) =>
      match parseDisjunction fuel rest n1 with
      | some (b, rest', n2) => some (Re.alt a b, rest', n2)
      | none => none
    | other => other
/-- An alternative: a sequence of terms. -/
def parseAlternative : Nat → Str → Nat → Option (Re × Str × Nat)
  | 0, _, _ => none
  | _ + 1, [], n => some (Re.empty, [], n)
  | _ + 1, '|' :: rest, n => some (Re.empty, '|' :: rest, n)
  | _ + 1, ')' :: rest, n => some (Re.empty, ')' :: rest, n)
  | fuel + 1, inp, n =>
    match parseTerm fuel inp n with
    | some (t, rest, n1) =>
      match parseAlternative fuel rest n1 with
      | some (u, rest', n2) => some (Re.mkSeq t u, rest', n2)
      | none => none
    | none => none
/-- A term: an assertion, or an atom with its quantifiers. -/
def parseTerm : Nat → Str → Nat → Option (Re × Str × Nat)
  | 0, _, _ => none
  | _ + 1, [], _ => none
  | _ + 1, '^' :: rest, n => some (Re.bol, rest, n)
  | _ + 1, '$' :: rest, n => some (Re.eol, rest, n)
  | fuel + 1, '(' :: '?' :: '=' :: rest, n => closeParen (Re.look false) (parseDisjunction fuel rest n)
  | fuel + 1, '(' :: '?' :: '!' :: rest, n => closeParen (Re.look true) (parseDisjunction fuel rest n)
  | fuel + 1, '(' :: '?' :: ':' :: rest, n =>
    withQuantifiers (closeParen id (parseDisjunction fuel rest n))
  | _ + 1, '(' :: '?' :: _, _ => none
  | fuel + 1, '(' :: rest, n =>
    withQuantifiers (closeParen (Re.group (n + 1)) (parseDisjunction fuel rest (n + 1)))
  | _ + 1, '[' :: rest, n => withQuantifiers ((bracket rest).map (fun r => (r.1, r.2, n)))
  | _ + 1, '.' :: rest, n => withQuantifiers (some (Re.any, rest, n))
  | _ + 1, '\\' :: c :: rest, n => withQuantifiers ((escapeAtom c).map (fun r => (r, rest, n)))
  | _ + 1, '\\' :: [], _ => none
  | _ + 1, '*' :: _, _ => none
  | _ + 1, '+' :: _, _ => none
  | _ + 1, '?' :: _, _ => none
  | _ + 1, '{' :: _, _ => none
  | _ + 1, c :: rest, n => withQuantifiers (some (Re.char c, rest, n))
end

/-- A compiled `std::regex`: the expression and whether it ignores case. -/
structure Regex where
  re : Re
  icase : Bool
deriving DecidableEq, Repr

/-- The constructor `std::regex(source, flags)`. It is `none` when the constructor
throws `std::regex_error`, and also for a source that uses a construct outside the model
(an interval `{n,m}` for one), which the library may compile. -/
def Regex.compile (source : Str) (flags : RegexFlags) : Option Regex :=
  match parseDisjunction (4 * source.length + 8) source 0 with
  | some (re, [], _) => some { re := re, icase := flags.icase }
  | _ => none

/-- The call `std::regex_search(subject, res, regex)`. -/
def Regex.search (regex : Regex) (subject : Str) : Option SMatch :=
  regex_search regex.icase regex.re subject

/-! ## The tokenizer (`parsePath`) -/

/-- The source of the master regular expression `PATH_REGEXP`. -/
def PATH_REGEXP_source : Str :=
  ("(\\\\.)" ++ "|" ++
    "([\\/.])?(?:(?:\\:(\\w+)(?:\\(((?:\\\\.|[^()])+)\\))?|\\(((?:\\\\.|[^()])+)\\))([+*?])?|(\\*))").toList

/-- The expression `\\.`: a backslash and one more character. -/
def reEscaped : Re :=
  Re.seq (Re.char '\\') Re.any

/-- The expression `(?:\\.|[^()])`: one step of a group body. -/
def reBodyChar : Re :=
  Re.alt reEscaped (Re.cls true [ClassItem.single '(', ClassItem.single ')'])

/-- The expression `\((body+)\)` with the body as group `n`. -/
def reParen (n : Nat) : Re :=
  Re.seq (Re.char '(') (Re.seq (Re.group n (Re.plus true reBodyChar)) (Re.char ')'))

/-- The expression `\:(\w+)(?:\((body+)\))?`: a named parameter, its body optional. -/
def reNamed : Re :=
  Re.seq (Re.char ':')
    (Re.seq (Re.group 3 (Re.plus true (Re.cls false [ClassItem.word false]))) (Re.opt true (reParen 4)))

/-- The expression `([+*?])?`. -/
def reSuffix : Re :=
  Re.opt true (Re.group 6
    (Re.cls false [ClassItem.single '+', ClassItem.single '*', ClassItem.single '?']))

/-- The expression `([\/.])?`. -/
def rePrefix : Re :=
  Re.opt true (Re.group 2 (Re.cls false [ClassItem.single '/', ClassItem.single '.']))

/-- The compiled `PATH_REGEXP`. -/
def PATH_REGEXP : Re :=
  Re.alt (Re.group 1 reEscaped)
    (Re.seq rePrefix
      (Re.alt (Re.seq (Re.alt reNamed (reParen 5)) reSuffix) (Re.group 7 (Re.char '*'))))

/-- The local variables of `parsePath` that change in its loop. -/
structure ParseState where
  tokens : List PathToken
  key : Nat
  index : Nat
  path : Str
deriving DecidableEq, Repr

/-- The call `std::to_string(key)` for an `int` that is not negative. -/
def to_string_int (key : Nat) : Str :=
  (Nat.repr key).toList

/-- The key token that `parsePath` builds from a match of the parameter construct. -/
def keyOfMatch (res : SMatch) (key : Nat) : PathKey × Nat :=
  let pfx := res.str 2
  let name := res.str 3
  let capture := res.str 4
  let group := res.str 5
  let suffix := res.str 6
  let asterisk := res.str 7
  let rep := suffix == "+".toList || suffix == "*".toList
  let optional := suffix == "?".toList || suffix == "*".toList
  let delimiter := if !pfx.isEmpty then pfx else "/".toList
  let pattern :=
    if !capture.isEmpty then capture
    else if !group.isEmpty then group
    else if !asterisk.isEmpty then ".*".toList
    else "[^".toList ++ delimiter ++ "]+?".toList
  ({ name := if !name.isEmpty then name else to_string_int key
     pfx := pfx
     delimiter := delimiter
     optional := optional
     rep := rep
     pattern := escapeGroup pattern },
   if !name.isEmpty then key else key + 1)

/-- The `while` loop of `parsePath`; each turn searches `PATH_REGEXP` from `index` on.
The result is `none` when the loop has not ended after `fuel` turns. -/
def parseLoop (str : Str) : Nat → ParseState → Option ParseState
  | 0, _ => none
  | fuel + 1, st =>
    match regex_search false PATH_REGEXP (str.drop st.index) with
    | none => some st
    | some res =>
      let m := res.str 0
      let escaped := res.str 1
      let path := st.path ++ substr str st.index res.position
      let index := st.index + (res.position + m.length)
      if !escaped.isEmpty then
        parseLoop str fuel
          { st with index := index, path := path ++ [escaped.getD 1 (Char.ofNat 0)] }
      else
        let tokens := if !path.isEmpty then st.tokens ++ [PathToken.lit path] else st.tokens
        let path := if !path.isEmpty then [] else path
        let token := keyOfMatch res st.key
        parseLoop str fuel
          { tokens := tokens ++ [PathToken.key token.1], key := token.2, index := index, path := path }

/-- The end of `parsePath`: the text after the last match goes to the last literal. -/
def parseFinish (str : Str) (st : ParseState) : List PathToken :=
  let path := if st.index < str.length then st.path ++ str.drop st.index else st.path
  if !path.isEmpty then st.tokens ++ [PathToken.lit path] else st.tokens

/-- The function `parsePath`. Each turn of the loop reads at least one character, so
`str.length + 1` turns are enough. -/
def parsePath (str : Str) : Option (List PathToken) :=
  (parseLoop str (str.length + 1) { tokens := [], key := 0, index := 0, path := [] }).map
    (parseFinish str)

/-- The single-pattern `pathToRegexp`, called without a key accumulator. -/
def pathToRegexp (path : Str) (options : Nat) : Option RegExp :=
  match parsePath path with
  | none => none
  | some tokens => tokensToRegExp tokens options

/-! ## The inverse compiler (`PathFunction`) -/

/-- The function `hexchar`: the two hexadecimal digits of an `unsigned char`. -/
def hexchar (c : Nat) : Char × Char :=
  let hex1 := c / 16
  let hex2 := c % 16
  let hex1 := (hex1 + (if hex1 ≤ 9 then '0'.toNat else 'A'.toNat - 10)) % 256
  let hex2 := (hex2 + (if hex2 ≤ 9 then '0'.toNat else 'A'.toNat - 10)) % 256
  (Char.ofNat hex1, Char.ofNat hex2)

/-- One turn of the loop of `encodeURIComponent`. The call `hexchar(c, d1, d2)` converts
the `char` to `unsigned char`, which is the value modulo 256. -/
def encodeStep (v : Str) (c : Char) : Str :=
  if (decide (c ≥ '0') && decide (c ≤ '9')) ||
      (decide (c ≥ 'a') && decide (c ≤ 'z')) ||
      (decide (c ≥ 'A') && decide (c ≤ 'Z')) ||
      c == '-' || c == '_' || c == '.' || c == '!' || c == '~' ||
      c == '*' || c == '\'' || c == '(' || c == ')' then
    v ++ [c]
  else if c == ' ' then
    v ++ ['+']
  else
    let d := hexchar (c.toNat % 256)
    v ++ ['%'] ++ [d.1] ++ [d.2]

/-- The function `encodeURIComponent`. -/
def encodeURIComponent (s : Str) : Str :=
  s.foldl encodeStep []

/-- The body of the `while` loop of `to_string`. -/
def to_string_loop (s : Str) : List Str → Str
  | [] => s
  | x :: rest => to_string_loop (s ++ (", \"".toList ++ x ++ "\"".toList)) rest

/-- The function `to_string` for a vector of strings. After the first element is
appended, the loop starts again at `value.begin()`. -/
def to_string (value : List Str) : Str :=
  let s := "[".toList
  let s :=
    match value with
    | [] => s
    | x :: _ => to_string_loop (s ++ x) value
  s ++ "]".toList

/-- Which of the four `throw` statements of `PathFunction::operator()` was reached. -/
inductive ErrorKind where
  | MISSING_PARAMETER
  | UNEXPECTED_REPEAT
  | EMPTY_PARAMETER
  | PATTERN_MISMATCH
deriving DecidableEq, Repr

/-- A thrown `std::logic_error`: the `throw` statement it comes from and its message. -/
structure LogicError where
  kind : ErrorKind
  what : Str
deriving DecidableEq, Repr

/-- The outcome of a call of `PathFunction::operator()`. It is `undefined` when the call
dereferences a null `matches_[i]`. -/
inductive CallResult where
  | returned (path : Str)
  | thrown (e : LogicError)
  | undefined
deriving DecidableEq, Repr

/-- The type `SegmentMap`: `std::map<std::string, std::vector<std::string>>`, as its lookup
function (`data.find`). -/
abbrev SegmentMap := Str → Option (List Str)

/-- The class `PathFunction`: the tokens and, at the same index, the compiled regular
expression of each key token (null for a literal). -/
structure PathFunction where
  tokens_ : List PathToken
  matches_ : List (Option Regex)
deriving DecidableEq, Repr

/-- One turn of the loop of `PathFunction::init`: a key token gets the compiled
`"^" + pattern + "$"`. The result is `none` when the constructor of `std::regex` throws. -/
def initToken : PathToken → Option (Option Regex)
  | PathToken.lit _ => some none
  | PathToken.key k =>
    (Regex.compile ("^".toList ++ k.pattern ++ "$".toList) { icase := false, ECMAScript := true }).map some

/-- The loop of `PathFunction::init` over the tokens. -/
def initMatches : List PathToken → Option (List (Option Regex))
  | [] => some []
  | token :: rest =>
    match initToken token with
    | none => none
    | some m => (initMatches rest).map (fun ms => m :: ms)

/-- The constructor `PathFunction(tokens)` with its call of `init`. -/
def PathFunction.init (tokens : List PathToken) : Option PathFunction :=
  (initMatches tokens).map (fun ms => { tokens_ := tokens, matches_ := ms })

/-- The function `compilePath`. -/
def compilePath (str : Str) : Option PathFunction :=
  match parsePath str with
  | none => none
  | some tokens => PathFunction.init tokens

/-- The inner loop of `PathFunction::operator()` over the values of one key, from index `j` on:
the new path, or the error thrown. -/
def renderValues (key : PathKey) (re : Regex) : Nat → List Str → Str → Except LogicError Str
  | _, [], path => Except.ok path
  | j, v :: rest, path =>
    let segment := encodeURIComponent v
    match re.search segment with
    | none =>
      Except.error
        { kind := ErrorKind.PATTERN_MISMATCH
          what := "Expected all \"".toList ++ key.name ++ "\" to match \"".toList ++ key.pattern ++
            "\", but received \"".toList ++ segment ++ "\"".toList }
    | some _ =>
      renderValues key re (j + 1) rest (path ++ ((if j == 0 then key.pfx else key.delimiter) ++ segment))

/-- The outer loop of `PathFunction::operator()` over `tokens_[i]` and `matches_[i]`. -/
def renderTokens (data : SegmentMap) : List (PathToken × Option Regex) → Str → CallResult
  | [], path => CallResult.returned path
  | (PathToken.lit s, _) :: rest, path => renderTokens data rest (path ++ s)
  | (PathToken.key key, m) :: rest, path =>
    match data key.name with
    | none =>
      if key.optional then renderTokens data rest path
      else
        CallResult.thrown
          { kind := ErrorKind.MISSING_PARAMETER
            what := "Expected \"".toList ++ key.name ++ "\" to be defined".toList }
    | some value =>
      if !key.rep && decide (value.length > 1) then
        CallResult.thrown
          { kind := ErrorKind.UNEXPECTED_REPEAT
            what := "Expected \"".toList ++ key.name ++ "\" to not repeat, but received \"".toList ++
              to_string value ++ "\"".toList }
      else if value.isEmpty then
        if key.optional then renderTokens data rest path
        else
          CallResult.thrown
            { kind := ErrorKind.EMPTY_PARAMETER
              what := "Expected \"".toList ++ key.name ++ "\" to not be empty".toList }
      else
        match m with
        | none => CallResult.undefined
        | some re =>
          match renderValues key re 0 value path with
          | Except.error e => CallResult.thrown e
          | Except.ok path => renderTokens data rest path

/-- The call `PathFunction::operator()(data)`. -/
def PathFunction.call (pf : PathFunction) (data : SegmentMap) : CallResult :=
  renderTokens data (pf.tokens_.zip pf.matches_) []

/-! ## The multi-pattern combiner (`pathToRegexp` over an iterator range) -/

/-- The `while` loop of the iterator-range `pathToRegexp`: each further pattern adds
`"|"` and its source. -/
def pathToRegexpLoop (options : Nat) : List Str → Str → Option Str
  | [], pattern => some pattern
  | p :: rest, pattern =>
    match pathToRegexp p options with
    | none => none
    | some re => pathToRegexpLoop options rest (pattern ++ ("|".toList ++ re.source))

/-- The iterator-range `pathToRegexp`, called without a key accumulator. -/
def pathToRegexpList (paths : List Str) (options : Nat) : Option RegExp :=
  let pattern := "(?:".toList
  let pattern :=
    match paths with
    | [] => some (pattern, [])
    | p :: rest =>
      match pathToRegexp p options with
      | none => none
      | some re => some (pattern ++ re.source, rest)
  match pattern with
  | none => none
  | some (pattern, rest) =>
    match pathToRegexpLoop options rest pattern with
    | none => none
    | some pattern => some { source := pattern ++ ")".toList, flags := pathFlags options }

/-- The function `to_regex`. -/
def to_regex (re : RegExp) : Option Regex :=
  Regex.compile re.source re.flags

/-! ## The router (`HttpRouter.hpp`) -/

/-- What the router asks of a request through `RequestTraits`: its method and its path. -/
structure Request where
  method : Str
  uriPath : Str
deriving DecidableEq, Repr

/-- What a handler does, step by step: it returns, calls `ctx.next()`, calls `ctx.match(i)`,
changes the response or reads it. -/
inductive HandlerProg (Response : Type) where
  | done : HandlerProg Response
  | next (k : HandlerProg Response) : HandlerProg Response
  | readMatch (i : Nat) (k : Str → HandlerProg Response) : HandlerProg Response
  | update (f : Response → Response) (k : HandlerProg Response) : HandlerProg Response
  | read (k : Response → HandlerProg Response) : HandlerProg Response

/-- The type `Handler`: the behaviour of the function object for a given request. -/
abbrev Handler (Response : Type) := Request → HandlerProg Response

/-- The record `Matcher`. -/
structure Matcher (Response : Type) where
  method : Str
  pathRegex : Regex
  handler : Handler Response

/-- The state of a `Context` and of the response during one `handleRequest`: the cursor
`current_` as an index into the matcher list, the last result of `regex_search` in `match_`
(`none` after a search that failed), the response, and the indices of the matchers whose
handler has been entered, in the order of entry. -/
structure Context (Response : Type) where
  current_ : Nat
  match_ : Option SMatch
  response : Response
  entered : List Nat

/-- The call `ctx.match(i)`. -/
def Context.match {Response : Type} (ctx : Context Response) (i : Nat) : Str :=
  match ctx.match_ with
  | some m => m.str i
  | none => []

/-- The test on the method in `Context::next`. -/
def methodMatches (method_ : Str) (matcherMethod : Str) : Bool :=
  method_ == matcherMethod || matcherMethod.isEmpty || matcherMethod == "*".toList

/-- The `for` loop of `Context::next` up to the call of a handler: it moves the cursor over
the matchers from `current_` on and stops behind the first one whose method and regular
expression match, which it returns. -/
def Context.scan {Response : Type} (req : Request) :
    List (Matcher Response) → Context Response → Option (Matcher Response) × Context Response
  | [], ctx => (none, ctx)
  | matcher :: rest, ctx =>
    if methodMatches req.method matcher.method then
      match matcher.pathRegex.search req.uriPath with
      | some m =>
        (some matcher,
          { ctx with current_ := ctx.current_ + 1, match_ := some m, entered := ctx.entered ++ [ctx.current_] })
      | none => Context.scan req rest { ctx with current_ := ctx.current_ + 1, match_ := none }
    else Context.scan req rest { ctx with current_ := ctx.current_ + 1 }

/-- Run a handler; `next` is the effect of a call of `ctx.next()`. -/
def HandlerProg.run {Response : Type} (next : Context Response → Option (Context Response)) :
    HandlerProg Response → Context Response → Option (Context Response)
  | HandlerProg.done, ctx => some ctx
  | HandlerProg.next k, ctx =>
    match next ctx with
    | none => none
    | some ctx' => HandlerProg.run next k ctx'
  | HandlerProg.readMatch i k, ctx => HandlerProg.run next (k (ctx.match i)) ctx
  | HandlerProg.update f k, ctx => HandlerProg.run next k { ctx with response := f ctx.response }
  | HandlerProg.read k, ctx => HandlerProg.run next (k ctx.response) ctx

/-- The function `Context::next`. A handler may call it again, so the calls nest; the result
is `none` when they nest deeper than `fuel`. -/
def Context.next {Response : Type} (matchers : List (Matcher Response)) (req : Request) :
    Nat → Context Response → Option (Context Response)
  | 0, _ => none
  | fuel + 1, ctx =>
    match Context.scan req (matchers.drop ctx.current_) ctx with
    | (none, ctx') => some ctx'
    | (some matcher, ctx') =>
      HandlerProg.run (Context.next matchers req fuel) (matcher.handler req) ctx'

/-- The class `HttpRouter`: its matcher list. -/
structure HttpRouter (Response : Type) where
  matchers_ : List (Matcher Response)

/-- The function `HttpRouter::add`; `none` when the constructor of `std::regex` throws. -/
def HttpRouter.add {Response : Type} (router : HttpRouter Response) (method : Str) (path : Str)
    (handler : Handler Response) : Option (HttpRouter Response) :=
  match pathToRegexp path PR_END with
  | none => none
  | some re =>
    match to_regex re with
    | none => none
    | some regex =>
      some { matchers_ := router.matchers_ ++ [{ method := method, pathRegex := regex, handler := handler }] }

/-- The function `HttpRouter::handleRequest`: a new context with the cursor at the first
matcher, then `ctx.handle()`, which is `next()`. Each nested call of `next()` starts behind
a further matcher, so they nest at most `matchers_.length + 1` deep. -/
def HttpRouter.handleRequest {Response : Type} (router : HttpRouter Response) (req : Request)
    (response : Response) : Option (Context Response) :=
  Context.next router.matchers_ req (router.matchers_.length + 1)
    { current_ := 0, match_ := none, response := response, entered := [] }

/-! ## The claims in the words of the specification -/

open PathToken

/-- C1: the piece of the body for one token. -/
def specPiece : PathToken → Str
  | lit s => escapeString s
  | key k =>
    let P := escapeString k.pfx
    let c := k.pattern
    let c' := if k.rep = true then c ++ "(?:".toList ++ P ++ c ++ ")*".toList else c
    if k.optional = true ∧ P ≠ [] then "(?:".toList ++ P ++ "(".toList ++ c' ++ "))?".toList
    else if k.optional = true then "(".toList ++ c' ++ ")?".toList
    else P ++ "(".toList ++ c' ++ ")".toList

/-- C1: the last token is a literal that ends in `/`. -/
def specLastIsSlashLiteral (T : List PathToken) : Bool :=
  match T.getLast? with
  | some (lit s) => s.getLast? = some '/'
  | _ => false

/-- C1: the source for the tokens `T` and the option set `O`, in which `STRICT` is bit 1 and
`END` is bit 2. -/
def specSource (T : List PathToken) (O : Nat) : Str :=
  let strict := O.testBit 1
  let atEnd := O.testBit 2
  let slash := specLastIsSlashLiteral T
  let body := (T.map specPiece).flatten
  let body :=
    if strict = false then
      (if slash = true then body.dropLast.dropLast else body) ++ "(?:\\/(?=$))?".toList
    else body
  "^".toList ++ body ++
    (if atEnd = true then "$".toList
     else if strict = true ∧ slash = true then [] else "(?=\\/|$)".toList)

/-- C9: the characters that are kept as they are. -/
def specUnreserved : Str :=
  "ABCDEFGHIJKLMNOPQRSTUVWXYZabcdefghijklmnopqrstuvwxyz0123456789-_.!~*'()".toList

/-- C9: the uppercase hexadecimal digit of a value below 16. -/
def specHexDigit (d : Nat) : Char :=
  "0123456789ABCDEF".toList.getD d '0'

/-- C9: what one byte becomes. -/
def specEncodeByte (c : Char) : Str :=
  if c ∈ specUnreserved then [c]
  else if c = ' ' then ['+']
  else ['%', specHexDigit (c.toNat / 16), specHexDigit (c.toNat % 16)]

/-- The regular expression that `init` attaches to a key. -/
def keyRegex (k : PathKey) : Option Regex :=
  Regex.compile ("^".toList ++ k.pattern ++ "$".toList) { icase := false, ECMAScript := true }

/-- The data map with the one entry `name ↦ values`. -/
def singleEntry (name : Str) (values : List Str) : SegmentMap :=
  fun k => if k = name then some values else none

/-- C4: the string `s`, taken as a whole, is in the language of the pattern; this is the call
`std::regex_match(s, std::regex(pattern))`. -/
def inLanguage (pattern s : Str) : Bool :=
  match Regex.compile pattern { icase := false, ECMAScript := true } with
  | none => false
  | some regex =>
    (regex.re.run regex.icase { pos := 0, rest := s, caps := [] }).any (fun st => st.rest.isEmpty)

/-! ## Values of the test-suite (`HttpUtilsTest.cpp`) -/

/-- The tokens of `"/user/:id(\\d+)"`. -/
def tokensUserDigits : List PathToken :=
  [lit "/user".toList, key ⟨"id".toList, "/".toList, "/".toList, false, false, "\\d+".toList⟩]

/-- The tokens of `"/:postType(video|audio|text)"`. -/
def tokensPostType : List PathToken :=
  [key ⟨"postType".toList, "/".toList, "/".toList, false, false, "video|audio|text".toList⟩]

/-- C10: the source `"(?:" ++ r1 ++ "|" ++ ... ++ "|" ++ rn ++ ")"`. -/
def specAlternation (sources : List Str) : Str :=
  "(?:".toList ++ List.intercalate "|".toList sources ++ ")".toList

/-- C8: the group-escape, a backslash before each of `= ! : $ / ( )`. -/
def specEscapeGroup (b : Str) : Str :=
  (b.map (fun c => if c ∈ "=!:$/()".toList then ['\\', c] else [c])).flatten

/-- C6: the matcher qualifies for the request: its method is the request's, `""` or `"*"`, and
its regular expression matches the path. -/
def qualifies {Response : Type} (req : Request) (matcher : Matcher Response) : Bool :=
  (decide (matcher.method = req.method) || decide (matcher.method = []) ||
      decide (matcher.method = "*".toList)) &&
    (matcher.pathRegex.search req.uriPath).isSome

/-- C6: the handler calls `ctx.next()` at most once, and only as its last action. -/
def HandlerProg.TailNext {Response : Type} : HandlerProg Response → Prop
  | HandlerProg.done => True
  | HandlerProg.next HandlerProg.done => True
  | HandlerProg.next _ => False
  | HandlerProg.readMatch _ k => ∀ s, (k s).TailNext
  | HandlerProg.update _ k => k.TailNext
  | HandlerProg.read k => ∀ r, (k r).TailNext

/-- What a handler does up to its return or its call of `ctx.next()`, when `m` is the match of
its matcher: the response it leaves, and whether it calls `ctx.next()`. -/
def HandlerProg.ownPart {Response : Type} (m : Option SMatch) :
    HandlerProg Response → Response → Response × Bool
  | HandlerProg.done, r => (r, false)
  | HandlerProg.next _, r => (r, true)
  | HandlerProg.readMatch i k, r =>
    HandlerProg.ownPart m (k (match m with | some sm => sm.str i | none => [])) r
  | HandlerProg.update f k, r => HandlerProg.ownPart m k (f r)
  | HandlerProg.read k, r => HandlerProg.ownPart m (k r) r

/-- C6: the dispatch in the words of the claim: the matchers (the first one has index
`i`) are visited in insertion order; the handler of each one that qualifies is invoked, up to
and including the first one whose handler does not call `next()`. The result is the indices
of the handlers invoked and the response. -/
def specDispatch {Response : Type} (req : Request) :
    Nat → List (Matcher Response) → Response → List Nat × Response
  | _, [], r => ([], r)
  | i, matcher :: rest, r =>
    if qualifies req matcher then
      let own := (matcher.handler req).ownPart (matcher.pathRegex.search req.uriPath) r
      if own.2 then
        let later := specDispatch req (i + 1) rest own.1
        (i :: later.1, later.2)
      else ([i], own.1)
    else specDispatch req (i + 1) rest r

/-- The regular expression that `HttpRouter::add` compiles for a pattern of the test-suite. -/
def testRegex (path : String) : Regex :=
  ((pathToRegexp path.toList PR_END).bind to_regex).getD { re := Re.empty, icase := true }

/-- The five matchers of the router test; the response is the vector `XResponse::results`. -/
def testMatchers : List (Matcher (List Str)) :=
  [ { method := "*".toList, pathRegex := testRegex "/user/*"
      handler := fun req =>
        HandlerProg.update
          (fun res => res ++ ["USER PROCESSING: ".toList ++ req.method ++ " ".toList ++ req.uriPath])
          (HandlerProg.next HandlerProg.done) },
    { method := "GET".toList, pathRegex := testRegex "/user/:id(\\d+)"
      handler := fun req =>
        HandlerProg.readMatch 1 (fun m =>
          HandlerProg.update
            (fun res => res ++ ["USER AS INTEGER: ".toList ++ m ++ " ".toList ++ req.method ++
              " ".toList ++ req.uriPath])
            HandlerProg.done) },
    { method := "GET".toList, pathRegex := testRegex "/user/:str"
      handler := fun req =>
        HandlerProg.readMatch 1 (fun m =>
          HandlerProg.update
            (fun res => res ++ ["USER AS STRING: ".toList ++ m ++ " ".toList ++ req.method ++
              " ".toList ++ req.uriPath])
            HandlerProg.done) },
    { method := "PUT".toList, pathRegex := testRegex "/data/:str"
      handler := fun req =>
        HandlerProg.readMatch 1 (fun m =>
          HandlerProg.update
            (fun res => res ++ [m ++ " ".toList ++ req.method ++ " ".toList ++ req.uriPath])
            HandlerProg.done) },
    { method := "*".toList, pathRegex := testRegex "*"
      handler := fun req =>
        HandlerProg.update
          (fun res => res ++ ["DEFAULT: ".toList ++ req.method ++ " ".toList ++ req.uriPath])
          HandlerProg.done } ]

/-- What the router test looks at after one request: the handlers entered and the results. -/
def testRun (method uriPath : String) : Option (List Nat × List String) :=
  (HttpRouter.handleRequest { matchers_ := testMatchers }
      { method := method.toList, uriPath := uriPath.toList } []).map
    (fun ctx => (ctx.entered, ctx.response.map String.mk))

/-! ## The key accumulator of `pathToRegexp` -/

/-- The loop of `pathToRegexp` that attaches the keys: each key token is pushed onto `keys`. -/
def pushKeys (keys : List PathKey) : List PathToken → List PathKey
  | [] => keys
  | PathToken.lit _ :: rest => pushKeys keys rest
  | PathToken.key k :: rest => pushKeys (keys ++ [k]) rest

/-- The single-pattern `pathToRegexp`, called with a key accumulator (`keys != 0`): the
regular expression and the accumulator after the call. -/
def pathToRegexpKeys (path : Str) (keys : List PathKey) (options : Nat) :
    Option (RegExp × List PathKey) :=
  match parsePath path with
  | none => none
  | some tokens =>
    match tokensToRegExp tokens options with
    | none => none
    | some re => some (re, pushKeys keys tokens)

/-- The `while` loop of the iterator-range `pathToRegexp`, called with a key accumulator. -/
def pathToRegexpKeysLoop (options : Nat) :
    List Str → Str → List PathKey → Option (Str × List PathKey)
  | [], pattern, keys => some (pattern, keys)
  | p :: rest, pattern, keys =>
    match pathToRegexpKeys p keys options with
    | none => none
    | some (re, keys) => pathToRegexpKeysLoop options rest (pattern ++ ("|".toList ++ re.source)) keys

/-- The iterator-range `pathToRegexp`, called with a key accumulator. -/
def pathToRegexpListKeys (paths : List Str) (keys : List PathKey) (options : Nat) :
    Option (RegExp × List PathKey) :=
  let pattern := "(?:".toList
  let first :=
    match paths with
    | [] => some (pattern, keys, [])
    | p :: rest =>
      match pathToRegexpKeys p keys options with
      | none => none
      | some (re, keys) => some (pattern ++ re.source, keys, rest)
  match first with
  | none => none
  | some (pattern, keys, rest) =>
    match pathToRegexpKeysLoop options rest pattern keys with
    | none => none
    | some (pattern, keys) =>
      some ({ source := pattern ++ ")".toList, flags := pathFlags options }, keys)

/-- C11: the key tokens of a token sequence, in token order. -/
def specKeysOf (tokens : List PathToken) : List PathKey :=
  tokens.filterMap (fun t =>
    match t with
    | lit _ => none
    | key k => some k)

/-- C11: the key tokens of `parsePath(p)`. -/
def specKeysOfPattern (p : Str) : List PathKey :=
  specKeysOf ((parsePath p).getD [])

/-- C17: two matchers. The handler of the first one reads `ctx.match(1)`, calls `ctx.next()`,
reads `ctx.match(1)` again and appends both texts to the response; the second matcher has the
method `GET` and a pattern for other paths. -/
def matchersReadAfterNext : List (Matcher (List Str)) :=
  [ { method := "*".toList, pathRegex := testRegex "/user/:id"
      handler := fun _ =>
        HandlerProg.readMatch 1 (fun before =>
          HandlerProg.next
            (HandlerProg.readMatch 1 (fun after =>
              HandlerProg.update (fun res => res ++ [before, after]) HandlerProg.done))) },
    { method := "GET".toList, pathRegex := testRegex "/data/:str"
      handler := fun _ => HandlerProg.update (fun res => res ++ ["DATA".toList]) HandlerProg.done } ]

/-- The text does not begin with `:`, `(` or `*`. -/
def noConstructAhead (rest : Str) : Prop :=
  ∀ c t, rest = c :: t → c ≠ ':' ∧ c ≠ '(' ∧ c ≠ '*'

/-- C15: the character is none of backslash, `:`, `(` and `*`. -/
def plainChar (c : Char) : Prop :=
  c ≠ '\\' ∧ c ≠ ':' ∧ c ≠ '(' ∧ c ≠ '*'

/-- C16: the matches of the master regular expression that create a key, from `index` on, in
order of appearance: each search starts where the match before it ended, and the match of an
escaped character creates no key. -/
def specKeyMatchesFrom (str : Str) : Nat → Nat → List SMatch
  | 0, _ => []
  | fuel + 1, index =>
    match regex_search false PATH_REGEXP (str.drop index) with
    | none => []
    | some res =>
      if (res.str 1).isEmpty then
        res :: specKeyMatchesFrom str fuel (index + (res.position + (res.str 0).length))
      else specKeyMatchesFrom str fuel (index + (res.position + (res.str 0).length))

/-- C16: the constructs of a pattern that create a key, in order of appearance. -/
def specKeyMatches (str : Str) : List SMatch :=
  specKeyMatchesFrom str (str.length + 1) 0

/-- C16: the construct is un-named, an anonymous group or a bare `*`: the name group of its
match is empty. -/
def specUnnamed (m : SMatch) : Bool :=
  (m.str 3).isEmpty

/-- C16: the names of the keys of a sequence of constructs, with the counter at `k`: a named
parameter keeps its name and leaves the counter, an un-named construct gets the decimal
rendering of the counter and advances it. -/
def specKeyNames : Nat → List SMatch → List Str
  | _, [] => []
  | k, m :: ms =>
    if specUnnamed m = true then to_string_int k :: specKeyNames (k + 1) ms
    else m.str 3 :: specKeyNames k ms

/-- C16: of the keys `keys`, created by the constructs `ms` in this order, those that come
from an un-named construct. -/
def specUnnamedKeys (keys : List PathKey) (ms : List SMatch) : List PathKey :=
  ((keys.zip ms).filter (fun p => specUnnamed p.2)).map (fun p => p.1)

/-- The keys that the loop of `parsePath` builds from a sequence of matches, with the local
variable `key` at `k` before the first one. -/
def keysOfMatches : Nat → List SMatch → List PathKey
  | _, [] => []
  | k, m :: ms => (keyOfMatch m k).1 :: keysOfMatches (keyOfMatch m k).2 ms

/-- C18: the data map that assigns the capture groups of a match to the key names in declared
order: the first key gets the text of group `i`, the next one that of group `i + 1`, and so
on. -/
def specExtractFrom (m : SMatch) : Nat → List PathKey → SegmentMap
  | _, [] => fun _ => none
  | i, k :: ks => fun name =>
    if name = k.name then some [m.str i] else specExtractFrom m (i + 1) ks name

/-- C18: `extract`: the capture groups 1, 2, ... of the match, by key name. -/
def specExtract (keys : List PathKey) (m : SMatch) : SegmentMap :=
  specExtractFrom m 1 keys

/-- C18: the round trip of `path` through the pattern `p` under the option set `O`: the
regex of `pathToRegexp(p, O)` is searched in `path`, and `compilePath(p)` is called with the
data map extracted from the match. It is `none` when the regex does not match. -/
def specRoundTrip (p : Str) (O : Nat) (path : Str) : Option CallResult :=
  match pathToRegexp p O with
  | none => none
  | some re =>
    match to_regex re with
    | none => none
    | some rx =>
      match rx.search path with
      | none => none
      | some m => (compilePath p).map (fun pf => pf.call (specExtract (specKeysOfPattern p) m))

/-- The characters that `escapeString` escapes. -/
def escapedChars : Str :=
  ".+*?=^!:${}()[]|/".toList

/-- A term of a regular expression can start with this source: it is not empty and does not
begin with a quantifier, `|` or `)`. -/
def termStart (inp : Str) : Prop :=
  ∃ x xs, inp = x :: xs ∧ x ≠ '*' ∧ x ≠ '+' ∧ x ≠ '?' ∧ x ≠ '{' ∧ x ≠ '|' ∧ x ≠ ')'

/-- C18: the key is a plain parameter `:name`, with no group body, no suffix and no wildcard:
prefix `/`, `.` or none, and the default pattern of its delimiter. -/
def plainKey (k : PathKey) : Bool :=
  k == ⟨k.name, "/".toList, "/".toList, false, false, "[^\\/]+?".toList⟩ ||
  k == ⟨k.name, [], "/".toList, false, false, "[^\\/]+?".toList⟩ ||
  k == ⟨k.name, ".".toList, ".".toList, false, false, "[^.]+?".toList⟩

/-- C18: the tokens are literals without a backslash and plain parameters. -/
def plainTokens (T : List PathToken) : Prop :=
  ∀ t ∈ T,
    match t with
    | lit s => '\\' ∉ s
    | key k => plainKey k = true

/-- The delimiter of a key as a character. -/
def delimiterChar (k : PathKey) : Char :=
  k.delimiter.headD '/'

/-- The expression of the default pattern `[^d]+?`. -/
def reSegment (d : Char) : Re :=
  Re.plus false (Re.cls true [ClassItem.single d])

/-- The terms of the expression that the source of plain tokens stands for; `n` groups are
open before them. -/
def termsOf : Nat → List PathToken → List Re
  | _, [] => []
  | n, lit s :: T => s.map Re.char ++ termsOf n T
  | n, key k :: T =>
    k.pfx.map Re.char ++ Re.group (n + 1) (reSegment (delimiterChar k)) :: termsOf (n + 1) T

/-- The sequence of the terms `ts`, then `last`. -/
def reChain : List Re → Re → Re
  | [], last => last
  | t :: ts, last => Re.seq t (reChain ts last)

/-- C18: the path made of the tokens and one value per key: each literal, and for each key its
prefix and its value. -/
def specPath : List PathToken → List Str → Str
  | [], _ => []
  | lit s :: T, vs => s ++ specPath T vs
  | key k :: T, v :: vs => k.pfx ++ v ++ specPath T vs
  | key k :: T, [] => k.pfx ++ specPath T []

/-- The groups of a match after the groups `n + 1`, `n + 2`, ... have closed, in this order,
with the texts `vs`. -/
def capsOf : Nat → List Str → List (Nat × Str) → List (Nat × Str)
  | _, [], caps => caps
  | n, v :: vs, caps => capsOf (n + 1) vs ((n + 1, v) :: caps)

/-- The text `v` can be the value of the key `k`: it is not empty and has no delimiter. -/
def segmentOf (k : PathKey) (v : Str) : Prop :=
  v ≠ [] ∧ ∀ c ∈ v, c ≠ delimiterChar k

/-- C21: the string with one backslash put before each character of the escape set
`. + * ? = ^ ! : $ { } ( ) [ ] | /` and every other character copied. -/
def specEscape (s : Str) : Str :=
  (s.map (fun c => if c ∈ ".+*?=^!:${}()[]|/".toList then ['\\', c] else [c])).flatten

/-- C28: the value of an uppercase hexadecimal digit. -/
def specHexValue (c : Char) : Nat :=
  if c.isDigit then c.toNat - '0'.toNat else c.toNat - 'A'.toNat + 10

/-- C28: the decoder: `%` with two hexadecimal digits is the byte with this value, `+` is a
space, any other character is itself. -/
def specDecode : Str → Str
  | [] => []
  | '%' :: a :: b :: rest => Char.ofNat (specHexValue a * 16 + specHexValue b) :: specDecode rest
  | '+' :: rest => ' ' :: specDecode rest
  | c :: rest => c :: specDecode rest

/-- The text `p` is what stands for the character `c` in an encoded string: `c` itself when it
is neither `%` nor `+`, `+` for a space, or `%` and the two digits of `c`. -/
def encodesChar (c : Char) (p : Str) : Bool :=
  match p with
  | [x] => (x == c && x != '%' && x != '+') || (x == '+' && c == ' ')
  | ['%', a, b] => Char.ofNat (specHexValue a * 16 + specHexValue b) == c
  | _ => false

/-- C22: the characters an encoded value may hold: ASCII letters, digits,
`- _ . ! ~ * ' ( )`, `+` and `%`. -/
def specEncodedChars : Str :=
  "ABCDEFGHIJKLMNOPQRSTUVWXYZabcdefghijklmnopqrstuvwxyz0123456789-_.!~*'()+%".toList

/-- C22: an uppercase hexadecimal digit. -/
def specIsHexDigit (c : Char) : Bool :=
  c ∈ "0123456789ABCDEF".toList

/-- C22: every `%` of the text is followed by two uppercase hexadecimal digits. -/
def specPercentOk : Str → Bool
  | [] => true
  | c :: rest =>
    (c != '%' ||
      match rest with
      | a :: b :: _ => specIsHexDigit a && specIsHexDigit b
      | _ => false) && specPercentOk rest

/-- What `encodeURIComponent` appends for one character is a character that it keeps, other
than `%`, or `+`, or `%` and two uppercase hexadecimal digits. -/
def encodedPiece (p : Str) : Bool :=
  match p with
  | [x] => x ∈ specEncodedChars && x != '%' && x != '/'
  | ['%', a, b] => specIsHexDigit a && specIsHexDigit b
  | _ => false

/-- C25: what a walk from the state `ctx` to the state `ctx'` over `n` matchers has to obey:
the cursor has moved forward only and is not past the end of the list, and the handlers
entered in between are matchers between the two cursors, entered in strictly increasing
order. -/
def walkStep {Response : Type} (n : Nat) (ctx ctx' : Context Response) : Prop :=
  ctx.current_ ≤ ctx'.current_ ∧ ctx'.current_ ≤ n ∧
    ∃ new, ctx'.entered = ctx.entered ++ new ∧ new.Pairwise (fun i j => i < j) ∧
      ∀ i ∈ new, ctx.current_ ≤ i ∧ i < ctx'.current_

/-- C25: three matchers for `/user/:id`; the handler of the first one calls `ctx.next()`
twice, once in the middle of its work and once at its end. -/
def matchersNextTwice : List (Matcher (List Str)) :=
  [ { method := "*".toList, pathRegex := testRegex "/user/:id"
      handler := fun _ =>
        HandlerProg.update (fun res => res ++ ["A1".toList])
          (HandlerProg.next
            (HandlerProg.update (fun res => res ++ ["A2".toList])
              (HandlerProg.next
                (HandlerProg.update (fun res => res ++ ["A3".toList]) HandlerProg.done)))) },
    { method := "GET".toList, pathRegex := testRegex "/user/:id"
      handler := fun _ => HandlerProg.update (fun res => res ++ ["B".toList]) HandlerProg.done },
    { method := [], pathRegex := testRegex "/user/:id"
      handler := fun _ =>
        HandlerProg.update (fun res => res ++ ["C".toList]) (HandlerProg.next HandlerProg.done) } ]

/-- The numbers of the capturing groups of an expression, in the order of their opening
parentheses. -/
def Re.groups : Re → List Nat
  | Re.empty => []
  | Re.char _ => []
  | Re.any => []
  | Re.cls _ _ => []
  | Re.seq a b => a.groups ++ b.groups
  | Re.alt a b => a.groups ++ b.groups
  | Re.star _ r => r.groups
  | Re.group n r => n :: r.groups
  | Re.look _ r => r.groups
  | Re.bol => []
  | Re.eol => []

/-- C26: the key is well formed: the name is not empty, the prefix is `""`, `"/"` or `"."`,
the delimiter is the prefix when that is not empty and `"/"` otherwise, so never empty, and the
pattern is not empty. -/
def specWellFormedKey (k : PathKey) : Bool :=
  !k.name.isEmpty &&
    (k.pfx == [] || k.pfx == "/".toList || k.pfx == ".".toList) &&
    k.delimiter == (if k.pfx.isEmpty then "/".toList else k.pfx) &&
    !k.delimiter.isEmpty && !k.pattern.isEmpty

/-- C26: a key token is well formed as a key, and a literal token is not empty. -/
def specWellFormedToken : PathToken → Bool
  | lit s => !s.isEmpty
  | key k => specWellFormedKey k

/-- C27: the number of capturing groups of a source: the opening parentheses that are neither
escaped by a backslash, nor followed by `?`, nor inside a character class. The first flag says
that the character before was an escaping backslash, the second one that the text is inside a
character class. -/
def specCountGroups : Bool → Bool → Str → Nat
  | _, _, [] => 0
  | true, inClass, _ :: rest => specCountGroups false inClass rest
  | false, inClass, c :: rest =>
    if c = '\\' then specCountGroups true inClass rest
    else if inClass = true then
      if c = ']' then specCountGroups false false rest else specCountGroups false true rest
    else if c = '[' then specCountGroups false true rest
    else if c = '(' then
      (if rest.head? = some '?' then 0 else 1) + specCountGroups false false rest
    else specCountGroups false false rest

/-- C27: a pattern with two keys; the group body of the first one is `\(\)`, an escaped pair
of parentheses. -/
def patternEscapedParens : Str :=
  ['/', ':', 'a', '(', '\\', '(', '\\', ')', ')', '/', ':', 'b']

/-- The data map with two entries. -/
def twoEntries (n1 : Str) (v1 : List Str) (n2 : Str) (v2 : List Str) : SegmentMap :=
  fun k => if k = n1 then some v1 else if k = n2 then some v2 else none

/-- The expression of the end that `tokensToRegExp` appends without `STRICT` and with `END`:
`(?:\/(?=$))?$`. -/
def reLaxEnd : Re :=
  Re.seq (Re.opt true (Re.seq (Re.char '/') (Re.look false Re.eol))) Re.eol

/-- What follows a key in the tokens begins with the delimiter `d` of the key, or nothing
follows; `extra` is what follows the tokens. -/
def delimitedAfter (d : Char) (extra : Str) : List PathToken → Bool
  | [] => extra.isEmpty || extra == [d]
  | lit [] :: T => delimitedAfter d extra T
  | lit (c :: _) :: _ => c == d
  | key k :: _ => k.pfx == [d]

/-- C5: every key is followed by its delimiter (the beginning of a literal, or the prefix of
the next key) or by the end of the tokens. -/
def keysDelimited (extra : Str) : List PathToken → Bool
  | [] => true
  | lit _ :: T => keysDelimited extra T
  | key k :: T => delimitedAfter (delimiterChar k) extra T && keysDelimited extra T

/-- The text `e` can be the encoded value of the key `k` in a path: it is not empty and has
neither the delimiter of the key nor `/`. -/
def encodedSegmentOf (k : PathKey) (e : Str) : Prop :=
  e ≠ [] ∧ (∀ c ∈ e, c ≠ delimiterChar k) ∧ '/' ∉ e

/-! # Theorems -/

/-- The expression `PATH_REGEXP` is what the constructor of `std::regex` makes of its source. -/
theorem PATH_REGEXP_compiled :
    Regex.compile PATH_REGEXP_source { icase := false, ECMAScript := true }
      = some { re := PATH_REGEXP, icase := false } := by
  decide!

theorem and_two_pow_ne_zero (n i : Nat) : ((n &&& 2 ^ i) != 0) = n.testBit i := by
  rw [Nat.and_two_pow]
  cases h : n.testBit i <;> simp

theorem escapeStringStep_eq (res : Str) (c : Char) :
    escapeStringStep res c = res ++ escapeStringStep [] c := by
  unfold escapeStringStep
  split <;> simp

theorem foldl_escapeStringStep (s : Str) (acc : Str) :
    s.foldl escapeStringStep acc = acc ++ escapeString s := by
  induction s using List.reverseRecOn generalizing acc with
  | nil => simp [escapeString]
  | append_singleton s c ih =>
    simp only [escapeString, List.foldl_append, List.foldl_cons, List.foldl_nil]
    rw [escapeStringStep_eq (List.foldl escapeStringStep acc s), ih,
      escapeStringStep_eq (List.foldl escapeStringStep [] s)]
    simp [escapeString]


theorem keyCapture_eq_specPiece (k : PathKey) : keyCapture k = specPiece (key k) := by
  unfold keyCapture specPiece
  cases hr : k.rep <;> cases ho : k.optional <;> cases hp : escapeString k.pfx <;> simp [hr, ho, hp]

theorem foldl_routeStep (T : List PathToken) (acc : Str) :
    T.foldl routeStep acc = acc ++ (T.map specPiece).flatten := by
  induction T generalizing acc with
  | nil => simp
  | cons t T ih =>
    simp only [List.foldl_cons, List.map_cons, List.flatten_cons]
    rw [ih]
    cases t with
    | lit s => simp [routeStep, specPiece]
    | key k => simp [routeStep, keyCapture_eq_specPiece]

theorem ends_with_slash_iff (s : Str) : ends_with s "/".toList = true ↔ s.getLast? = some '/' := by
  unfold ends_with
  rw [List.isSuffixOf_iff_suffix]
  constructor
  · rintro ⟨t, rfl⟩
    simp
  · intro h
    rw [List.getLast?_eq_some_iff] at h
    obtain ⟨t, rfl⟩ := h
    exact ⟨t, rfl⟩

theorem endsWithSlashToken_getLast (T : List PathToken) (t : PathToken)
    (h : T.getLast? = some t) : endsWithSlashToken t = specLastIsSlashLiteral T := by
  unfold specLastIsSlashLiteral
  rw [h]
  cases t with
  | lit s =>
    simp only [endsWithSlashToken]
    rw [Bool.eq_iff_iff, ends_with_slash_iff]
    simp
  | key k => simp [endsWithSlashToken]

theorem escapeString_append (a b : Str) : escapeString (a ++ b) = escapeString a ++ escapeString b := by
  simp only [escapeString, List.foldl_append]
  rw [foldl_escapeStringStep]
  rfl

theorem substr_sizeSub_two (a : Str) (x y : Char) :
    substr (a ++ [x, y]) 0 (sizeSub (a ++ [x, y]).length 2) = (a ++ [x, y]).dropLast.dropLast := by
  have h1 : (a ++ [x, y]).dropLast.dropLast = a := by
    rw [show a ++ [x, y] = (a ++ [x]) ++ [y] by simp]
    rw [List.dropLast_concat, List.dropLast_concat]
  rw [h1]
  simp [substr, sizeSub]

theorem body_ends_with_slash (T : List PathToken) (h : specLastIsSlashLiteral T = true) :
    ∃ a, (T.map specPiece).flatten = a ++ ['\\', '/'] := by
  unfold specLastIsSlashLiteral at h
  split at h
  · rename_i s hs
    rw [List.getLast?_eq_some_iff] at hs
    obtain ⟨T', rfl⟩ := hs
    simp only [decide_eq_true_eq] at h
    rw [List.getLast?_eq_some_iff] at h
    obtain ⟨s', rfl⟩ := h
    refine ⟨(T'.map specPiece).flatten ++ escapeString s', ?_⟩
    simp [specPiece, escapeString_append]
    rfl
  · simp at h



theorem strict_bit (O : Nat) : ((O &&& PR_STRICT) != 0) = O.testBit 1 :=
  and_two_pow_ne_zero O 1

theorem end_bit (O : Nat) : ((O &&& PR_END) != 0) = O.testBit 2 :=
  and_two_pow_ne_zero O 2

/-- C1: for a non-empty token sequence the source that `tokensToRegExp` returns is the
string the specification describes: `"^"`, the pieces of the tokens in order, the trailing-slash
adjustment when `STRICT` is not set, and the ending chosen by `END` and `STRICT`. -/
theorem tokensToRegExp_source (T : List PathToken) (O : Nat) (hT : T ≠ []) :
    (tokensToRegExp T O).map RegExp.source = some (specSource T O) := by
  obtain ⟨t, ht⟩ : ∃ t, T.getLast? = some t := by
    cases h : T.getLast? with
    | none => exact absurd (List.getLast?_eq_none_iff.mp h) hT
    | some t => exact ⟨t, rfl⟩
  unfold tokensToRegExp specSource
  simp only [ht, strict_bit, end_bit, Option.map_some', endsWithSlashToken_getLast T t ht,
    foldl_routeStep, List.nil_append]
  congr 1
  have hb : specLastIsSlashLiteral T = true →
      substr (T.map specPiece).flatten 0 (sizeSub (T.map specPiece).flatten.length 2)
        = (T.map specPiece).flatten.dropLast.dropLast := by
    intro hl
    obtain ⟨a, ha⟩ := body_ends_with_slash T hl
    rw [ha, substr_sizeSub_two]
  generalize (T.map specPiece).flatten = body at hb
  cases hs : O.testBit 1 <;> cases he : O.testBit 2 <;>
    cases hl : specLastIsSlashLiteral T <;> simp [hb, hl]

theorem tokensToRegExp_source_witness :
    [key ⟨"test".toList, "/".toList, "/".toList, false, false, "[^\\/]+?".toList⟩, lit "/".toList] ≠ [] ∧
    (tokensToRegExp
        [key ⟨"test".toList, "/".toList, "/".toList, false, false, "[^\\/]+?".toList⟩, lit "/".toList]
        PR_END).map RegExp.source
      = some (specSource
        [key ⟨"test".toList, "/".toList, "/".toList, false, false, "[^\\/]+?".toList⟩, lit "/".toList]
        PR_END) :=
  ⟨by simp, tokensToRegExp_source _ _ (by simp)⟩

set_option maxRecDepth 100000 in
theorem encodeStep_byte_ofNat : ∀ n, n < 256 →
    encodeStep [] (Char.ofNat n) = specEncodeByte (Char.ofNat n) := by
  decide!

theorem encodeStep_eq (v : Str) (c : Char) : encodeStep v c = v ++ encodeStep [] c := by
  unfold encodeStep
  split
  · simp
  · split <;> simp

theorem foldl_encodeStep (s : Str) (acc : Str) :
    s.foldl encodeStep acc = acc ++ (s.map (encodeStep [])).flatten := by
  induction s generalizing acc with
  | nil => simp
  | cons c s ih =>
    simp only [List.foldl_cons, List.map_cons, List.flatten_cons]
    rw [ih, encodeStep_eq]
    simp

/-- C9: on a byte string `encodeURIComponent` is the concatenation, byte by byte, of the byte
itself for an unreserved character, `+` for a space, and otherwise `%` with the two uppercase
hexadecimal digits of the byte, the high one first. -/
theorem encodeURIComponent_bytes (s : Str) (hs : ∀ c ∈ s, c.toNat < 256) :
    encodeURIComponent s = (s.map specEncodeByte).flatten := by
  unfold encodeURIComponent
  rw [foldl_encodeStep, List.nil_append]
  congr 1
  apply List.map_congr_left
  intro c hc
  have := encodeStep_byte_ofNat c.toNat (hs c hc)
  rwa [Char.ofNat_toNat] at this

theorem encodeURIComponent_bytes_witness :
    (∀ c ∈ ['a', ' ', '/', Char.ofNat 0x80, Char.ofNat 0xFF], c.toNat < 256) ∧
    encodeURIComponent ['a', ' ', '/', Char.ofNat 0x80, Char.ofNat 0xFF]
      = (['a', ' ', '/', Char.ofNat 0x80, Char.ofNat 0xFF].map specEncodeByte).flatten :=
  ⟨by decide!, encodeURIComponent_bytes _ (by decide!)⟩

theorem init_eq (tokens : List PathToken) (pf : PathFunction) (h : PathFunction.init tokens = some pf) :
    pf.tokens_ = tokens ∧ initMatches tokens = some pf.matches_ := by
  unfold PathFunction.init at h
  cases hr : initMatches tokens with
  | none => simp [hr] at h
  | some ms => simp [hr] at h; subst h; simp

/-- The test of `"/user/:id(\\d+)"`: the value `"123"` is rendered, the value `"abc"` is rejected
with a pattern mismatch. -/
theorem call_userDigits :
    parsePath "/user/:id(\\d+)".toList = some tokensUserDigits ∧
    (compilePath "/user/:id(\\d+)".toList).map
        (fun pf => pf.call (singleEntry "id".toList ["123".toList]))
      = some (CallResult.returned "/user/123".toList) ∧
    (compilePath "/user/:id(\\d+)".toList).map
        (fun pf => pf.call (singleEntry "id".toList ["abc".toList]))
      = some (CallResult.thrown ⟨ErrorKind.PATTERN_MISMATCH,
          "Expected all \"id\" to match \"\\d+\", but received \"abc\"".toList⟩) := by
  decide!

/-- C4, at the failing input: for the pattern `"/:postType(video|audio|text)"` the value
`"videos"` is not in the language of the key's pattern `video|audio|text`, and yet
`PathFunction::operator()` does not throw and renders `"/videos"`: the search for
`^video|audio|text$` succeeds on a match of its first alternative `^video`. -/
theorem call_accepts_value_outside_pattern :
    parsePath "/:postType(video|audio|text)".toList = some tokensPostType ∧
    inLanguage "video|audio|text".toList (encodeURIComponent "videos".toList) = false ∧
    (keyRegex ⟨"postType".toList, "/".toList, "/".toList, false, false, "video|audio|text".toList⟩).map
        (fun re => (re.search (encodeURIComponent "videos".toList)).map (fun m => m.str 0))
      = some (some "video".toList) ∧
    (compilePath "/:postType(video|audio|text)".toList).map
        (fun pf => pf.call (singleEntry "postType".toList ["videos".toList]))
      = some (CallResult.returned "/videos".toList) := by
  decide!

/-- The value `"videos"`, which the inverse compiler accepts for the pattern
`"/:postType(video|audio|text)"` through the ungrouped pattern of `init`, is rendered as
`"/videos"`, which the regular expression emitted for the same pattern with the default
options does not match. -/
theorem rendered_path_not_matched :
    (compilePath "/:postType(video|audio|text)".toList).map
        (fun pf => pf.call (singleEntry "postType".toList ["videos".toList]))
      = some (CallResult.returned "/videos".toList) ∧
    (pathToRegexp "/:postType(video|audio|text)".toList PR_END).map RegExp.source
      = some "^\\/(video|audio|text)(?:\\/(?=$))?$".toList ∧
    ((pathToRegexp "/:postType(video|audio|text)".toList PR_END).bind to_regex).map
        (fun re => re.search "/videos".toList)
      = some none := by
  decide!

theorem pathToRegexpLoop_eq (O : Nat) (ps : List Str) (rs : List RegExp) (pattern : Str)
    (h : List.Forall₂ (fun p r => pathToRegexp p O = some r) ps rs) :
    pathToRegexpLoop O ps pattern
      = some (pattern ++ (rs.map (fun r => "|".toList ++ r.source)).flatten) := by
  induction h generalizing pattern with
  | nil => simp [pathToRegexpLoop]
  | cons hp _ ih =>
    simp only [pathToRegexpLoop, hp, ih]
    simp

theorem intercalate_cons_eq (sep x : Str) (xs : List Str) :
    List.intercalate sep (x :: xs) = x ++ (xs.map (fun y => sep ++ y)).flatten := by
  induction xs generalizing x with
  | nil => simp [List.intercalate]
  | cons y ys ih =>
    have := ih y
    simp only [List.intercalate, List.intersperse_cons_cons, List.flatten_cons, List.map_cons] at this ⊢
    rw [this]
    simp

theorem pathToRegexp_some (p : Str) (O : Nat) (toks : List PathToken)
    (hp : parsePath p = some toks) (hne : toks ≠ []) :
    ∃ r, pathToRegexp p O = some r ∧ ∃ t, r.source = '^' :: t := by
  unfold pathToRegexp
  rw [hp]
  simp only
  unfold tokensToRegExp
  cases hl : toks.getLast? with
  | none => exact absurd (List.getLast?_eq_none_iff.mp hl) hne
  | some t => exact ⟨_, rfl, _, rfl⟩

theorem exists_regexps (ps : List Str) (O : Nat)
    (h : ∀ p ∈ ps, ∃ toks, parsePath p = some toks ∧ toks ≠ []) :
    ∃ rs : List RegExp, List.Forall₂ (fun p r => pathToRegexp p O = some r) ps rs ∧
      ∀ r ∈ rs, ∃ t, r.source = '^' :: t := by
  induction ps with
  | nil => exact ⟨[], List.Forall₂.nil, by simp⟩
  | cons p ps ih =>
    obtain ⟨toks, hp, hne⟩ := h p (List.mem_cons_self _ _)
    obtain ⟨r, hr, ht⟩ := pathToRegexp_some p O toks hp hne
    obtain ⟨rs, hrs, hts⟩ := ih (fun q hq => h q (List.mem_cons_of_mem _ hq))
    refine ⟨r :: rs, List.Forall₂.cons hr hrs, ?_⟩
    intro r' hr'
    rcases List.mem_cons.mp hr' with rfl | hm
    · exact ht
    · exact hts r' hm

/-- C10: for patterns that each have a non-empty token sequence, the multi-pattern `pathToRegexp`
returns the source `"(?:" ++ r1 ++ "|" ++ ... ++ "|" ++ rn ++ ")"`, where `ri` is the source of
the single-pattern `pathToRegexp` for the i-th pattern and begins with `^`; for no pattern at
all the source is `"(?:)"`. -/
theorem pathToRegexpList_source (ps : List Str) (O : Nat)
    (h : ∀ p ∈ ps, ∃ toks, parsePath p = some toks ∧ toks ≠ []) :
    ∃ rs : List RegExp,
      List.Forall₂ (fun p r => pathToRegexp p O = some r) ps rs ∧
      (∀ r ∈ rs, ∃ t, r.source = '^' :: t) ∧
      (pathToRegexpList ps O).map RegExp.source = some (specAlternation (rs.map RegExp.source)) ∧
      (ps = [] → (pathToRegexpList ps O).map RegExp.source = some "(?:)".toList) := by
  obtain ⟨rs, hrs, hts⟩ := exists_regexps ps O h
  refine ⟨rs, hrs, hts, ?_, ?_⟩
  · cases hrs with
    | nil => simp [pathToRegexpList, pathToRegexpLoop, specAlternation, List.intercalate]
    | cons hp hrest =>
      rename_i p r ps' rs'
      simp only [pathToRegexpList, hp, pathToRegexpLoop_eq O ps' rs' _ hrest, Option.map_some',
        specAlternation, List.map_cons, intercalate_cons_eq, List.map_map]
      simp [Function.comp_def]
  · rintro rfl
    simp [pathToRegexpList, pathToRegexpLoop]

theorem pathToRegexpList_source_witness :
    (∀ p ∈ ["/:test(\\d+)?".toList, "/route(\\d+)".toList],
        ∃ toks, parsePath p = some toks ∧ toks ≠ []) ∧
    ∃ rs : List RegExp,
      List.Forall₂ (fun p r => pathToRegexp p 0 = some r)
        ["/:test(\\d+)?".toList, "/route(\\d+)".toList] rs ∧
      (∀ r ∈ rs, ∃ t, r.source = '^' :: t) ∧
      (pathToRegexpList ["/:test(\\d+)?".toList, "/route(\\d+)".toList] 0).map RegExp.source
        = some (specAlternation (rs.map RegExp.source)) ∧
      (["/:test(\\d+)?".toList, "/route(\\d+)".toList] = [] →
        (pathToRegexpList ["/:test(\\d+)?".toList, "/route(\\d+)".toList] 0).map RegExp.source
          = some "(?:)".toList) :=
  have h : ∀ p ∈ ["/:test(\\d+)?".toList, "/route(\\d+)".toList],
      ∃ toks, parsePath p = some toks ∧ toks ≠ [] := by
    intro p hp
    simp only [List.mem_cons, List.mem_singleton, List.not_mem_nil, or_false] at hp
    rcases hp with rfl | rfl
    · exact ⟨[key ⟨"test".toList, "/".toList, "/".toList, true, false, "\\d+".toList⟩],
        by decide!, by simp⟩
    · exact ⟨[lit "/route".toList, key ⟨"0".toList, [], "/".toList, false, false, "\\d+".toList⟩],
        by decide!, by simp⟩
  ⟨h, pathToRegexpList_source _ 0 h⟩

/-- The test of the multi-pattern `pathToRegexp`. -/
theorem pathToRegexpList_test :
    pathToRegexpList ["/:test(\\d+)?".toList, "/route(\\d+)".toList] 0
      = some ⟨"(?:^(?:\\/(\\d+))?(?:\\/(?=$))?(?=\\/|$)|^\\/route(\\d+)(?:\\/(?=$))?(?=\\/|$))".toList,
          ⟨true, true⟩⟩ ∧
    pathToRegexpList [] 0 = some ⟨"(?:)".toList, ⟨true, true⟩⟩ := by
  decide!

/-! ## The first result of the matcher -/

theorem head?_flatMap {α β : Type} (l : List α) (f : α → List β) (a : α) (b : β)
    (hl : l.head? = some a) (hf : (f a).head? = some b) : (l.flatMap f).head? = some b := by
  cases l with
  | nil => simp at hl
  | cons x xs =>
    simp only [List.head?_cons, Option.some.injEq] at hl
    subst hl
    cases hfa : f x with
    | nil => simp [hfa] at hf
    | cons y ys =>
      simp only [hfa, List.head?_cons, Option.some.injEq] at hf
      subst hf
      simp [List.flatMap_cons, hfa]

theorem run_seq_head (ic : Bool) (a b : Re) (s s1 s2 : MState)
    (ha : (a.run ic s).head? = some s1) (hb : (b.run ic s1).head? = some s2) :
    ((Re.seq a b).run ic s).head? = some s2 := by
  simp only [Re.run]
  exact head?_flatMap _ _ s1 s2 ha hb

theorem run_alt_head_left (ic : Bool) (a b : Re) (s s1 : MState)
    (ha : (a.run ic s).head? = some s1) : ((Re.alt a b).run ic s).head? = some s1 := by
  simp only [Re.run]
  cases h : a.run ic s with
  | nil => simp [h] at ha
  | cons x xs => simpa [h] using ha

theorem run_alt_head_right (ic : Bool) (a b : Re) (s : MState)
    (ha : a.run ic s = []) : ((Re.alt a b).run ic s).head? = (b.run ic s).head? := by
  simp [Re.run, ha]

theorem run_opt_head (ic : Bool) (r : Re) (s s1 : MState)
    (h : (r.run ic s).head? = some s1) : ((Re.opt true r).run ic s).head? = some s1 := by
  simp only [Re.opt, if_true]
  exact run_alt_head_left ic r Re.empty s s1 h

theorem run_opt_skip (ic : Bool) (r : Re) (s : MState)
    (h : r.run ic s = []) : ((Re.opt true r).run ic s).head? = some s := by
  simp only [Re.opt, if_true]
  rw [run_alt_head_right ic r Re.empty s h]
  simp [Re.run]

theorem run_group_head (ic : Bool) (n : Nat) (r : Re) (s s1 : MState)
    (h : (r.run ic s).head? = some s1) :
    ((Re.group n r).run ic s).head?
      = some { s1 with caps := (n, s.rest.take (s1.pos - s.pos)) :: s1.caps } := by
  simp only [Re.run]
  cases hr : r.run ic s with
  | nil => simp [hr] at h
  | cons x xs =>
    simp only [hr, List.head?_cons, Option.some.injEq] at h
    subst h
    simp

/-- A greedy loop over single characters reads, first of all, the whole run of characters
that the step accepts. -/
theorem starLoop_head (step : MState → List MState) (w rest : Str)
    (hw : ∀ c ∈ w, ∀ pos t caps, step ⟨pos, c :: t, caps⟩ = [⟨pos + 1, t, caps⟩])
    (hend : ∀ pos caps, step ⟨pos, rest, caps⟩ = [])
    (fuel pos : Nat) (caps : List (Nat × Str)) (hfuel : w.length ≤ fuel) :
    (starLoop true step fuel ⟨pos, w ++ rest, caps⟩).head? = some ⟨pos + w.length, rest, caps⟩ := by
  induction w generalizing fuel pos with
  | nil =>
    cases fuel with
    | zero => simp [starLoop]
    | succ fuel => simp [starLoop, hend]
  | cons c w ih =>
    cases fuel with
    | zero => simp at hfuel
    | succ fuel =>
      have hstep := hw c (List.mem_cons_self _ _) pos (w ++ rest) caps
      have ih' := ih (fun c' hc' => hw c' (List.mem_cons_of_mem _ hc')) fuel (pos + 1)
        (by simpa using hfuel)
      simp only [starLoop, List.cons_append, hstep, if_true]
      cases hl : starLoop true step fuel ⟨pos + 1, w ++ rest, caps⟩ with
      | nil => simp [hl] at ih'
      | cons x xs =>
        simp only [hl, List.head?_cons, Option.some.injEq] at ih'
        subst ih'
        simp [List.flatMap_cons, hl]
        omega

theorem run_plus_head (ic : Bool) (r : Re) (c : Char) (w rest : Str)
    (hw : ∀ c' ∈ c :: w, ∀ pos t caps, r.run ic ⟨pos, c' :: t, caps⟩ = [⟨pos + 1, t, caps⟩])
    (hend : ∀ pos caps, r.run ic ⟨pos, rest, caps⟩ = [])
    (pos : Nat) (caps : List (Nat × Str)) :
    ((Re.plus true r).run ic ⟨pos, (c :: w) ++ rest, caps⟩).head?
      = some ⟨pos + (c :: w).length, rest, caps⟩ := by
  unfold Re.plus
  apply run_seq_head ic r (Re.star true r) _ ⟨pos + 1, w ++ rest, caps⟩
  · simp [hw c (List.mem_cons_self _ _) pos (w ++ rest) caps]
  · simp only [Re.run]
    have := starLoop_head (fun s' => r.run ic s') w rest
      (fun c' hc' => hw c' (List.mem_cons_of_mem _ hc')) hend (w ++ rest).length (pos + 1) caps
      (by simp)
    rw [this]
    simp
    omega

/-! ## The tokenizer on a pattern that is one parameter -/

theorem search_PATH_REGEXP_nil : regex_search false PATH_REGEXP [] = none := by
  decide!

theorem regex_search_of_head (ic : Bool) (re : Re) (c : Char) (t : Str) (s1 : MState)
    (h : (re.run ic ⟨0, c :: t, []⟩).head? = some s1) :
    regex_search ic re (c :: t) = some ⟨0, (c :: t).take s1.pos, s1.caps⟩ := by
  unfold regex_search searchFrom
  cases hr : re.run ic ⟨0, c :: t, []⟩ with
  | nil => simp [hr] at h
  | cons x xs =>
    simp only [hr, List.head?_cons, Option.some.injEq] at h
    subst h
    simp

/-- A pattern that `PATH_REGEXP` matches as a whole, and not as an escape, is one key token. -/
theorem parsePath_single_key (str : Str) (res : SMatch) (hne : str ≠ [])
    (hs : regex_search false PATH_REGEXP str = some res)
    (hpos : res.position = 0) (hwhole : res.whole = str) (hesc : res.str 1 = []) :
    parsePath str = some [key (keyOfMatch res 0).1] := by
  obtain ⟨m, hm⟩ : ∃ m, str.length = m + 1 := by
    cases str with
    | nil => exact absurd rfl hne
    | cons c t => exact ⟨t.length, by simp⟩
  have h0 : res.str 0 = str := by simp [SMatch.str, hwhole]
  unfold parsePath
  rw [hm]
  simp only [parseLoop, List.drop_zero, hs, hesc, h0, hpos, substr, List.take_zero,
    List.append_nil, List.isEmpty_nil, Bool.not_true, Bool.false_eq_true, if_false,
    List.nil_append, Nat.zero_add, List.drop_length,
    search_PATH_REGEXP_nil, Option.map_some', parseFinish, Nat.lt_irrefl]

theorem run_word_step (c : Char) (hc : isWordChar c = true) (pos : Nat) (t : Str)
    (caps : List (Nat × Str)) :
    (Re.cls false [ClassItem.word false]).run false ⟨pos, c :: t, caps⟩ = [⟨pos + 1, t, caps⟩] := by
  simp [Re.run, MState.eat, ClassItem.accepts, hc]

/-- The four suffixes of a parameter, and none. -/
theorem run_word_suffix (x : Str) (hx : x ∈ [[], ['?'], ['+'], ['*']]) (pos : Nat)
    (caps : List (Nat × Str)) :
    (Re.cls false [ClassItem.word false]).run false ⟨pos, x, caps⟩ = [] := by
  simp only [List.mem_cons, List.mem_singleton, List.not_mem_nil, or_false] at hx
  rcases hx with rfl | rfl | rfl | rfl <;>
    simp [Re.run, MState.eat, ClassItem.accepts, isWordChar, Char.isAlphanum, Char.isAlpha,
      Char.isUpper, Char.isLower, Char.isDigit]

theorem run_reParen_suffix (g : Nat) (x : Str) (hx : x ∈ [[], ['?'], ['+'], ['*']]) (pos : Nat)
    (caps : List (Nat × Str)) : (reParen g).run false ⟨pos, x, caps⟩ = [] := by
  simp only [List.mem_cons, List.mem_singleton, List.not_mem_nil, or_false] at hx
  rcases hx with rfl | rfl | rfl | rfl <;> simp [reParen, Re.run, MState.eat]

theorem run_reSuffix (x : Str) (hx : x ∈ [[], ['?'], ['+'], ['*']]) (pos : Nat)
    (caps : List (Nat × Str)) :
    (reSuffix.run false ⟨pos, x, caps⟩).head?
      = some ⟨pos + x.length, [], (if x = [] then [] else [(6, x)]) ++ caps⟩ := by
  simp only [List.mem_cons, List.mem_singleton, List.not_mem_nil, or_false] at hx
  rcases hx with rfl | rfl | rfl | rfl <;>
    simp [reSuffix, Re.opt, Re.run, MState.eat, ClassItem.accepts]

theorem run_reNamed (c : Char) (w x : Str) (hw : ∀ c' ∈ c :: w, isWordChar c' = true)
    (hx : x ∈ [[], ['?'], ['+'], ['*']]) (pos : Nat) (caps : List (Nat × Str)) :
    (reNamed.run false ⟨pos, ':' :: ((c :: w) ++ x), caps⟩).head?
      = some ⟨pos + 1 + (c :: w).length, x, (3, c :: w) :: caps⟩ := by
  unfold reNamed
  apply run_seq_head false _ _ _ ⟨pos + 1, (c :: w) ++ x, caps⟩
  · simp [Re.run, MState.eat]
  · apply run_seq_head false _ _ _ ⟨pos + 1 + (c :: w).length, x, (3, c :: w) :: caps⟩
    · have h := run_group_head false 3 _ ⟨pos + 1, (c :: w) ++ x, caps⟩ _
        (run_plus_head false (Re.cls false [ClassItem.word false]) c w x
          (fun c' hc' pos t caps => run_word_step c' (hw c' hc') pos t caps)
          (fun pos caps => run_word_suffix x hx pos caps) (pos + 1) caps)
      rw [h]
      simp
    · exact run_opt_skip false _ _ (run_reParen_suffix 4 x hx _ _)

theorem search_named (d c : Char) (w x : Str) (hd : d = '/' ∨ d = '.')
    (hw : ∀ c' ∈ c :: w, isWordChar c' = true) (hx : x ∈ [[], ['?'], ['+'], ['*']]) :
    regex_search false PATH_REGEXP (d :: ':' :: ((c :: w) ++ x))
      = some ⟨0, d :: ':' :: ((c :: w) ++ x),
          (if x = [] then [] else [(6, x)]) ++ [(3, c :: w), (2, [d])]⟩ := by
  have hhead : (PATH_REGEXP.run false ⟨0, d :: ':' :: ((c :: w) ++ x), []⟩).head?
      = some ⟨2 + (c :: w).length + x.length, [],
          (if x = [] then [] else [(6, x)]) ++ [(3, c :: w), (2, [d])]⟩ := by
    unfold PATH_REGEXP
    rw [run_alt_head_right]
    · apply run_seq_head false _ _ _ ⟨1, ':' :: ((c :: w) ++ x), [(2, [d])]⟩
      · unfold rePrefix
        apply run_opt_head
        rcases hd with rfl | rfl <;> simp [Re.run, MState.eat, ClassItem.accepts]
      · apply run_alt_head_left
        apply run_seq_head false _ _ _ ⟨1 + 1 + (c :: w).length, x, [(3, c :: w), (2, [d])]⟩
        · apply run_alt_head_left
          exact run_reNamed c w x hw hx 1 [(2, [d])]
        · rw [run_reSuffix x hx]
    · rcases hd with rfl | rfl <;> simp [Re.run, reEscaped, MState.eat]
  rw [regex_search_of_head false PATH_REGEXP d _ _ hhead]
  simp
  omega

/-- The pattern of a parameter without a group of its own. -/
theorem escapeGroup_default (d : Char) (hd : d = '/' ∨ d = '.') :
    escapeGroup ("[^".toList ++ [d] ++ "]+?".toList)
      = if d = '/' then "[^\\/]+?".toList else "[^.]+?".toList := by
  rcases hd with rfl | rfl <;> decide

/-- C7: the pattern made of a prefix character `/` or `.`, a colon, a non-empty name of word
characters and one of the suffixes `""`, `?`, `+`, `*` is parsed into exactly one token, the key
with that name, the prefix character as prefix and as delimiter, optional for `?` and `*`,
repeating for `+` and `*`, and the group-escaped pattern `[^d]+?`; no literal token is made. -/
theorem parsePath_named (d : Char) (n x : Str) (hd : d = '/' ∨ d = '.') (hn : n ≠ [])
    (hw : ∀ c ∈ n, isWordChar c = true) (hx : x ∈ [[], ['?'], ['+'], ['*']]) :
    parsePath ([d] ++ ":".toList ++ n ++ x)
      = some [key
          { name := n
            pfx := [d]
            delimiter := [d]
            optional := decide (x = "?".toList ∨ x = "*".toList)
            rep := decide (x = "+".toList ∨ x = "*".toList)
            pattern := escapeGroup ("[^".toList ++ [d] ++ "]+?".toList) }] ∧
    escapeGroup ("[^".toList ++ [d] ++ "]+?".toList)
      = (if d = '/' then "[^\\/]+?".toList else "[^.]+?".toList) := by
  refine ⟨?_, escapeGroup_default d hd⟩
  cases n with
  | nil => exact absurd rfl hn
  | cons c w =>
    have hs := search_named d c w x hd hw hx
    have hstr : [d] ++ ":".toList ++ (c :: w) ++ x = d :: ':' :: ((c :: w) ++ x) := by simp
    rw [hstr, parsePath_single_key _ _ (by simp) hs rfl rfl]
    · simp only [List.mem_cons, List.mem_singleton, List.not_mem_nil, or_false] at hx
      rcases hx with rfl | rfl | rfl | rfl <;>
        simp [keyOfMatch, SMatch.str, List.lookup]
    · simp only [List.mem_cons, List.mem_singleton, List.not_mem_nil, or_false] at hx
      rcases hx with rfl | rfl | rfl | rfl <;> simp [SMatch.str, List.lookup]

theorem parsePath_named_witness :
    ('/' = '/' ∨ '/' = '.') ∧ "segment".toList ≠ [] ∧
    (∀ c ∈ "segment".toList, isWordChar c = true) ∧ ['+'] ∈ [[], ['?'], ['+'], ['*']] ∧
    (parsePath (['/'] ++ ":".toList ++ "segment".toList ++ ['+'])
      = some [key
          { name := "segment".toList
            pfx := ['/']
            delimiter := ['/']
            optional := decide (['+'] = "?".toList ∨ ['+'] = "*".toList)
            rep := decide (['+'] = "+".toList ∨ ['+'] = "*".toList)
            pattern := escapeGroup ("[^".toList ++ ['/'] ++ "]+?".toList) }] ∧
    escapeGroup ("[^".toList ++ ['/'] ++ "]+?".toList)
      = (if '/' = '/' then "[^\\/]+?".toList else "[^.]+?".toList)) :=
  ⟨by decide, by decide, by decide, by decide,
    parsePath_named '/' "segment".toList ['+'] (by decide) (by decide) (by decide) (by decide)⟩

/-! ## The tokenizer on a parameter with a group of its own -/

theorem run_word_paren (pos : Nat) (t : Str) (caps : List (Nat × Str)) :
    (Re.cls false [ClassItem.word false]).run false ⟨pos, '(' :: t, caps⟩ = [] := by
  simp [Re.run, MState.eat, ClassItem.accepts, isWordChar, Char.isAlphanum, Char.isAlpha,
    Char.isUpper, Char.isLower, Char.isDigit]

theorem run_bodyChar_step (c : Char) (h1 : c ≠ '(') (h2 : c ≠ ')') (h3 : c ≠ '\\') (pos : Nat)
    (t : Str) (caps : List (Nat × Str)) :
    reBodyChar.run false ⟨pos, c :: t, caps⟩ = [⟨pos + 1, t, caps⟩] := by
  simp [reBodyChar, reEscaped, Re.run, MState.eat, ClassItem.accepts, h1, h2, Ne.symm h3,
    Ne.symm h1, Ne.symm h2]

theorem run_bodyChar_close (pos : Nat) (t : Str) (caps : List (Nat × Str)) :
    reBodyChar.run false ⟨pos, ')' :: t, caps⟩ = [] := by
  simp [reBodyChar, reEscaped, Re.run, MState.eat, ClassItem.accepts]

theorem run_reParen (g : Nat) (c : Char) (w t : Str)
    (hb : ∀ c' ∈ c :: w, c' ≠ '(' ∧ c' ≠ ')' ∧ c' ≠ '\\') (pos : Nat) (caps : List (Nat × Str)) :
    ((reParen g).run false ⟨pos, '(' :: ((c :: w) ++ ')' :: t), caps⟩).head?
      = some ⟨pos + 1 + (c :: w).length + 1, t, (g, c :: w) :: caps⟩ := by
  unfold reParen
  apply run_seq_head false _ _ _ ⟨pos + 1, (c :: w) ++ ')' :: t, caps⟩
  · simp [Re.run, MState.eat]
  · apply run_seq_head false _ _ _ ⟨pos + 1 + (c :: w).length, ')' :: t, (g, c :: w) :: caps⟩
    · have h := run_group_head false g _ ⟨pos + 1, (c :: w) ++ ')' :: t, caps⟩ _
        (run_plus_head false reBodyChar c w (')' :: t)
          (fun c' hc' pos t caps =>
            run_bodyChar_step c' (hb c' hc').1 (hb c' hc').2.1 (hb c' hc').2.2 pos t caps)
          (fun pos caps => run_bodyChar_close pos t caps) (pos + 1) caps)
      rw [h]
      simp
    · simp [Re.run, MState.eat]

theorem run_reNamed_paren (c : Char) (w : Str) (c2 : Char) (w2 t : Str)
    (hw : ∀ c' ∈ c :: w, isWordChar c' = true)
    (hb : ∀ c' ∈ c2 :: w2, c' ≠ '(' ∧ c' ≠ ')' ∧ c' ≠ '\\') (pos : Nat) (caps : List (Nat × Str)) :
    (reNamed.run false ⟨pos, ':' :: ((c :: w) ++ '(' :: ((c2 :: w2) ++ ')' :: t)), caps⟩).head?
      = some ⟨pos + 1 + (c :: w).length + 1 + (c2 :: w2).length + 1, t,
          (4, c2 :: w2) :: (3, c :: w) :: caps⟩ := by
  unfold reNamed
  apply run_seq_head false _ _ _ ⟨pos + 1, (c :: w) ++ '(' :: ((c2 :: w2) ++ ')' :: t), caps⟩
  · simp [Re.run, MState.eat]
  · apply run_seq_head false _ _ _
      ⟨pos + 1 + (c :: w).length, '(' :: ((c2 :: w2) ++ ')' :: t), (3, c :: w) :: caps⟩
    · have h := run_group_head false 3 _ ⟨pos + 1, (c :: w) ++ '(' :: ((c2 :: w2) ++ ')' :: t), caps⟩ _
        (run_plus_head false (Re.cls false [ClassItem.word false]) c w
          ('(' :: ((c2 :: w2) ++ ')' :: t))
          (fun c' hc' pos t caps => run_word_step c' (hw c' hc') pos t caps)
          (fun pos caps => run_word_paren pos _ caps) (pos + 1) caps)
      rw [h]
      simp
    · apply run_opt_head
      exact run_reParen 4 c2 w2 t hb _ _

theorem search_named_group (c : Char) (w : Str) (c2 : Char) (w2 : Str)
    (hw : ∀ c' ∈ c :: w, isWordChar c' = true)
    (hb : ∀ c' ∈ c2 :: w2, c' ≠ '(' ∧ c' ≠ ')' ∧ c' ≠ '\\') :
    regex_search false PATH_REGEXP ('/' :: ':' :: ((c :: w) ++ '(' :: ((c2 :: w2) ++ [')'])))
      = some ⟨0, '/' :: ':' :: ((c :: w) ++ '(' :: ((c2 :: w2) ++ [')'])),
          [(4, c2 :: w2), (3, c :: w), (2, ['/'])]⟩ := by
  have hhead : (PATH_REGEXP.run false
        ⟨0, '/' :: ':' :: ((c :: w) ++ '(' :: ((c2 :: w2) ++ [')'])), []⟩).head?
      = some ⟨1 + 1 + (c :: w).length + 1 + (c2 :: w2).length + 1, [],
          [(4, c2 :: w2), (3, c :: w), (2, ['/'])]⟩ := by
    unfold PATH_REGEXP
    rw [run_alt_head_right]
    · apply run_seq_head false _ _ _
        ⟨1, ':' :: ((c :: w) ++ '(' :: ((c2 :: w2) ++ [')'])), [(2, ['/'])]⟩
      · unfold rePrefix
        apply run_opt_head
        simp [Re.run, MState.eat, ClassItem.accepts]
      · apply run_alt_head_left
        apply run_seq_head false _ _ _
          ⟨1 + 1 + (c :: w).length + 1 + (c2 :: w2).length + 1, [],
            [(4, c2 :: w2), (3, c :: w), (2, ['/'])]⟩
        · apply run_alt_head_left
          exact run_reNamed_paren c w c2 w2 [] hw hb 1 [(2, ['/'])]
        · rw [run_reSuffix [] (by simp)]
          simp
    · simp [Re.run, reEscaped, MState.eat]
  rw [regex_search_of_head false PATH_REGEXP '/' _ _ hhead]
  simp
  omega

theorem search_group (c2 : Char) (w2 : Str)
    (hb : ∀ c' ∈ c2 :: w2, c' ≠ '(' ∧ c' ≠ ')' ∧ c' ≠ '\\') :
    regex_search false PATH_REGEXP ('/' :: '(' :: ((c2 :: w2) ++ [')']))
      = some ⟨0, '/' :: '(' :: ((c2 :: w2) ++ [')']), [(5, c2 :: w2), (2, ['/'])]⟩ := by
  have hhead : (PATH_REGEXP.run false ⟨0, '/' :: '(' :: ((c2 :: w2) ++ [')']), []⟩).head?
      = some ⟨1 + 1 + (c2 :: w2).length + 1, [], [(5, c2 :: w2), (2, ['/'])]⟩ := by
    unfold PATH_REGEXP
    rw [run_alt_head_right]
    · apply run_seq_head false _ _ _ ⟨1, '(' :: ((c2 :: w2) ++ [')']), [(2, ['/'])]⟩
      · unfold rePrefix
        apply run_opt_head
        simp [Re.run, MState.eat, ClassItem.accepts]
      · apply run_alt_head_left
        apply run_seq_head false _ _ _
          ⟨1 + 1 + (c2 :: w2).length + 1, [], [(5, c2 :: w2), (2, ['/'])]⟩
        · rw [run_alt_head_right]
          · exact run_reParen 5 c2 w2 [] hb 1 [(2, ['/'])]
          · simp [reNamed, Re.run, MState.eat]
        · rw [run_reSuffix [] (by simp)]
          simp
    · simp [Re.run, reEscaped, MState.eat]
  rw [regex_search_of_head false PATH_REGEXP '/' _ _ hhead]
  simp
  omega

theorem escapeGroupStep_eq (res : Str) (c : Char) :
    escapeGroupStep res c = res ++ (if c ∈ "=!:$/()".toList then ['\\', c] else [c]) := by
  unfold escapeGroupStep
  split <;> simp_all

theorem escapeGroup_eq_spec (b : Str) : escapeGroup b = specEscapeGroup b := by
  unfold escapeGroup specEscapeGroup
  have h : ∀ acc, b.foldl escapeGroupStep acc
      = acc ++ (b.map (fun c => if c ∈ "=!:$/()".toList then ['\\', c] else [c])).flatten := by
    induction b with
    | nil => simp
    | cons c b ih =>
      intro acc
      simp only [List.foldl_cons, List.map_cons, List.flatten_cons]
      rw [ih, escapeGroupStep_eq]
      simp
  simpa using h []

/-- C8: for a non-empty name `n` of word characters and a non-empty body `b` without parentheses
and backslashes, `"/:" ++ n ++ "(" ++ b ++ ")"` is parsed into the single key named `n` with
prefix and delimiter `/`, neither optional nor repeating, and pattern `escapeGroup b`;
`"/(" ++ b ++ ")"` is parsed into the same key but with the name `"0"`; and `escapeGroup b` is `b`
with a backslash before each of `= ! : $ / ( )`. -/
theorem parsePath_group (n b : Str) (hn : n ≠ []) (hw : ∀ c ∈ n, isWordChar c = true)
    (hb0 : b ≠ []) (hb : ∀ c ∈ b, c ≠ '(' ∧ c ≠ ')' ∧ c ≠ '\\') :
    parsePath ("/:".toList ++ n ++ "(".toList ++ b ++ ")".toList)
      = some [key
          { name := n, pfx := "/".toList, delimiter := "/".toList, optional := false, rep := false
            pattern := escapeGroup b }] ∧
    parsePath ("/(".toList ++ b ++ ")".toList)
      = some [key
          { name := "0".toList, pfx := "/".toList, delimiter := "/".toList, optional := false
            rep := false, pattern := escapeGroup b }] ∧
    escapeGroup b = specEscapeGroup b := by
  cases n with
  | nil => exact absurd rfl hn
  | cons c w =>
    cases b with
    | nil => exact absurd rfl hb0
    | cons c2 w2 =>
      refine ⟨?_, ?_, escapeGroup_eq_spec _⟩
      · have hs := search_named_group c w c2 w2 hw hb
        have hstr : "/:".toList ++ (c :: w) ++ "(".toList ++ (c2 :: w2) ++ ")".toList
            = '/' :: ':' :: ((c :: w) ++ '(' :: ((c2 :: w2) ++ [')'])) := by simp
        rw [hstr, parsePath_single_key _ _ (by simp) hs rfl rfl]
        · simp [keyOfMatch, SMatch.str, List.lookup]
        · simp [SMatch.str, List.lookup]
      · have hs := search_group c2 w2 hb
        have hstr : "/(".toList ++ (c2 :: w2) ++ ")".toList
            = '/' :: '(' :: ((c2 :: w2) ++ [')']) := by simp
        rw [hstr, parsePath_single_key _ _ (by simp) hs rfl rfl]
        · simp [keyOfMatch, SMatch.str, List.lookup]
          decide
        · simp [SMatch.str, List.lookup]

theorem parsePath_group_witness :
    "id".toList ≠ [] ∧ (∀ c ∈ "id".toList, isWordChar c = true) ∧ "a|b/c".toList ≠ [] ∧
    (∀ c ∈ "a|b/c".toList, c ≠ '(' ∧ c ≠ ')' ∧ c ≠ '\\') ∧
    (parsePath ("/:".toList ++ "id".toList ++ "(".toList ++ "a|b/c".toList ++ ")".toList)
      = some [key
          { name := "id".toList, pfx := "/".toList, delimiter := "/".toList, optional := false
            rep := false, pattern := escapeGroup "a|b/c".toList }] ∧
    parsePath ("/(".toList ++ "a|b/c".toList ++ ")".toList)
      = some [key
          { name := "0".toList, pfx := "/".toList, delimiter := "/".toList, optional := false
            rep := false, pattern := escapeGroup "a|b/c".toList }] ∧
    escapeGroup "a|b/c".toList = specEscapeGroup "a|b/c".toList) :=
  ⟨by decide, by decide, by decide, by decide,
    parsePath_group "id".toList "a|b/c".toList (by decide) (by decide) (by decide) (by decide)⟩

/-! ## The router -/

theorem methodMatches_iff {Response : Type} (req : Request) (matcher : Matcher Response) :
    qualifies req matcher
      = (methodMatches req.method matcher.method && (matcher.pathRegex.search req.uriPath).isSome) := by
  unfold qualifies methodMatches
  congr 1
  rw [Bool.eq_iff_iff]
  simp only [Bool.or_eq_true, decide_eq_true_eq, beq_iff_eq, List.isEmpty_iff]
  constructor
  · rintro ((h | h) | h)
    · exact Or.inl (Or.inl h.symm)
    · exact Or.inl (Or.inr h)
    · exact Or.inr h
  · rintro ((h | h) | h)
    · exact Or.inl (Or.inl h.symm)
    · exact Or.inl (Or.inr h)
    · exact Or.inr h

/-- A handler with its call of `next()` at the end: its own part, then the walk goes on. -/
theorem run_tailNext {Response : Type} (next : Context Response → Option (Context Response))
    (prog : HandlerProg Response) (ctx : Context Response) (h : prog.TailNext) :
    prog.run next ctx =
      if (prog.ownPart ctx.match_ ctx.response).2
      then next { ctx with response := (prog.ownPart ctx.match_ ctx.response).1 }
      else some { ctx with response := (prog.ownPart ctx.match_ ctx.response).1 } := by
  induction prog generalizing ctx with
  | done => simp [HandlerProg.run, HandlerProg.ownPart]
  | next k _ =>
    cases k with
    | done =>
      simp only [HandlerProg.run, HandlerProg.ownPart, if_true]
      cases next ctx <;> rfl
    | next _ => simp [HandlerProg.TailNext] at h
    | readMatch _ _ => simp [HandlerProg.TailNext] at h
    | update _ _ => simp [HandlerProg.TailNext] at h
    | read _ => simp [HandlerProg.TailNext] at h
  | readMatch i k ih =>
    simp only [HandlerProg.TailNext] at h
    simp only [HandlerProg.run, HandlerProg.ownPart]
    have := ih (ctx.match i) ctx (h _)
    simpa [Context.match] using this
  | update f k ih =>
    simp only [HandlerProg.TailNext] at h
    simp only [HandlerProg.run, HandlerProg.ownPart]
    exact ih { ctx with response := f ctx.response } h
  | read k ih =>
    simp only [HandlerProg.TailNext] at h
    simp only [HandlerProg.run, HandlerProg.ownPart]
    exact ih ctx.response ctx (h _)

theorem next_eq_specDispatch {Response : Type} (matchers : List (Matcher Response)) (req : Request)
    (rest : List (Matcher Response)) :
    ∀ (fuel : Nat) (ctx : Context Response), matchers.drop ctx.current_ = rest →
      rest.length < fuel → (∀ matcher ∈ rest, (matcher.handler req).TailNext) →
      ∃ ctx', Context.next matchers req fuel ctx = some ctx' ∧
        ctx'.entered = ctx.entered ++ (specDispatch req ctx.current_ rest ctx.response).1 ∧
        ctx'.response = (specDispatch req ctx.current_ rest ctx.response).2 := by
  induction rest with
  | nil =>
    intro fuel ctx hdrop hfuel _
    cases fuel with
    | zero => simp at hfuel
    | succ fuel => exact ⟨ctx, by simp [Context.next, hdrop, Context.scan], by simp [specDispatch], by simp [specDispatch]⟩
  | cons matcher post ih =>
    intro fuel ctx hdrop hfuel htail
    have hpost : matchers.drop (ctx.current_ + 1) = post := by
      rw [← List.tail_drop, hdrop]
      rfl
    have htail' : ∀ m ∈ post, (m.handler req).TailNext :=
      fun m hm => htail m (List.mem_cons_of_mem _ hm)
    cases fuel with
    | zero => simp at hfuel
    | succ fuel =>
      have hlen : post.length < fuel := by simpa using hfuel
      simp only [Context.next, hdrop, Context.scan, specDispatch, methodMatches_iff]
      cases hm : methodMatches req.method matcher.method with
      | false =>
        simp only [Bool.false_and, Bool.false_eq_true, if_false]
        have := ih (fuel + 1) { ctx with current_ := ctx.current_ + 1 } hpost (by omega) htail'
        simpa [Context.next, hpost] using this
      | true =>
        cases hs : matcher.pathRegex.search req.uriPath with
        | none =>
          simp only [Option.isSome_none, Bool.and_false, Bool.false_eq_true, if_false]
          have := ih (fuel + 1) { ctx with current_ := ctx.current_ + 1, match_ := none } hpost
            (by omega) htail'
          simpa [Context.next, hpost] using this
        | some m =>
          simp only [Option.isSome_some, Bool.and_true, if_true]
          rw [run_tailNext _ _ _ (htail matcher (List.mem_cons_self _ _))]
          simp only
          cases hown : ((matcher.handler req).ownPart (some m) ctx.response).2 with
          | false =>
            simp only [Bool.false_eq_true, if_false]
            exact ⟨_, rfl, rfl, rfl⟩
          | true =>
            simp only [if_true]
            obtain ⟨ctx', h1, h2, h3⟩ := ih fuel
              { current_ := ctx.current_ + 1, match_ := some m
                response := ((matcher.handler req).ownPart (some m) ctx.response).1
                entered := ctx.entered ++ [ctx.current_] } hpost hlen htail'
            exact ⟨ctx', h1, by simpa using h2, by simpa using h3⟩

theorem specDispatch_none {Response : Type} (req : Request) (rest : List (Matcher Response))
    (h : ∀ matcher ∈ rest, qualifies req matcher = false) (i : Nat) (r : Response) :
    specDispatch req i rest r = ([], r) := by
  induction rest generalizing i with
  | nil => rfl
  | cons matcher post ih =>
    simp only [specDispatch, h matcher (List.mem_cons_self _ _), Bool.false_eq_true, if_false]
    exact ih (fun m hm => h m (List.mem_cons_of_mem _ hm)) _

/-- C6: when every handler calls `ctx.next()` at most once and only as its last action,
`handleRequest` returns, and the handlers it has invoked are those of the qualifying matchers,
in insertion order, up to and including the first one whose handler does not call `next()`;
the response is what these handlers make of it one after the other. When no matcher qualifies
no handler is invoked and the response is unchanged. -/
theorem handleRequest_dispatch {Response : Type} (router : HttpRouter Response) (req : Request)
    (response : Response)
    (h : ∀ matcher ∈ router.matchers_, (matcher.handler req).TailNext) :
    ∃ ctx, router.handleRequest req response = some ctx ∧
      ctx.entered = (specDispatch req 0 router.matchers_ response).1 ∧
      ctx.response = (specDispatch req 0 router.matchers_ response).2 ∧
      ((∀ matcher ∈ router.matchers_, qualifies req matcher = false) →
        ctx.entered = [] ∧ ctx.response = response) := by
  obtain ⟨ctx, h1, h2, h3⟩ := next_eq_specDispatch router.matchers_ req router.matchers_
    (router.matchers_.length + 1) ⟨0, none, response, []⟩ rfl (by simp) h
  refine ⟨ctx, h1, by simpa using h2, by simpa using h3, ?_⟩
  intro hq
  rw [specDispatch_none req _ hq] at h2 h3
  exact ⟨by simpa using h2, by simpa using h3⟩

theorem testMatchers_tailNext (req : Request) :
    ∀ matcher ∈ testMatchers, (matcher.handler req).TailNext := by
  intro matcher hm
  simp only [testMatchers, List.mem_cons, List.mem_singleton, List.not_mem_nil, or_false] at hm
  rcases hm with rfl | rfl | rfl | rfl | rfl <;> simp [HandlerProg.TailNext]

theorem handleRequest_dispatch_witness :
    (∀ matcher ∈ (HttpRouter.mk testMatchers).matchers_,
      (matcher.handler ⟨"GET".toList, "/user/123".toList⟩).TailNext) ∧
    ∃ ctx, (HttpRouter.mk testMatchers).handleRequest ⟨"GET".toList, "/user/123".toList⟩ []
        = some ctx ∧
      ctx.entered = (specDispatch ⟨"GET".toList, "/user/123".toList⟩ 0
        (HttpRouter.mk testMatchers).matchers_ []).1 ∧
      ctx.response = (specDispatch ⟨"GET".toList, "/user/123".toList⟩ 0
        (HttpRouter.mk testMatchers).matchers_ []).2 ∧
      ((∀ matcher ∈ (HttpRouter.mk testMatchers).matchers_,
          qualifies ⟨"GET".toList, "/user/123".toList⟩ matcher = false) →
        ctx.entered = [] ∧ ctx.response = []) :=
  ⟨testMatchers_tailNext _,
    handleRequest_dispatch (HttpRouter.mk testMatchers) ⟨"GET".toList, "/user/123".toList⟩ []
      (testMatchers_tailNext _)⟩

/-- The router test: the handlers entered and the results for each request of `HttpUtilsTest.cpp`. -/
theorem router_test :
    testRun "GET" "/user/123"
      = some ([0, 1], ["USER PROCESSING: GET /user/123", "USER AS INTEGER: 123 GET /user/123"]) ∧
    testRun "GET" "/user/uid123"
      = some ([0, 2], ["USER PROCESSING: GET /user/uid123", "USER AS STRING: uid123 GET /user/uid123"]) ∧
    testRun "PUT" "/user/uid778"
      = some ([0, 4], ["USER PROCESSING: PUT /user/uid778", "DEFAULT: PUT /user/uid778"]) ∧
    testRun "PUT" "/data/foo" = some ([3], ["foo PUT /data/foo"]) ∧
    testRun "PUT" "/user/789"
      = some ([0, 4], ["USER PROCESSING: PUT /user/789", "DEFAULT: PUT /user/789"]) := by
  decide!

/-- The regular expressions of the router test are those that `HttpRouter::add` compiles: for
each of the five patterns `pathToRegexp` and `to_regex` succeed. -/
theorem testRegex_compiled :
    ∀ path ∈ ["/user/*", "/user/:id(\\d+)", "/user/:str", "/data/:str", "*"],
      (pathToRegexp path.toList PR_END).bind to_regex = some (testRegex path) := by
  decide!

/-- The inverse compiler scenarios of the test-suite. -/
theorem compilePath_test :
    (compilePath "/user/:id".toList).map (fun pf => pf.call (singleEntry "id".toList ["123".toList]))
      = some (CallResult.returned "/user/123".toList) ∧
    (compilePath "/user/:id".toList).map (fun pf => pf.call (singleEntry "id".toList ["/".toList]))
      = some (CallResult.returned "/user/%2F".toList) ∧
    (compilePath "/:segment+".toList).map
        (fun pf => pf.call (singleEntry "segment".toList ["foo".toList]))
      = some (CallResult.returned "/foo".toList) ∧
    (compilePath "/:segment+".toList).map
        (fun pf => pf.call (singleEntry "segment".toList ["a".toList, "b".toList, "c".toList]))
      = some (CallResult.returned "/a/b/c".toList) := by
  decide!

/-- The regex scenarios of the test-suite. -/
theorem pathToRegexp_test :
    pathToRegexp "/:test/".toList PR_END
      = some ⟨"^\\/([^\\/]+?)(?:\\/(?=$))?$".toList, ⟨true, true⟩⟩ ∧
    pathToRegexp "/:postType(video|audio|text)(\\+.+)?".toList PR_END
      = some ⟨"^\\/(video|audio|text)(\\+.+)?(?:\\/(?=$))?$".toList, ⟨true, true⟩⟩ ∧
    pathToRegexp "/a/b/:postType(video|audio|text)(\\+.+)?".toList PR_END
      = some ⟨"^\\/a\\/b\\/(video|audio|text)(\\+.+)?(?:\\/(?=$))?$".toList, ⟨true, true⟩⟩ ∧
    pathToRegexp "/a/b/:postType(video|audio|text)(\\+.+)?".toList
        (PR_SENSITIVE ||| PR_STRICT ||| PR_END)
      = some ⟨"^\\/a\\/b\\/(video|audio|text)(\\+.+)?$".toList, ⟨false, true⟩⟩ ∧
    pathToRegexp "/a/b/:postType(video|audio|text)(\\+.+)?".toList (PR_SENSITIVE ||| PR_STRICT)
      = some ⟨"^\\/a\\/b\\/(video|audio|text)(\\+.+)?(?=\\/|$)".toList, ⟨false, true⟩⟩ := by
  decide!

/-! ## The emitter: the whole result, the flags, the literal prefix, the key accumulator -/

/-- The result of `tokensToRegExp` for a non-empty token sequence. -/
theorem tokensToRegExp_eq (T : List PathToken) (O : Nat) (hT : T ≠ []) :
    tokensToRegExp T O = some ⟨specSource T O, pathFlags O⟩ := by
  obtain ⟨t, ht⟩ : ∃ t, T.getLast? = some t := by
    cases h : T.getLast? with
    | none => exact absurd (List.getLast?_eq_none_iff.mp h) hT
    | some t => exact ⟨t, rfl⟩
  unfold tokensToRegExp specSource
  simp only [ht, strict_bit, end_bit, endsWithSlashToken_getLast T t ht,
    foldl_routeStep, List.nil_append]
  congr 2
  have hb : specLastIsSlashLiteral T = true →
      substr (T.map specPiece).flatten 0 (sizeSub (T.map specPiece).flatten.length 2)
        = (T.map specPiece).flatten.dropLast.dropLast := by
    intro hl
    obtain ⟨a, ha⟩ := body_ends_with_slash T hl
    rw [ha, substr_sizeSub_two]
  generalize (T.map specPiece).flatten = body at hb
  cases hs : O.testBit 1 <;> cases he : O.testBit 2 <;>
    cases hl : specLastIsSlashLiteral T <;> simp [hb, hl]

theorem specLastIsSlashLiteral_cons (t : PathToken) (T : List PathToken) (hT : T ≠ []) :
    specLastIsSlashLiteral (t :: T) = specLastIsSlashLiteral T := by
  cases T with
  | nil => exact absurd rfl hT
  | cons t' T' =>
    unfold specLastIsSlashLiteral
    rw [List.getLast?_cons_cons]

theorem dropLast_two_append (x a : Str) (c d : Char) :
    (x ++ (a ++ [c, d])).dropLast.dropLast = x ++ (a ++ [c, d]).dropLast.dropLast := by
  have h1 : (a ++ [c, d]).dropLast.dropLast = a := by
    rw [show a ++ [c, d] = (a ++ [c]) ++ [d] by simp, List.dropLast_concat, List.dropLast_concat]
  have h2 : (x ++ (a ++ [c, d])).dropLast.dropLast = x ++ a := by
    rw [show x ++ (a ++ [c, d]) = (x ++ a ++ [c]) ++ [d] by simp, List.dropLast_concat,
      List.dropLast_concat]
  rw [h1, h2]

/-- C20: for a non-empty token sequence `T` and an option set `O` there is one string `R` such
that, whatever the literal `a` put in front of `T`, `tokensToRegExp` returns the source
`"^" ++ escapeString a ++ R` and the flags `pathFlags O`: changing the literal prefix changes
only the literal prefix of the emitted regular expression. -/
theorem tokensToRegExp_literal_prefix (T : List PathToken) (O : Nat) (hT : T ≠ []) :
    ∃ R : Str, ∀ a : Str,
      tokensToRegExp (lit a :: T) O
        = some ⟨"^".toList ++ escapeString a ++ R, pathFlags O⟩ := by
  refine ⟨(specSource T O).drop 1, fun a => ?_⟩
  rw [tokensToRegExp_eq (lit a :: T) O (by simp)]
  congr 2
  unfold specSource
  simp only [specLastIsSlashLiteral_cons (lit a) T hT, List.map_cons, List.flatten_cons,
    specPiece]
  have hb : specLastIsSlashLiteral T = true →
      (escapeString a ++ (T.map specPiece).flatten).dropLast.dropLast
        = escapeString a ++ (T.map specPiece).flatten.dropLast.dropLast := by
    intro hl
    obtain ⟨x, hx⟩ := body_ends_with_slash T hl
    rw [hx, dropLast_two_append]
  generalize (T.map specPiece).flatten = body at hb
  cases hs : O.testBit 1 <;> cases he : O.testBit 2 <;>
    cases hl : specLastIsSlashLiteral T <;> simp [hb, hl]

theorem tokensToRegExp_literal_prefix_witness :
    [key ⟨"id".toList, "/".toList, "/".toList, false, false, "[^\\/]+?".toList⟩] ≠ [] ∧
    ∃ R : Str, ∀ a : Str,
      tokensToRegExp
          (lit a :: [key ⟨"id".toList, "/".toList, "/".toList, false, false, "[^\\/]+?".toList⟩])
          PR_END
        = some ⟨"^".toList ++ escapeString a ++ R, pathFlags PR_END⟩ :=
  ⟨by simp, tokensToRegExp_literal_prefix _ PR_END (by simp)⟩

theorem pathFlags_eq (O : Nat) : pathFlags O = ⟨!O.testBit 0, true⟩ := by
  unfold pathFlags
  have h : ((O &&& PR_SENSITIVE) != 0) = O.testBit 0 := and_two_pow_ne_zero O 0
  rw [h]
  cases O.testBit 0 <;> rfl

/-- C12: the flags that `tokensToRegExp`, the single-pattern `pathToRegexp` and the
multi-pattern `pathToRegexp` return are `pathFlags O`, for every option bitmask `O` (and
`tokensToRegExp` does return for every non-empty token sequence); in `pathFlags O` the
ECMAScript flag is set, the case-insensitive flag is set exactly when the `SENSITIVE` bit is not
in `O`, and two bitmasks that differ only in other bits, `STRICT` and `END` among them, give the
same flags. -/
theorem flags_eq_pathFlags (O : Nat) :
    (∀ T, T ≠ [] → ∃ r, tokensToRegExp T O = some r ∧ r.flags = pathFlags O) ∧
    (∀ T r, tokensToRegExp T O = some r → r.flags = pathFlags O) ∧
    (∀ p r, pathToRegexp p O = some r → r.flags = pathFlags O) ∧
    (∀ ps r, pathToRegexpList ps O = some r → r.flags = pathFlags O) ∧
    (pathFlags O).ECMAScript = true ∧
    ((pathFlags O).icase = true ↔ O.testBit 0 = false) ∧
    (∀ O', O'.testBit 0 = O.testBit 0 → pathFlags O' = pathFlags O) ∧
    pathFlags (O ^^^ PR_STRICT) = pathFlags O ∧ pathFlags (O ^^^ PR_END) = pathFlags O := by
  have htok : ∀ T r, tokensToRegExp T O = some r → r.flags = pathFlags O := by
    intro T r h
    unfold tokensToRegExp at h
    cases hl : T.getLast? with
    | none => simp [hl] at h
    | some t =>
      simp only [hl, Option.some.injEq] at h
      rw [← h]
  refine ⟨?_, htok, ?_, ?_, ?_, ?_, ?_, ?_, ?_⟩
  · intro T hT
    exact ⟨_, tokensToRegExp_eq T O hT, rfl⟩
  · intro p r h
    unfold pathToRegexp at h
    cases hp : parsePath p with
    | none => simp [hp] at h
    | some toks => exact htok toks r (by simpa [hp] using h)
  · intro ps r h
    unfold pathToRegexpList at h
    simp only at h
    split at h
    · cases h
    · split at h
      · cases h
      · simp only [Option.some.injEq] at h
        rw [← h]
  · rw [pathFlags_eq]
  · rw [pathFlags_eq]; cases O.testBit 0 <;> simp
  · intro O' h
    rw [pathFlags_eq, pathFlags_eq, h]
  · rw [pathFlags_eq, pathFlags_eq, Nat.testBit_xor, show Nat.testBit PR_STRICT 0 = false by decide]
    simp
  · rw [pathFlags_eq, pathFlags_eq, Nat.testBit_xor, show Nat.testBit PR_END 0 = false by decide]
    simp

/-- C13, at the failing input: the empty pattern has the empty token sequence, on which
`tokensToRegExp` calls `tokens.back()`: the behaviour is undefined for every option set, and so
is that of `pathToRegexp("", O)`. -/
theorem tokensToRegExp_empty_undefined :
    parsePath [] = some [] ∧
    (∀ O, tokensToRegExp [] O = none) ∧ (∀ O, pathToRegexp [] O = none) := by
  have h : parsePath [] = some [] := by decide!
  refine ⟨h, fun O => rfl, fun O => ?_⟩
  unfold pathToRegexp
  rw [h]
  rfl

/-! ## What every match reads -/

theorem eat_mem (p : Char → Bool) (s s' : MState) (h : s' ∈ s.eat p) :
    ∃ x, p x = true ∧ s.rest = x :: s'.rest ∧ s'.pos = s.pos + 1 ∧ s'.caps = s.caps := by
  unfold MState.eat at h
  split at h
  · simp at h
  · rename_i x xs hx
    split at h
    · simp only [List.mem_singleton] at h
      subst h
      exact ⟨x, by assumption, hx, rfl, rfl⟩
    · simp at h

theorem starLoop_suffix (g : Bool) (step : MState → List MState)
    (hstep : ∀ s s', s' ∈ step s → ∃ w, s.rest = w ++ s'.rest ∧ s'.pos = s.pos + w.length)
    (fuel : Nat) (s s' : MState) (h : s' ∈ starLoop g step fuel s) :
    ∃ w, s.rest = w ++ s'.rest ∧ s'.pos = s.pos + w.length := by
  induction fuel generalizing s with
  | zero =>
    simp only [starLoop, List.mem_singleton] at h
    subst h
    exact ⟨[], rfl, rfl⟩
  | succ fuel ih =>
    simp only [starLoop] at h
    have hmore : ∀ s1, s1 ∈ (step s).filter (fun s1 => decide (s1.rest.length < s.rest.length)) →
        s' ∈ starLoop g step fuel s1 → ∃ w, s.rest = w ++ s'.rest ∧ s'.pos = s.pos + w.length := by
      intro s1 hs1 hs'
      obtain ⟨w1, h1, h2⟩ := hstep s s1 (List.mem_filter.mp hs1).1
      obtain ⟨w2, h3, h4⟩ := ih s1 hs'
      refine ⟨w1 ++ w2, ?_, ?_⟩
      · rw [h1, h3, List.append_assoc]
      · rw [h4, h2, List.length_append, Nat.add_assoc]
    cases g with
    | true =>
      simp only [if_true, List.mem_append, List.mem_flatMap, List.mem_singleton] at h
      rcases h with ⟨s1, hs1, hs'⟩ | rfl
      · exact hmore s1 hs1 hs'
      · exact ⟨[], rfl, rfl⟩
    | false =>
      simp only [Bool.false_eq_true, if_false, List.mem_cons, List.mem_flatMap] at h
      rcases h with rfl | ⟨s1, hs1, hs'⟩
      · exact ⟨[], rfl, rfl⟩
      · exact hmore s1 hs1 hs'

/-- Every result of the matcher is the state after reading a prefix `w` of the unread
characters. -/
theorem run_suffix (ic : Bool) (re : Re) (s s' : MState) (h : s' ∈ re.run ic s) :
    ∃ w, s.rest = w ++ s'.rest ∧ s'.pos = s.pos + w.length := by
  induction re generalizing s s' with
  | empty =>
    simp only [Re.run, List.mem_singleton] at h
    subst h
    exact ⟨[], rfl, rfl⟩
  | char c =>
    obtain ⟨x, _, h1, h2, _⟩ := eat_mem _ s s' (by simpa [Re.run] using h)
    exact ⟨[x], by simpa using h1, by simpa using h2⟩
  | any =>
    obtain ⟨x, _, h1, h2, _⟩ := eat_mem _ s s' (by simpa [Re.run] using h)
    exact ⟨[x], by simpa using h1, by simpa using h2⟩
  | cls neg items =>
    obtain ⟨x, _, h1, h2, _⟩ := eat_mem _ s s' (by simpa [Re.run] using h)
    exact ⟨[x], by simpa using h1, by simpa using h2⟩
  | seq a b iha ihb =>
    simp only [Re.run, List.mem_flatMap] at h
    obtain ⟨s1, hs1, hs'⟩ := h
    obtain ⟨w1, h1, h2⟩ := iha s s1 hs1
    obtain ⟨w2, h3, h4⟩ := ihb s1 s' hs'
    refine ⟨w1 ++ w2, ?_, ?_⟩
    · rw [h1, h3, List.append_assoc]
    · rw [h4, h2, List.length_append, Nat.add_assoc]
  | alt a b iha ihb =>
    simp only [Re.run, List.mem_append] at h
    rcases h with h | h
    · exact iha s s' h
    · exact ihb s s' h
  | star g r ih =>
    simp only [Re.run] at h
    exact starLoop_suffix g _ (fun s1 s2 h12 => ih s1 s2 h12) _ s s' h
  | group n r ih =>
    simp only [Re.run, List.mem_map] at h
    obtain ⟨s1, hs1, rfl⟩ := h
    exact ih s s1 hs1
  | look neg r _ =>
    simp only [Re.run] at h
    split at h
    · split at h
      · simp only [List.mem_singleton] at h
        subst h
        exact ⟨[], rfl, rfl⟩
      · simp at h
    · split at h
      · simp at h
      · simp only [List.mem_singleton] at h
        subst h
        exact ⟨[], rfl, rfl⟩
  | bol =>
    simp only [Re.run] at h
    split at h
    · simp only [List.mem_singleton] at h
      subst h
      exact ⟨[], rfl, rfl⟩
    · simp at h
  | eol =>
    simp only [Re.run] at h
    split at h
    · simp only [List.mem_singleton] at h
      subst h
      exact ⟨[], rfl, rfl⟩
    · simp at h

theorem run_length_le (ic : Bool) (re : Re) (s s' : MState) (h : s' ∈ re.run ic s) :
    s'.rest.length ≤ s.rest.length := by
  obtain ⟨w, h1, _⟩ := run_suffix ic re s s' h
  rw [h1]
  simp

theorem mem_run_seq (ic : Bool) (a b : Re) (s s' : MState) :
    s' ∈ (Re.seq a b).run ic s ↔ ∃ s1, s1 ∈ a.run ic s ∧ s' ∈ b.run ic s1 := by
  simp only [Re.run, List.mem_flatMap]

theorem mem_run_alt (ic : Bool) (a b : Re) (s s' : MState) :
    s' ∈ (Re.alt a b).run ic s ↔ s' ∈ a.run ic s ∨ s' ∈ b.run ic s := by
  simp only [Re.run, List.mem_append]

theorem mem_run_group (ic : Bool) (n : Nat) (r : Re) (s s' : MState) :
    s' ∈ (Re.group n r).run ic s ↔
      ∃ s1, s1 ∈ r.run ic s ∧
        s' = { s1 with caps := (n, s.rest.take (s1.pos - s.pos)) :: s1.caps } := by
  simp only [Re.run, List.mem_map]
  constructor
  · rintro ⟨s1, h1, rfl⟩
    exact ⟨s1, h1, rfl⟩
  · rintro ⟨s1, h1, rfl⟩
    exact ⟨s1, h1, rfl⟩

theorem mem_run_char (ic : Bool) (c : Char) (s s' : MState) (h : s' ∈ (Re.char c).run ic s) :
    ∃ x, s.rest = x :: s'.rest ∧ s'.pos = s.pos + 1 ∧ s'.caps = s.caps ∧
      (if ic then c.toLower == x.toLower else c == x) = true := by
  simp only [Re.run] at h
  obtain ⟨x, hp, h1, h2, h3⟩ := eat_mem _ s s' h
  exact ⟨x, h1, h2, h3, hp⟩

/-- An expression that begins with a character reads at least one character. -/
theorem run_char_seq_lt (ic : Bool) (c : Char) (b : Re) (s s' : MState)
    (h : s' ∈ (Re.seq (Re.char c) b).run ic s) : s'.rest.length < s.rest.length := by
  obtain ⟨s1, hs1, hs'⟩ := (mem_run_seq ic _ _ s s').mp h
  obtain ⟨x, h1, _, _, _⟩ := mem_run_char ic c s s1 hs1
  have := run_length_le ic b s1 s' hs'
  rw [h1]
  simp only [List.length_cons]
  omega

/-- The expression `PATH_REGEXP` never matches the empty string. -/
theorem run_PATH_REGEXP_lt (s s' : MState) (h : s' ∈ PATH_REGEXP.run false s) :
    s'.rest.length < s.rest.length := by
  rcases (mem_run_alt false _ _ s s').mp h with h | h
  · obtain ⟨s1, hs1, rfl⟩ := (mem_run_group false 1 _ s s').mp h
    exact run_char_seq_lt false '\\' Re.any s s1 hs1
  · obtain ⟨s1, hs1, h⟩ := (mem_run_seq false _ _ s s').mp h
    have hle : s1.rest.length ≤ s.rest.length := run_length_le false rePrefix s s1 hs1
    rcases (mem_run_alt false _ _ s1 s').mp h with h | h
    · obtain ⟨s2, hs2, hs'⟩ := (mem_run_seq false _ _ s1 s').mp h
      have h2 : s2.rest.length < s1.rest.length := by
        rcases (mem_run_alt false _ _ s1 s2).mp hs2 with hs2 | hs2
        · exact run_char_seq_lt false ':' _ s1 s2 hs2
        · exact run_char_seq_lt false '(' _ s1 s2 hs2
      have h3 := run_length_le false reSuffix s2 s' hs'
      omega
    · obtain ⟨s2, hs2, rfl⟩ := (mem_run_group false 7 _ s1 s').mp h
      obtain ⟨x, h1, _, _, _⟩ := mem_run_char false '*' s1 s2 hs2
      have : s2.rest.length < s1.rest.length := by rw [h1]; simp
      show s2.rest.length < s.rest.length
      omega

/-- What a successful search returns: `k` start positions fail, then the first result `s'` of
the matcher at the next one gives the match, which is the text `w` read up to `s'`. -/
theorem searchFrom_some (ic : Bool) (re : Re) (pos : Nat) (subj : Str) (res : SMatch)
    (h : searchFrom ic re pos subj = some res) :
    ∃ k s' w, k ≤ subj.length ∧ res.position = pos + k ∧
      (re.run ic ⟨pos + k, subj.drop k, []⟩).head? = some s' ∧
      subj.drop k = w ++ s'.rest ∧ res.whole = w ∧ res.caps = s'.caps ∧
      ∀ j < k, re.run ic ⟨pos + j, subj.drop j, []⟩ = [] := by
  induction subj generalizing pos with
  | nil =>
    simp only [searchFrom] at h
    split at h
    · rename_i s' tl hr
      simp only [Option.some.injEq] at h
      subst h
      have hmem : s' ∈ re.run ic ⟨pos, [], []⟩ := by rw [hr]; exact List.mem_cons_self _ _
      obtain ⟨w, hw, _⟩ := run_suffix ic re _ _ hmem
      have hw' : w = [] ∧ s'.rest = [] := by
        simpa using hw.symm
      exact ⟨0, s', [], by simp, rfl, by simp [hr], by simp [hw'.2], rfl, rfl, by simp⟩
    · cases h
  | cons x xs ih =>
    simp only [searchFrom] at h
    split at h
    · rename_i s' tl hr
      simp only [Option.some.injEq] at h
      subst h
      have hmem : s' ∈ re.run ic ⟨pos, x :: xs, []⟩ := by rw [hr]; exact List.mem_cons_self _ _
      obtain ⟨w, hw, hp⟩ := run_suffix ic re _ _ hmem
      simp only at hw hp
      refine ⟨0, s', w, by simp, rfl, by simp [hr], by simpa using hw, ?_, rfl, by simp⟩
      simp only [hp, Nat.add_sub_cancel_left]
      rw [hw]
      simp
    · rename_i hr
      obtain ⟨k, s', w, hk, hpos, hhead, hdrop, hwhole, hcaps, hfail⟩ := ih (pos + 1) h
      refine ⟨k + 1, s', w, by simpa using hk, by omega, ?_, by simpa using hdrop, hwhole, hcaps, ?_⟩
      · rw [show pos + (k + 1) = pos + 1 + k by omega]
        simpa using hhead
      · intro j hj
        cases j with
        | zero => simpa using hr
        | succ j =>
          have := hfail j (by omega)
          rw [show pos + (j + 1) = pos + 1 + j by omega]
          simpa using this

/-- A match of `PATH_REGEXP` is not empty and lies within the subject. -/
theorem search_PATH_REGEXP_bounds (subj : Str) (res : SMatch)
    (h : regex_search false PATH_REGEXP subj = some res) :
    1 ≤ (res.str 0).length ∧ res.position + (res.str 0).length ≤ subj.length := by
  obtain ⟨k, s', w, hk, hpos, hhead, hdrop, hwhole, _, _⟩ := searchFrom_some _ _ _ _ _ h
  have hmem : s' ∈ PATH_REGEXP.run false ⟨0 + k, subj.drop k, []⟩ := List.mem_of_mem_head? hhead
  have hlt := run_PATH_REGEXP_lt _ _ hmem
  have hlen : (subj.drop k).length = w.length + s'.rest.length := by rw [hdrop]; simp
  simp only [List.length_drop] at hlen hlt
  simp only [SMatch.str, if_true, hwhole]
  omega

theorem parseLoop_some (str : Str) (fuel : Nat) (st : ParseState)
    (hidx : st.index ≤ str.length) (hfuel : str.length - st.index < fuel) :
    ∃ st', parseLoop str fuel st = some st' := by
  induction fuel generalizing st with
  | zero => omega
  | succ fuel ih =>
    simp only [parseLoop]
    cases hs : regex_search false PATH_REGEXP (str.drop st.index) with
    | none => exact ⟨st, rfl⟩
    | some res =>
      obtain ⟨h1, h2⟩ := search_PATH_REGEXP_bounds _ _ hs
      simp only [List.length_drop] at h2
      simp only
      split
      · exact ih _ (by simp; omega) (by simp; omega)
      · exact ih _ (by simp; omega) (by simp; omega)

/-- The scan loop of `parsePath` ends within its fuel. -/
theorem parsePath_some (str : Str) : ∃ tokens, parsePath str = some tokens := by
  obtain ⟨st', h⟩ := parseLoop_some str (str.length + 1) ⟨[], 0, 0, []⟩ (by simp) (by simp)
  exact ⟨parseFinish str st', by simp [parsePath, h]⟩

/-- C14: `parsePath` returns a token list for every input string. Every match of the master
regular expression in the scan loop has at least one character and ends within the input, so
from an index within the input the next index is strictly larger and again within the input,
and the substring up to the match is within bounds. -/
theorem parsePath_total (str : Str) :
    (∃ tokens, parsePath str = some tokens) ∧
    ∀ index res, index ≤ str.length →
      regex_search false PATH_REGEXP (str.drop index) = some res →
      1 ≤ (res.str 0).length ∧
      index + res.position ≤ str.length ∧
      index < index + (res.position + (res.str 0).length) ∧
      index + (res.position + (res.str 0).length) ≤ str.length := by
  constructor
  · exact parsePath_some str
  · intro index res hidx hs
    obtain ⟨h1, h2⟩ := search_PATH_REGEXP_bounds _ _ hs
    simp only [List.length_drop] at h2
    omega

/-! ## The key accumulator -/

theorem pushKeys_eq (keys : List PathKey) (tokens : List PathToken) :
    pushKeys keys tokens = keys ++ specKeysOf tokens := by
  induction tokens generalizing keys with
  | nil => simp [pushKeys, specKeysOf]
  | cons t tokens ih =>
    cases t with
    | lit s => simpa [pushKeys, specKeysOf] using ih keys
    | key k =>
      simp only [pushKeys, ih]
      simp [specKeysOf]

theorem pathToRegexpKeys_eq (p : Str) (keys : List PathKey) (O : Nat) (re : RegExp)
    (h : pathToRegexp p O = some re) :
    pathToRegexpKeys p keys O = some (re, keys ++ specKeysOfPattern p) := by
  unfold pathToRegexp at h
  unfold pathToRegexpKeys specKeysOfPattern
  cases hp : parsePath p with
  | none => simp [hp] at h
  | some tokens =>
    simp only [hp] at h
    simp [h, pushKeys_eq]

theorem pathToRegexpKeysLoop_eq (O : Nat) (ps : List Str) (rs : List RegExp)
    (pattern : Str) (keys : List PathKey)
    (h : List.Forall₂ (fun p r => pathToRegexp p O = some r) ps rs) :
    pathToRegexpKeysLoop O ps pattern keys
      = (pathToRegexpLoop O ps pattern).map
          (fun pat => (pat, keys ++ (ps.map specKeysOfPattern).flatten)) := by
  induction h generalizing pattern keys with
  | nil => simp [pathToRegexpKeysLoop, pathToRegexpLoop]
  | cons hp _ ih =>
    simp only [pathToRegexpKeysLoop, pathToRegexpLoop, pathToRegexpKeys_eq _ keys O _ hp, hp, ih]
    simp

/-- C11: for a pattern with a non-empty token sequence, `pathToRegexp` called with a key
accumulator returns the regular expression it returns without one, and leaves in the
accumulator the entries it had followed by the key tokens of `parsePath(p)` in token order; for
a list of such patterns the multi-pattern `pathToRegexp` returns the regular expression it
returns without an accumulator and appends the keys of the first pattern, then those of the
second, and so on. -/
theorem pathToRegexp_keys (ps : List Str) (keys : List PathKey) (O : Nat)
    (h : ∀ p ∈ ps, ∃ tokens, parsePath p = some tokens ∧ tokens ≠ []) :
    (∀ p ∈ ps, ∃ re, pathToRegexp p O = some re ∧
      pathToRegexpKeys p keys O = some (re, keys ++ specKeysOf ((parsePath p).getD []))) ∧
    ∃ re, pathToRegexpList ps O = some re ∧
      pathToRegexpListKeys ps keys O
        = some (re, keys ++ (ps.map (fun p => specKeysOf ((parsePath p).getD []))).flatten) := by
  obtain ⟨rs, hrs, -⟩ := exists_regexps ps O h
  constructor
  · intro p hp
    obtain ⟨tokens, htok, hne⟩ := h p hp
    obtain ⟨re, hre, _⟩ := pathToRegexp_some p O tokens htok hne
    exact ⟨re, hre, pathToRegexpKeys_eq p keys O re hre⟩
  · cases ps with
    | nil =>
      exact ⟨_, rfl, by simp [pathToRegexpListKeys, pathToRegexpKeysLoop, pathToRegexpList,
        pathToRegexpLoop]⟩
    | cons p ps' =>
      cases hrs with
      | cons hp hrest =>
        rename_i r rs'
        refine ⟨⟨"(?:".toList ++ r.source ++ (rs'.map (fun r => "|".toList ++ r.source)).flatten
          ++ ")".toList, pathFlags O⟩, ?_, ?_⟩
        · simp [pathToRegexpList, hp, pathToRegexpLoop_eq O ps' rs' _ hrest]
        · simp only [pathToRegexpListKeys, pathToRegexpKeys_eq p keys O r hp,
            pathToRegexpKeysLoop_eq O ps' rs' _ _ hrest, pathToRegexpLoop_eq O ps' rs' _ hrest]
          simp only [specKeysOfPattern, Option.map_some', List.map_cons, List.flatten_cons,
            List.append_assoc]
          rfl

theorem pathToRegexp_keys_witness :
    (∀ p ∈ ["/:test(\\d+)?".toList, "/route(\\d+)".toList],
        ∃ tokens, parsePath p = some tokens ∧ tokens ≠ []) ∧
    ((∀ p ∈ ["/:test(\\d+)?".toList, "/route(\\d+)".toList], ∃ re, pathToRegexp p 0 = some re ∧
      pathToRegexpKeys p [] 0 = some (re, [] ++ specKeysOf ((parsePath p).getD []))) ∧
    ∃ re, pathToRegexpList ["/:test(\\d+)?".toList, "/route(\\d+)".toList] 0 = some re ∧
      pathToRegexpListKeys ["/:test(\\d+)?".toList, "/route(\\d+)".toList] [] 0
        = some (re, [] ++ (["/:test(\\d+)?".toList, "/route(\\d+)".toList].map
            (fun p => specKeysOf ((parsePath p).getD []))).flatten)) :=
  have h : ∀ p ∈ ["/:test(\\d+)?".toList, "/route(\\d+)".toList],
      ∃ tokens, parsePath p = some tokens ∧ tokens ≠ [] := by
    intro p hp
    simp only [List.mem_cons, List.mem_singleton, List.not_mem_nil, or_false] at hp
    rcases hp with rfl | rfl
    · exact ⟨[key ⟨"test".toList, "/".toList, "/".toList, true, false, "\\d+".toList⟩],
        by decide!, by simp⟩
    · exact ⟨[lit "/route".toList, key ⟨"0".toList, [], "/".toList, false, false, "\\d+".toList⟩],
        by decide!, by simp⟩
  ⟨h, pathToRegexp_keys _ [] 0 h⟩

/-- The keys that the two patterns of the test-suite leave in an accumulator that holds one
entry already. -/
theorem pathToRegexpListKeys_test :
    (pathToRegexpListKeys ["/:test(\\d+)?".toList, "/route(\\d+)".toList]
        [⟨"old".toList, [], "/".toList, false, false, ".*".toList⟩] 0).map (fun r => r.2)
      = some [⟨"old".toList, [], "/".toList, false, false, ".*".toList⟩,
          ⟨"test".toList, "/".toList, "/".toList, true, false, "\\d+".toList⟩,
          ⟨"0".toList, [], "/".toList, false, false, "\\d+".toList⟩] := by
  decide!

/-- C17, at the failing input: for the request `GET /user/123` only the first matcher matches,
with `"123"` as group 1, and this is what its handler reads before it calls `ctx.next()`. The
call tries the second matcher, whose regular expression does not match; no further match
succeeds, and yet after the call `ctx.match(1)` is the empty string; with the method `PUT`,
for which the second matcher is not tried, it is still `"123"`. -/
theorem match_cleared_by_failed_search :
    (∀ path ∈ ["/user/:id", "/data/:str"],
      (pathToRegexp path.toList PR_END).bind to_regex = some (testRegex path)) ∧
    ((testRegex "/user/:id").search "/user/123".toList).map (fun m => m.str 1)
      = some "123".toList ∧
    (testRegex "/data/:str").search "/user/123".toList = none ∧
    (HttpRouter.handleRequest ⟨matchersReadAfterNext⟩ ⟨"GET".toList, "/user/123".toList⟩ []).map
        (fun ctx => (ctx.entered, ctx.response))
      = some ([0], ["123".toList, []]) ∧
    (HttpRouter.handleRequest ⟨matchersReadAfterNext⟩ ⟨"PUT".toList, "/user/123".toList⟩ []).map
        (fun ctx => (ctx.entered, ctx.response))
      = some ([0], ["123".toList, "123".toList]) := by
  decide!

/-- C19, at the failing input: the pattern `\\` (an escaped backslash) is the one literal token
`\`. With the options `STRICT` and `END` the emitted source is `^\$`, a regular expression that
matches the string `$`; with `STRICT` alone the emitted source is `^\(?=\/|$)`, from which no
regular expression can be constructed, so nothing is matched by it. -/
theorem end_language_not_included :
    parsePath "\\\\".toList = some [lit "\\".toList] ∧
    tokensToRegExp [lit "\\".toList] (PR_STRICT ||| PR_END)
      = some ⟨"^\\$".toList, ⟨true, true⟩⟩ ∧
    ((tokensToRegExp [lit "\\".toList] (PR_STRICT ||| PR_END)).bind to_regex).map
        (fun re => (re.search "$".toList).map (fun m => m.str 0))
      = some (some "$".toList) ∧
    tokensToRegExp [lit "\\".toList] PR_STRICT
      = some ⟨"^\\(?=\\/|$)".toList, ⟨true, true⟩⟩ ∧
    (tokensToRegExp [lit "\\".toList] PR_STRICT).bind to_regex = none := by
  decide!

/-! ## The tokenizer on text without parameters, and on an escaped character -/

theorem run_eq_nil_of_forall (l : List MState) (h : ∀ s', s' ∉ l) : l = [] :=
  List.eq_nil_iff_forall_not_mem.mpr h

/-- The parameter construct, without its prefix, begins with `:`, `(` or `*`. -/
theorem run_construct_first (s s' : MState)
    (h : s' ∈ (Re.alt (Re.seq (Re.alt reNamed (reParen 5)) reSuffix)
      (Re.group 7 (Re.char '*'))).run false s) :
    ∃ c t, s.rest = c :: t ∧ (c = ':' ∨ c = '(' ∨ c = '*') := by
  have first : ∀ (c : Char) (b : Re) (s1 s2 : MState), s2 ∈ (Re.seq (Re.char c) b).run false s1 →
      ∃ t, s1.rest = c :: t := by
    intro c b s1 s2 h12
    obtain ⟨s3, h13, _⟩ := (mem_run_seq false _ _ s1 s2).mp h12
    obtain ⟨x, hx, _, _, hc⟩ := mem_run_char false c s1 s3 h13
    simp only [Bool.false_eq_true, if_false, beq_iff_eq] at hc
    exact ⟨s3.rest, by rw [hx, hc]⟩
  rcases (mem_run_alt false _ _ s s').mp h with h | h
  · obtain ⟨s2, hs2, _⟩ := (mem_run_seq false _ _ s s').mp h
    rcases (mem_run_alt false _ _ s s2).mp hs2 with hs2 | hs2
    · obtain ⟨t, ht⟩ := first ':' _ s s2 hs2
      exact ⟨':', t, ht, Or.inl rfl⟩
    · obtain ⟨t, ht⟩ := first '(' _ s s2 hs2
      exact ⟨'(', t, ht, Or.inr (Or.inl rfl)⟩
  · obtain ⟨s2, hs2, _⟩ := (mem_run_group false 7 _ s s').mp h
    obtain ⟨x, hx, _, _, hc⟩ := mem_run_char false '*' s s2 hs2
    simp only [Bool.false_eq_true, if_false, beq_iff_eq] at hc
    exact ⟨'*', s2.rest, by rw [hx, hc], Or.inr (Or.inr rfl)⟩


theorem run_PATH_REGEXP_plain (pos : Nat) (c : Char) (t : Str) (caps : List (Nat × Str))
    (hc : plainChar c) (ht : noConstructAhead t) :
    PATH_REGEXP.run false ⟨pos, c :: t, caps⟩ = [] := by
  apply run_eq_nil_of_forall
  intro s' h
  rcases (mem_run_alt false _ _ _ s').mp h with h | h
  · obtain ⟨s1, hs1, _⟩ := (mem_run_group false 1 _ _ s').mp h
    obtain ⟨s2, hs2, _⟩ := (mem_run_seq false _ _ _ s1).mp hs1
    obtain ⟨x, hx, _, _, hcx⟩ := mem_run_char false '\\' _ s2 hs2
    simp only [Bool.false_eq_true, if_false, beq_iff_eq, List.cons.injEq] at hcx hx
    exact hc.1 (by rw [hx.1, hcx])
  · obtain ⟨s1, hs1, h⟩ := (mem_run_seq false _ _ _ s').mp h
    obtain ⟨c', t', hrest, hc'⟩ := run_construct_first s1 s' h
    have hs1rest : s1.rest = c :: t ∨ s1.rest = t := by
      unfold rePrefix Re.opt at hs1
      simp only [if_true] at hs1
      rcases (mem_run_alt false _ _ _ s1).mp hs1 with hs1 | hs1
      · obtain ⟨s2, hs2, rfl⟩ := (mem_run_group false 2 _ _ s1).mp hs1
        simp only [Re.run] at hs2
        obtain ⟨x, _, hx, _, _⟩ := eat_mem _ _ s2 hs2
        simp only [List.cons.injEq] at hx
        exact Or.inr hx.2.symm
      · simp only [Re.run, List.mem_singleton] at hs1
        subst hs1
        exact Or.inl rfl
    rcases hs1rest with h1 | h1
    · rw [h1] at hrest
      simp only [List.cons.injEq] at hrest
      obtain ⟨rfl, _⟩ := hrest
      rcases hc' with rfl | rfl | rfl
      · exact hc.2.1 rfl
      · exact hc.2.2.1 rfl
      · exact hc.2.2.2 rfl
    · rw [h1] at hrest
      obtain ⟨h2, h3, h4⟩ := ht c' t' hrest
      rcases hc' with rfl | rfl | rfl
      · exact h2 rfl
      · exact h3 rfl
      · exact h4 rfl

theorem run_PATH_REGEXP_nil (pos : Nat) (caps : List (Nat × Str)) :
    PATH_REGEXP.run false ⟨pos, [], caps⟩ = [] := by
  apply run_eq_nil_of_forall
  intro s' h
  have := run_PATH_REGEXP_lt _ _ h
  simp at this

/-- The search passes over plain characters. -/
theorem searchFrom_plain (a f : Str) (ha : ∀ c ∈ a, plainChar c) (hf : noConstructAhead f)
    (pos : Nat) :
    searchFrom false PATH_REGEXP pos (a ++ f) = searchFrom false PATH_REGEXP (pos + a.length) f := by
  induction a generalizing pos with
  | nil => simp
  | cons c a ih =>
    have hahead : noConstructAhead (a ++ f) := by
      cases a with
      | nil => simpa using hf
      | cons c2 a2 =>
        intro c' t' h
        simp only [List.cons_append, List.cons.injEq] at h
        obtain ⟨rfl, _⟩ := h
        exact (ha c2 (by simp)).2
    have hrun := run_PATH_REGEXP_plain pos c (a ++ f) [] (ha c (List.mem_cons_self _ _)) hahead
    show searchFrom false PATH_REGEXP pos (c :: (a ++ f)) = _
    rw [searchFrom, hrun]
    simp only
    rw [ih (fun c' hc' => ha c' (List.mem_cons_of_mem _ hc'))]
    simp only [List.length_cons]
    congr 1
    omega

theorem noConstructAhead_nil : noConstructAhead [] := by
  intro c t h
  cases h

theorem search_plain_none (b : Str) (hb : ∀ c ∈ b, plainChar c) :
    regex_search false PATH_REGEXP b = none := by
  unfold regex_search
  have := searchFrom_plain b [] hb noConstructAhead_nil 0
  rw [List.append_nil] at this
  rw [this]
  simp [searchFrom, run_PATH_REGEXP_nil]

theorem run_PATH_REGEXP_escaped (pos : Nat) (X : Char) (b : Str) (hX : X ≠ '\n' ∧ X ≠ '\r') :
    (PATH_REGEXP.run false ⟨pos, '\\' :: X :: b, []⟩).head?
      = some ⟨pos + 2, b, [(1, ['\\', X])]⟩ := by
  unfold PATH_REGEXP
  apply run_alt_head_left
  have h := run_group_head false 1 reEscaped ⟨pos, '\\' :: X :: b, []⟩ ⟨pos + 2, b, []⟩
    (by simp [reEscaped, Re.run, MState.eat, hX.1, hX.2])
  rw [h]
  simp

theorem search_escaped (a b : Str) (X : Char) (ha : ∀ c ∈ a, plainChar c)
    (hX : X ≠ '\n' ∧ X ≠ '\r') :
    regex_search false PATH_REGEXP (a ++ '\\' :: X :: b)
      = some ⟨a.length, ['\\', X], [(1, ['\\', X])]⟩ := by
  unfold regex_search
  have hf : noConstructAhead ('\\' :: X :: b) := by
    intro c t h
    simp only [List.cons.injEq] at h
    obtain ⟨rfl, _⟩ := h
    decide
  rw [searchFrom_plain a _ ha hf 0, Nat.zero_add]
  have hhead := run_PATH_REGEXP_escaped a.length X b hX
  simp only [searchFrom]
  cases hr : PATH_REGEXP.run false ⟨a.length, '\\' :: X :: b, []⟩ with
  | nil => simp [hr] at hhead
  | cons s' tl =>
    simp only [hr, List.head?_cons, Option.some.injEq] at hhead
    subst hhead
    simp

/-- A pattern of plain text around one escaped character is one literal token. -/
theorem parsePath_escape_literal (a b : Str) (X : Char) (ha : ∀ c ∈ a, plainChar c)
    (hb : ∀ c ∈ b, plainChar c) (hX : X ≠ '\n' ∧ X ≠ '\r') :
    parsePath (a ++ '\\' :: X :: b) = some [lit (a ++ X :: b)] := by
  have hs := search_escaped a b X ha hX
  have hdrop : (a ++ '\\' :: X :: b).drop (a.length + 2) = b := by
    rw [List.drop_append_eq_append_drop]
    simp
  unfold parsePath
  rw [show (a ++ '\\' :: X :: b).length + 1 = (a.length + b.length + 1) + 1 + 1 by simp; omega]
  simp only [parseLoop, List.drop_zero, hs, SMatch.str, List.lookup, if_true,
    Nat.zero_add, List.length_cons, List.length_nil, hdrop, search_plain_none b hb,
    Option.map_some', parseFinish, substr]
  simp [parseFinish, hdrop]
  cases b with
  | nil => simp
  | cons y b => simp

/-- The emitted source for one literal that keeps its last character. -/
theorem specSource_single_literal (L : Str) (O : Nat)
    (hslash : O.testBit 1 = true ∨ L.getLast? ≠ some '/') :
    ∃ post, specSource [lit L] O = "^".toList ++ escapeString L ++ post := by
  unfold specSource
  simp only [List.map_cons, List.map_nil, List.flatten_cons, List.flatten_nil, specPiece,
    List.append_nil]
  cases hs : O.testBit 1 with
  | true =>
    refine ⟨if O.testBit 2 = true then "$".toList
      else if specLastIsSlashLiteral [lit L] = true then [] else "(?=\\/|$)".toList, ?_⟩
    simp
  | false =>
    have hl : specLastIsSlashLiteral [lit L] = false := by
      rcases hslash with h | h
      · rw [hs] at h
        cases h
      · simp [specLastIsSlashLiteral, h]
    refine ⟨"(?:\\/(?=$))?".toList ++
      (if O.testBit 2 = true then "$".toList else "(?=\\/|$)".toList), ?_⟩
    simp [hl]

/-- C15 (amended): for a character `X` other than the line feed and the carriage return, and
strings `a` and `b` without backslash, `:`, `(` and `*`, the pattern `a ++ "\\" ++ X ++ b` is
parsed into the single literal token `a ++ X ++ b`; for every option set `O` in which `STRICT`
is set, or when the literal does not end in `/`, the source that `pathToRegexp` emits is `"^"`,
then `escapeString (a ++ X ++ b)`, then the ending; and the function that `compilePath` builds
returns `a ++ X ++ b` for every data map. -/
theorem parsePath_escaped (a b : Str) (X : Char) (O : Nat)
    (ha : ∀ c ∈ a, plainChar c) (hb : ∀ c ∈ b, plainChar c) (hX : X ≠ '\n' ∧ X ≠ '\r')
    (hslash : O.testBit 1 = true ∨ (a ++ X :: b).getLast? ≠ some '/') :
    parsePath (a ++ '\\' :: X :: b) = some [lit (a ++ X :: b)] ∧
    (∃ post, pathToRegexp (a ++ '\\' :: X :: b) O
      = some ⟨"^".toList ++ escapeString (a ++ X :: b) ++ post, pathFlags O⟩) ∧
    ∃ pf, compilePath (a ++ '\\' :: X :: b) = some pf ∧
      ∀ data : SegmentMap, pf.call data = CallResult.returned (a ++ X :: b) := by
  have hp := parsePath_escape_literal a b X ha hb hX
  refine ⟨hp, ?_, ?_⟩
  · obtain ⟨post, hpost⟩ := specSource_single_literal (a ++ X :: b) O hslash
    refine ⟨post, ?_⟩
    unfold pathToRegexp
    rw [hp]
    simp only
    rw [tokensToRegExp_eq _ O (by simp), hpost]
  · refine ⟨⟨[lit (a ++ X :: b)], [none]⟩, ?_, ?_⟩
    · unfold compilePath
      rw [hp]
      rfl
    · intro data
      simp [PathFunction.call, renderTokens]

theorem parsePath_escaped_witness :
    (∀ c ∈ "/a".toList, plainChar c) ∧ (∀ c ∈ "b".toList, plainChar c) ∧
    ('.' ≠ '\n' ∧ '.' ≠ '\r') ∧
    (Nat.testBit 0 1 = true ∨ ("/a".toList ++ '.' :: "b".toList).getLast? ≠ some '/') ∧
    parsePath ("/a".toList ++ '\\' :: '.' :: "b".toList)
      = some [lit ("/a".toList ++ '.' :: "b".toList)] ∧
    (∃ post, pathToRegexp ("/a".toList ++ '\\' :: '.' :: "b".toList) 0
      = some ⟨"^".toList ++ escapeString ("/a".toList ++ '.' :: "b".toList) ++ post,
          pathFlags 0⟩) ∧
    ∃ pf, compilePath ("/a".toList ++ '\\' :: '.' :: "b".toList) = some pf ∧
      ∀ data : SegmentMap,
        pf.call data = CallResult.returned ("/a".toList ++ '.' :: "b".toList) :=
  have ha : ∀ c ∈ "/a".toList, plainChar c := by
    intro c hc
    simp only [String.toList, List.mem_cons, List.mem_singleton, List.mem_nil_iff, or_false] at hc
    rcases hc with rfl | rfl <;> exact ⟨by decide, by decide, by decide, by decide⟩
  have hb : ∀ c ∈ "b".toList, plainChar c := by
    intro c hc
    simp only [String.toList, List.mem_cons, List.mem_singleton, List.mem_nil_iff, or_false] at hc
    rcases hc with rfl
    exact ⟨by decide, by decide, by decide, by decide⟩
  ⟨ha, hb, ⟨by decide, by decide⟩, Or.inr (by decide),
    parsePath_escaped "/a".toList "b".toList '.' 0 ha hb ⟨by decide, by decide⟩
      (Or.inr (by decide))⟩

/-- C15 (as stated) fails for the line feed: the pattern `a`, backslash, line feed, `b` is
parsed into one literal that keeps the backslash; and for the pattern `a\.b/` under the
default options the emitted source does not contain `escapeString "a.b/"`. -/
theorem escaped_line_feed_keeps_backslash :
    (∀ c ∈ "a".toList, plainChar c) ∧ (∀ c ∈ "b".toList, plainChar c) ∧
    parsePath ("a".toList ++ '\\' :: '\n' :: "b".toList)
      = some [lit ("a".toList ++ '\\' :: '\n' :: "b".toList)] ∧
    parsePath ("a".toList ++ '\\' :: '\n' :: "b".toList)
      ≠ some [lit ("a".toList ++ '\n' :: "b".toList)] ∧
    (∃ pf, compilePath ("a".toList ++ '\\' :: '\n' :: "b".toList) = some pf ∧
      pf.call (fun _ => none)
        = CallResult.returned ("a".toList ++ '\\' :: '\n' :: "b".toList)) ∧
    pathToRegexp ("a".toList ++ '\\' :: '.' :: "b/".toList) PR_END
      = some ⟨"^a\\.b(?:\\/(?=$))?$".toList, pathFlags PR_END⟩ ∧
    escapeString ("a".toList ++ '.' :: "b/".toList) = "a\\.b\\/".toList := by
  refine ⟨?_, ?_, by decide!, by decide!,
    ⟨⟨[lit ("a".toList ++ '\\' :: '\n' :: "b".toList)], [none]⟩, by decide!, by decide!⟩,
    by decide!, by decide!⟩
  · intro c hc
    simp only [String.toList, List.mem_cons, List.mem_singleton, List.mem_nil_iff, or_false] at hc
    rcases hc with rfl
    exact ⟨by decide, by decide, by decide, by decide⟩
  · intro c hc
    simp only [String.toList, List.mem_cons, List.mem_singleton, List.mem_nil_iff, or_false] at hc
    rcases hc with rfl
    exact ⟨by decide, by decide, by decide, by decide⟩

/-! ## The auto-index of un-named constructs -/

theorem specKeysOf_append (a b : List PathToken) :
    specKeysOf (a ++ b) = specKeysOf a ++ specKeysOf b := by
  simp [specKeysOf, List.filterMap_append]

theorem specKeysOf_parseFinish (str : Str) (st : ParseState) :
    specKeysOf (parseFinish str st) = specKeysOf st.tokens := by
  unfold parseFinish
  simp only
  generalize (if st.index < str.length then st.path ++ str.drop st.index else st.path) = path
  split
  · rw [specKeysOf_append]
    simp [specKeysOf]
  · rfl

/-- The keys among the tokens of the scan loop are those built from the matches that are
not escapes. -/
theorem parseLoop_keys (str : Str) (fuel : Nat) (st st' : ParseState)
    (h : parseLoop str fuel st = some st') :
    specKeysOf st'.tokens
      = specKeysOf st.tokens ++ keysOfMatches st.key (specKeyMatchesFrom str fuel st.index) := by
  induction fuel generalizing st with
  | zero => simp [parseLoop] at h
  | succ fuel ih =>
    simp only [parseLoop] at h
    simp only [specKeyMatchesFrom]
    cases hs : regex_search false PATH_REGEXP (str.drop st.index) with
    | none =>
      simp only [hs, Option.some.injEq] at h
      subst h
      simp [keysOfMatches]
    | some res =>
      simp only [hs] at h
      cases he : (res.str 1).isEmpty with
      | false =>
        simp only [he, Bool.not_false, if_true] at h
        have := ih _ h
        simpa [he] using this
      | true =>
        simp only [he, Bool.not_true, Bool.false_eq_true, if_false] at h
        have := ih _ h
        simp only [if_true] at this ⊢
        rw [this]
        split <;> simp [specKeysOf_append, specKeysOf, keysOfMatches]

theorem keysOfMatches_length (k : Nat) (ms : List SMatch) :
    (keysOfMatches k ms).length = ms.length := by
  induction ms generalizing k with
  | nil => rfl
  | cons m ms ih => simp [keysOfMatches, ih]

theorem keysOfMatches_names (k : Nat) (ms : List SMatch) :
    (keysOfMatches k ms).map (fun key => key.name) = specKeyNames k ms := by
  induction ms generalizing k with
  | nil => rfl
  | cons m ms ih =>
    simp only [keysOfMatches, specKeyNames, List.map_cons, ih]
    cases hn : (m.str 3).isEmpty <;> simp [keyOfMatch, specUnnamed, hn]

theorem keysOfMatches_unnamed (k : Nat) (ms : List SMatch) :
    (specUnnamedKeys (keysOfMatches k ms) ms).map (fun key => key.name)
      = (List.range' k (ms.filter specUnnamed).length).map to_string_int := by
  induction ms generalizing k with
  | nil => rfl
  | cons m ms ih =>
    unfold specUnnamedKeys at ih ⊢
    simp only [keysOfMatches, List.zip_cons_cons]
    cases hn : (m.str 3).isEmpty with
    | true =>
      have hu : specUnnamed m = true := hn
      simp only [List.filter_cons, hu, if_true, List.map_cons, List.length_cons, List.range'_succ]
      rw [show (keyOfMatch m k).2 = k + 1 by simp [keyOfMatch, hn], ih]
      simp [keyOfMatch, hn]
    | false =>
      have hu : specUnnamed m = false := hn
      simp only [List.filter_cons, hu, Bool.false_eq_true, if_false]
      rw [show (keyOfMatch m k).2 = k by simp [keyOfMatch, hn], ih]

/-- C16: for every pattern, `parsePath` returns tokens whose keys correspond one to one, in
order, to the constructs of the pattern that create a key; the keys created from un-named
constructs (anonymous groups and bare `*`) are named `"0"`, `"1"`, `"2"`, ... in order of
appearance, the k-th of them having the decimal rendering of `k` as name; and the names of all
keys are those of a counter that runs across the whole pattern and advances at un-named
constructs only, a named parameter keeping its own name. The pattern
`"/:postType(video|audio|text)(\\+.+)?"` gives keys named `"postType"` and `"0"`, and a lone
`"*"` gives one key named `"0"` with empty prefix and pattern `".*"`. -/
theorem parsePath_auto_index :
    (∀ str : Str, ∃ tokens, parsePath str = some tokens ∧
      (specKeysOf tokens).length = (specKeyMatches str).length ∧
      (specUnnamedKeys (specKeysOf tokens) (specKeyMatches str)).map (fun key => key.name)
        = (List.range ((specKeyMatches str).filter specUnnamed).length).map to_string_int ∧
      (∀ k (hk : k < (specUnnamedKeys (specKeysOf tokens) (specKeyMatches str)).length),
        ((specUnnamedKeys (specKeysOf tokens) (specKeyMatches str)).get ⟨k, hk⟩).name
          = to_string_int k) ∧
      (specKeysOf tokens).map (fun key => key.name) = specKeyNames 0 (specKeyMatches str)) ∧
    (specKeysOfPattern "/:postType(video|audio|text)(\\+.+)?".toList).map (fun key => key.name)
      = ["postType".toList, "0".toList] ∧
    (specKeyMatches "/:postType(video|audio|text)(\\+.+)?".toList).map specUnnamed
      = [false, true] ∧
    parsePath "*".toList = some [key ⟨"0".toList, [], "/".toList, false, false, ".*".toList⟩] := by
  refine ⟨fun str => ?_, by decide!, by decide!, by decide!⟩
  cases hl : parseLoop str (str.length + 1) ⟨[], 0, 0, []⟩ with
  | none =>
    obtain ⟨st', h⟩ := parseLoop_some str (str.length + 1) ⟨[], 0, 0, []⟩ (by simp) (by simp)
    rw [hl] at h
    cases h
  | some st' =>
    have hk := parseLoop_keys str _ _ _ hl
    simp only [specKeysOf, List.filterMap_nil, List.nil_append] at hk
    have hkeys : specKeysOf (parseFinish str st') = keysOfMatches 0 (specKeyMatches str) := by
      rw [specKeysOf_parseFinish]
      exact hk
    have hun := keysOfMatches_unnamed 0 (specKeyMatches str)
    rw [← List.range_eq_range'] at hun
    refine ⟨parseFinish str st', by simp [parsePath, hl], ?_, ?_, ?_, ?_⟩
    · rw [hkeys, keysOfMatches_length]
    · rw [hkeys]
      exact hun
    · rw [hkeys]
      intro k hk
      have h1 : k < ((specUnnamedKeys (keysOfMatches 0 (specKeyMatches str))
          (specKeyMatches str)).map (fun key => key.name)).length := by
        simpa using hk
      have h2 := List.getElem_map (fun key : PathKey => key.name) (h := h1)
      rw [List.get_eq_getElem]
      rw [← h2]
      simp only [hun]
      simp
    · rw [hkeys, keysOfMatches_names]

/-! ## The round trip through the regex and the inverse compiler -/

/-- C18 (as stated) fails: under the default options the regex ignores case and accepts one
trailing slash, and the inverse compiler encodes the values. The pattern `"/user/:id"`
matches `"/USER/5"`, `"/user/5/"` and `"/user/a b"`, and what is rendered from the extracted
map is `"/user/5"`, `"/user/5"` and `"/user/a+b"`. For `"/:seg+"` the path `"/a/b"` comes back
as `"/a%2Fb"`, for `"/x/:a?"` the path `"/x"`, whose group is empty, makes the call throw,
and for `"/:a/:a"`, where two keys share a name, the path `"/x/y"` comes back as `"/x/x"`. -/
theorem round_trip_fails :
    specRoundTrip "/user/:id".toList PR_END "/USER/5".toList
      = some (CallResult.returned "/user/5".toList) ∧
    specRoundTrip "/user/:id".toList PR_END "/user/5/".toList
      = some (CallResult.returned "/user/5".toList) ∧
    specRoundTrip "/user/:id".toList PR_END "/user/a b".toList
      = some (CallResult.returned "/user/a+b".toList) ∧
    specRoundTrip "/:seg+".toList PR_END "/a/b".toList
      = some (CallResult.returned "/a%2Fb".toList) ∧
    specRoundTrip "/x/:a?".toList PR_END "/x".toList
      = some (CallResult.thrown ⟨ErrorKind.PATTERN_MISMATCH,
          "Expected all \"a\" to match \"[^\\/]+?\", but received \"\"".toList⟩) ∧
    specRoundTrip "/:a/:a".toList PR_END "/x/y".toList
      = some (CallResult.returned "/x/x".toList) := by
  refine ⟨by decide!, by decide!, by decide!, by decide!, by decide!, by decide!⟩

/-! ## Reading the emitted source -/

theorem escapeStringStep_nil (c : Char) :
    escapeStringStep [] c = if c ∈ escapedChars then ['\\', c] else [c] := by
  unfold escapeStringStep
  split <;> first | rfl | skip
  rename_i h1 h2 h3 h4 h5 h6 h7 h8 h9 h10 h11 h12 h13 h14 h15 h16 h17
  have : c ∉ escapedChars := by
    simp only [escapedChars, String.toList, List.mem_cons, List.mem_nil_iff, or_false, not_or]
    exact ⟨h1, h2, h3, h4, h5, h6, h7, h8, h9, h10, h11, h12, h13, h14, h15, h16, h17⟩
  simp [this]

theorem quantifiers_termStart (f : Nat) (r : Re) (inp : Str) (h : termStart inp) :
    quantifiers (f + 1) r inp = some (r, inp) := by
  obtain ⟨x, xs, rfl, h1, h2, h3, h4, -, -⟩ := h
  unfold quantifiers
  split <;> simp_all

theorem withQuantifiers_termStart (r : Re) (inp : Str) (n : Nat) (h : termStart inp) :
    withQuantifiers (some (r, inp, n)) = some (r, inp, n) := by
  simp [withQuantifiers, quantifiers_termStart _ r inp h]

theorem parseTerm_escaped (f n : Nat) (c : Char) (rest : Str) (hc : c ∈ escapedChars)
    (hr : termStart rest) :
    parseTerm (f + 1) ('\\' :: c :: rest) n = some (Re.char c, rest, n) := by
  have he : escapeAtom c = some (Re.char c) := by
    simp only [escapedChars, String.toList, List.mem_cons, List.mem_nil_iff, or_false] at hc
    rcases hc with rfl | rfl | rfl | rfl | rfl | rfl | rfl | rfl | rfl | rfl | rfl | rfl | rfl |
      rfl | rfl | rfl | rfl <;> decide
  simp [parseTerm, he, withQuantifiers_termStart _ _ _ hr]

theorem parseTerm_char (f n : Nat) (c : Char) (rest : Str) (hc : c ∉ escapedChars)
    (hb : c ≠ '\\') (hr : termStart rest) :
    parseTerm (f + 1) (c :: rest) n = some (Re.char c, rest, n) := by
  simp only [escapedChars, String.toList, List.mem_cons, List.mem_nil_iff, or_false, not_or] at hc
  obtain ⟨h1, h2, h3, h4, h5, h6, h7, h8, h9, h10, h11, h12, h13, h14, h15, h16, h17⟩ := hc
  rw [← withQuantifiers_termStart (Re.char c) rest n hr]
  unfold parseTerm
  split <;> simp_all

theorem mkSeq_ne_empty (t u : Re) (h : u ≠ Re.empty) : Re.mkSeq t u = Re.seq t u := by
  cases u <;> first | rfl | exact absurd rfl h

theorem parseAlternative_step (f n n1 n' : Nat) (inp rest r' : Str) (t u : Re)
    (hs : termStart inp) (ht : parseTerm f inp n = some (t, rest, n1))
    (hu : parseAlternative f rest n1 = some (u, r', n')) (hne : u ≠ Re.empty) :
    parseAlternative (f + 1) inp n = some (Re.seq t u, r', n') := by
  obtain ⟨x, xs, rfl, -, -, -, -, h5, h6⟩ := hs
  have hm := mkSeq_ne_empty t u hne
  unfold parseAlternative
  split <;> simp_all

theorem parseAlternative_eol (f n : Nat) :
    parseAlternative (f + 2) "$".toList n = some (Re.eol, [], n) := by
  simp [parseAlternative, parseTerm, Re.mkSeq]

theorem parseTerm_group_slash (f n : Nat) (rest : Str) (hr : termStart rest) :
    parseTerm (f + 4) ("([^\\/]+?)".toList ++ rest) n
      = some (Re.group (n + 1) (Re.plus false (Re.cls true [ClassItem.single '/'])), rest,
          n + 1) := by
  have hq := withQuantifiers_termStart
    (Re.group (n + 1) (Re.plus false (Re.cls true [ClassItem.single '/']))) rest (n + 1) hr
  simp [parseTerm, parseDisjunction, parseAlternative, bracket, bracketItems, bracketAtom,
    escapeItem, classEscape, controlEscape, quantifiers, closeParen, withQuantifiers, Re.mkSeq]
  simpa [withQuantifiers] using hq

theorem plainKey_cases (k : PathKey) (h : plainKey k = true) :
    k = ⟨k.name, "/".toList, "/".toList, false, false, "[^\\/]+?".toList⟩ ∨
    k = ⟨k.name, [], "/".toList, false, false, "[^\\/]+?".toList⟩ ∨
    k = ⟨k.name, ".".toList, ".".toList, false, false, "[^.]+?".toList⟩ := by
  simpa [plainKey, or_assoc] using h

theorem plainTokens_cons (t : PathToken) (T : List PathToken) (h : plainTokens (t :: T)) :
    plainTokens T :=
  fun t' ht' => h t' (List.mem_cons_of_mem _ ht')

theorem reChain_ne_empty (ts : List Re) (u : Re) (h : u ≠ Re.empty) :
    reChain ts u ≠ Re.empty := by
  cases ts with
  | nil => exact h
  | cons t ts => simp [reChain]

theorem escapeString_cons (c : Char) (s : Str) :
    escapeString (c :: s) = escapeStringStep [] c ++ escapeString s := by
  have := escapeString_append [c] s
  simpa [escapeString] using this

theorem termStart_escaped (c : Char) (rest : Str) :
    termStart (escapeStringStep [] c ++ rest) := by
  rw [escapeStringStep_nil]
  split
  · exact ⟨'\\', c :: rest, rfl, by decide, by decide, by decide, by decide, by decide, by decide⟩
  · rename_i hn
    simp only [escapedChars, String.toList, List.mem_cons, List.mem_nil_iff, or_false,
      not_or] at hn
    exact ⟨c, rest, rfl, hn.2.2.1, hn.2.1, hn.2.2.2.1, hn.2.2.2.2.2.2.2.2.2.1,
      hn.2.2.2.2.2.2.2.2.2.2.2.2.2.2.2.1, hn.2.2.2.2.2.2.2.2.2.2.2.2.1⟩

theorem termStart_escapeString (s rest : Str) (hr : termStart rest) :
    termStart (escapeString s ++ rest) := by
  cases s with
  | nil => simpa [escapeString] using hr
  | cons c s =>
    rw [escapeString_cons, List.append_assoc]
    exact termStart_escaped c _

/-- The source of a literal is read as the sequence of its characters. -/
theorem parseAlternative_chars (s : Str) (hs : '\\' ∉ s) (rest r' : Str) (u : Re)
    (n n' F : Nat) (hr : termStart rest)
    (hu : parseAlternative (F + 1) rest n = some (u, r', n')) (hne : u ≠ Re.empty) :
    parseAlternative (F + 1 + s.length) (escapeString s ++ rest) n
      = some (reChain (s.map Re.char) u, r', n') := by
  induction s with
  | nil => simpa [escapeString, reChain] using hu
  | cons c s ih =>
    have hc : c ≠ '\\' := fun h => hs (by simp [h])
    have hs' : '\\' ∉ s := fun h => hs (List.mem_cons_of_mem _ h)
    have ih := ih hs'
    have hstart := termStart_escapeString s rest hr
    rw [escapeString_cons, List.append_assoc, List.length_cons, ← Nat.add_assoc, List.map_cons,
      reChain]
    apply parseAlternative_step _ _ _ _ _ _ _ _ _ (termStart_escaped c _) _ ih
      (reChain_ne_empty _ _ hne)
    rw [escapeStringStep_nil]
    split
    · rename_i hin
      rw [show F + 1 + s.length = (F + s.length) + 1 by omega]
      exact parseTerm_escaped _ _ _ _ hin hstart
    · rename_i hin
      rw [show F + 1 + s.length = (F + s.length) + 1 by omega]
      exact parseTerm_char _ _ _ _ hin hc hstart

theorem parseTerm_group_dot (f n : Nat) (rest : Str) (hr : termStart rest) :
    parseTerm (f + 4) ("([^.]+?)".toList ++ rest) n
      = some (Re.group (n + 1) (Re.plus false (Re.cls true [ClassItem.single '.'])), rest,
          n + 1) := by
  have hq := withQuantifiers_termStart
    (Re.group (n + 1) (Re.plus false (Re.cls true [ClassItem.single '.']))) rest (n + 1) hr
  simp [parseTerm, parseDisjunction, parseAlternative, bracket, bracketItems, bracketAtom,
    escapeItem, classEscape, controlEscape, quantifiers, closeParen, withQuantifiers, Re.mkSeq]
  simpa [withQuantifiers] using hq

/-- The source of a plain key: the escaped prefix and the pattern in a group. -/
theorem specPiece_plainKey (k : PathKey) (h : plainKey k = true) :
    specPiece (key k) = escapeString k.pfx ++ ("(".toList ++ k.pattern ++ ")".toList) := by
  rcases plainKey_cases k h with hk | hk | hk <;> rw [hk] <;> simp [specPiece]

theorem termStart_body (T : List PathToken) (tail : Str) (ht : termStart tail)
    (hT : plainTokens T) :
    termStart ((T.map specPiece).flatten ++ tail) := by
  induction T with
  | nil => simpa using ht
  | cons t T ih =>
    have ih := ih (plainTokens_cons t T hT)
    simp only [List.map_cons, List.flatten_cons, List.append_assoc]
    cases t with
    | lit s =>
      simp only [specPiece]
      exact termStart_escapeString s _ ih
    | key k =>
      have hk : plainKey k = true := hT (key k) (List.mem_cons_self _ _)
      rw [specPiece_plainKey k hk, List.append_assoc]
      apply termStart_escapeString
      exact ⟨'(', _, rfl, by decide, by decide, by decide, by decide, by decide, by decide⟩

theorem parseTerm_plainKey (k : PathKey) (h : plainKey k = true) (f n : Nat) (rest : Str)
    (hr : termStart rest) :
    parseTerm (f + 4) ("(".toList ++ k.pattern ++ ")".toList ++ rest) n
      = some (Re.group (n + 1) (reSegment (delimiterChar k)), rest, n + 1) := by
  rcases plainKey_cases k h with hk | hk | hk <;> rw [hk]
  · exact parseTerm_group_slash f n rest hr
  · exact parseTerm_group_slash f n rest hr
  · exact parseTerm_group_dot f n rest hr

theorem plainKey_pfx (k : PathKey) (h : plainKey k = true) : '\\' ∉ k.pfx := by
  rcases plainKey_cases k h with hk | hk | hk <;> rw [hk] <;> simp

theorem reChain_append (a b : List Re) (u : Re) :
    reChain (a ++ b) u = reChain a (reChain b u) := by
  induction a with
  | nil => rfl
  | cons t a ih => simp [reChain, ih]

/-- The source of plain tokens, up to the final `$`, is read as the chain of their terms. -/
theorem parseAlternative_tokens (T : List PathToken) (hT : plainTokens T) (n f : Nat) :
    parseAlternative (f + 4 + (termsOf n T).length)
        ((T.map specPiece).flatten ++ "$".toList) n
      = some (reChain (termsOf n T) Re.eol, [], n + (specKeysOf T).length) := by
  induction T generalizing n with
  | nil => exact parseAlternative_eol (f + 2) n
  | cons t T ih =>
    have hT' := plainTokens_cons t T hT
    have hstart : termStart ((T.map specPiece).flatten ++ "$".toList) :=
      termStart_body T _ ⟨'$', [], rfl, by decide, by decide, by decide, by decide, by decide,
        by decide⟩ hT'
    simp only [List.map_cons, List.flatten_cons, List.append_assoc]
    cases t with
    | lit s =>
      have hs : '\\' ∉ s := hT (lit s) (List.mem_cons_self _ _)
      have ih := ih hT' n
      have h := parseAlternative_chars s hs _ [] _ n _ (f + 3 + (termsOf n T).length) hstart
        (by rw [show f + 3 + (termsOf n T).length + 1 = f + 4 + (termsOf n T).length by omega]
            exact ih)
        (reChain_ne_empty _ _ (by simp))
      simp only [specPiece, termsOf, List.length_append, List.length_map]
      rw [show f + 4 + (s.length + (termsOf n T).length)
        = f + 3 + (termsOf n T).length + 1 + s.length by omega]
      rw [h, reChain_append]
      simp [specKeysOf]
    | key k =>
      have hk : plainKey k = true := hT (key k) (List.mem_cons_self _ _)
      have ih := ih hT' (n + 1)
      have hg := parseAlternative_step (f + 4 + (termsOf (n + 1) T).length) n (n + 1) _
        ("(".toList ++ k.pattern ++ ")".toList ++ ((T.map specPiece).flatten ++ "$".toList))
        _ _ _ _
        ⟨'(', _, rfl, by decide, by decide, by decide, by decide, by decide, by decide⟩
        (by rw [show f + 4 + (termsOf (n + 1) T).length = f + (termsOf (n + 1) T).length + 4
              by omega]
            exact parseTerm_plainKey k hk _ n _ hstart)
        ih (reChain_ne_empty _ _ (by simp))
      have h := parseAlternative_chars k.pfx (plainKey_pfx k hk)
        ("(".toList ++ k.pattern ++ ")".toList ++ ((T.map specPiece).flatten ++ "$".toList))
        [] _ n _ (f + 4 + (termsOf (n + 1) T).length)
        ⟨'(', _, rfl, by decide, by decide, by decide, by decide, by decide, by decide⟩
        hg (by simp)
      have e : escapeString k.pfx ++ ("(".toList ++ k.pattern ++ ")".toList)
            ++ ((T.map specPiece).flatten ++ "$".toList)
          = escapeString k.pfx ++ ("(".toList ++ k.pattern ++ ")".toList
            ++ ((T.map specPiece).flatten ++ "$".toList)) := by
        simp only [List.append_assoc]
      rw [specPiece_plainKey k hk, e]
      simp only [termsOf, List.length_append, List.length_map, List.length_cons]
      rw [show f + 4 + (k.pfx.length + ((termsOf (n + 1) T).length + 1))
        = f + 4 + (termsOf (n + 1) T).length + 1 + k.pfx.length by omega]
      rw [h, reChain_append]
      simp [specKeysOf, reChain]
      omega

theorem escapeString_length (s : Str) : s.length ≤ (escapeString s).length := by
  induction s with
  | nil => simp
  | cons c s ih =>
    rw [escapeString_cons, escapeStringStep_nil]
    split <;> simp <;> omega

theorem termsOf_length (T : List PathToken) (hT : plainTokens T) (n : Nat) :
    (termsOf n T).length ≤ ((T.map specPiece).flatten).length := by
  induction T generalizing n with
  | nil => simp [termsOf]
  | cons t T ih =>
    have ih := ih (plainTokens_cons t T hT)
    cases t with
    | lit s =>
      have := escapeString_length s
      have := ih n
      simp only [termsOf, specPiece, List.map_cons, List.flatten_cons, List.length_append,
        List.length_map]
      omega
    | key k =>
      have hk : plainKey k = true := hT (key k) (List.mem_cons_self _ _)
      have := escapeString_length k.pfx
      have := ih (n + 1)
      simp only [termsOf, List.map_cons, List.flatten_cons, List.length_append,
        List.length_map, List.length_cons, specPiece_plainKey k hk]
      generalize ((T.map specPiece).flatten).length = b at *
      simp
      omega

/-- The expression that the source `"^" ++ body ++ "$"` of plain tokens compiles to. -/
theorem compile_plainTokens (T : List PathToken) (hT : plainTokens T) (flags : RegexFlags) :
    Regex.compile ("^".toList ++ (T.map specPiece).flatten ++ "$".toList) flags
      = some ⟨Re.seq Re.bol (reChain (termsOf 0 T) Re.eol), flags.icase⟩ := by
  have hlen := termsOf_length T hT 0
  obtain ⟨f, hf⟩ : ∃ f, 4 * ("^".toList ++ (T.map specPiece).flatten ++ "$".toList).length + 8
      = (f + 4 + (termsOf 0 T).length) + 1 + 1 := by
    refine ⟨4 * ("^".toList ++ (T.map specPiece).flatten ++ "$".toList).length + 2
      - (termsOf 0 T).length, ?_⟩
    simp only [List.length_append]
    generalize ((T.map specPiece).flatten).length = b at *
    omega
  have htail := parseAlternative_tokens T hT 0 f
  have hstep := parseAlternative_step (f + 4 + (termsOf 0 T).length) 0 0 _
    ('^' :: ((T.map specPiece).flatten ++ "$".toList)) _ [] Re.bol _
    ⟨'^', _, rfl, by decide, by decide, by decide, by decide, by decide, by decide⟩
    (by rw [show f + 4 + (termsOf 0 T).length = (f + 3 + (termsOf 0 T).length) + 1 by omega]
        simp [parseTerm])
    htail (reChain_ne_empty _ _ (by simp))
  unfold Regex.compile
  rw [hf]
  simp only [parseDisjunction]
  have e : "^".toList ++ (T.map specPiece).flatten ++ "$".toList
      = '^' :: ((T.map specPiece).flatten ++ "$".toList) := by simp
  rw [e, hstep]

/-! ## What the compiled expression of plain tokens matches -/

/-- The loop of a quantifier over one class of characters reads characters of that class and
leaves the groups as they are. -/
theorem starLoop_eat (g : Bool) (p : Char → Bool) (fuel : Nat) (s s' : MState)
    (h : s' ∈ starLoop g (fun s1 => s1.eat p) fuel s) :
    ∃ w, s.rest = w ++ s'.rest ∧ s'.pos = s.pos + w.length ∧ s'.caps = s.caps ∧
      ∀ c ∈ w, p c = true := by
  induction fuel generalizing s with
  | zero =>
    simp only [starLoop, List.mem_singleton] at h
    subst h
    exact ⟨[], rfl, rfl, rfl, by simp⟩
  | succ fuel ih =>
    simp only [starLoop] at h
    have hmore : ∀ s1, s1 ∈ (s.eat p).filter (fun s1 => decide (s1.rest.length < s.rest.length)) →
        s' ∈ starLoop g (fun s1 => s1.eat p) fuel s1 →
        ∃ w, s.rest = w ++ s'.rest ∧ s'.pos = s.pos + w.length ∧ s'.caps = s.caps ∧
          ∀ c ∈ w, p c = true := by
      intro s1 hs1 hs'
      obtain ⟨x, hx, h1, h2, h3⟩ := eat_mem p s s1 (List.mem_filter.mp hs1).1
      obtain ⟨w2, h4, h5, h6, h7⟩ := ih s1 hs'
      refine ⟨x :: w2, ?_, ?_, ?_, ?_⟩
      · rw [h1, h4, List.cons_append]
      · rw [h5, h2, List.length_cons]
        omega
      · rw [h6, h3]
      · intro c hc
        rcases List.mem_cons.mp hc with rfl | hc
        · exact hx
        · exact h7 c hc
    cases g with
    | true =>
      simp only [if_true, List.mem_append, List.mem_flatMap, List.mem_singleton] at h
      rcases h with ⟨s1, hs1, hs'⟩ | rfl
      · exact hmore s1 hs1 hs'
      · exact ⟨[], rfl, rfl, rfl, by simp⟩
    | false =>
      simp only [Bool.false_eq_true, if_false, List.mem_cons, List.mem_flatMap] at h
      rcases h with rfl | ⟨s1, hs1, hs'⟩
      · exact ⟨[], rfl, rfl, rfl, by simp⟩
      · exact hmore s1 hs1 hs'

/-- What the default pattern `[^d]+?` reads: one character or more, none of them `d`. -/
theorem mem_run_reSegment (d : Char) (s s' : MState) (h : s' ∈ (reSegment d).run false s) :
    ∃ w, s.rest = w ++ s'.rest ∧ s'.pos = s.pos + w.length ∧ s'.caps = s.caps ∧
      w ≠ [] ∧ ∀ c ∈ w, c ≠ d := by
  unfold reSegment Re.plus at h
  obtain ⟨s1, hs1, hs'⟩ := (mem_run_seq false _ _ s s').mp h
  simp only [Re.run] at hs1 hs'
  obtain ⟨x, hx, h1, h2, h3⟩ := eat_mem _ s s1 hs1
  obtain ⟨w, h4, h5, h6, h7⟩ := starLoop_eat _ _ _ s1 s' hs'
  have hp : ∀ c, (true != [ClassItem.single d].any (ClassItem.accepts false c)) = true →
      c ≠ d := by
    intro c hc hcd
    subst hcd
    simp [ClassItem.accepts] at hc
  refine ⟨x :: w, ?_, ?_, ?_, by simp, ?_⟩
  · rw [h1, h4, List.cons_append]
  · rw [h5, h2, List.length_cons]
    omega
  · rw [h6, h3]
  · intro c hc
    rcases List.mem_cons.mp hc with rfl | hc
    · exact hp _ hx
    · exact hp c (h7 c hc)

/-- A chain of characters reads exactly these characters, case-sensitive matching. -/
theorem mem_run_chars (cs : Str) (u : Re) (s s' : MState)
    (h : s' ∈ (reChain (cs.map Re.char) u).run false s) :
    ∃ s0, s.rest = cs ++ s0.rest ∧ s0.pos = s.pos + cs.length ∧ s0.caps = s.caps ∧
      s' ∈ u.run false s0 := by
  induction cs generalizing s with
  | nil => exact ⟨s, rfl, rfl, rfl, h⟩
  | cons c cs ih =>
    simp only [List.map_cons, reChain] at h
    obtain ⟨s1, hs1, hs'⟩ := (mem_run_seq false _ _ s s').mp h
    obtain ⟨x, h1, h2, h3, h4⟩ := mem_run_char false c s s1 hs1
    obtain ⟨s0, h5, h6, h7, h8⟩ := ih s1 hs'
    simp only [Bool.false_eq_true, if_false, beq_iff_eq] at h4
    subst h4
    refine ⟨s0, ?_, ?_, ?_, h8⟩
    · rw [h1, h5, List.cons_append]
    · rw [h6, h2, List.length_cons]
      omega
    · rw [h7, h3]

/-- A match of the chain of plain tokens up to the end of the subject: the subject is the
literals and, for each key, its prefix and a value; the values are the texts of the groups. -/
theorem mem_run_tokens (T : List PathToken) (hT : plainTokens T) (n : Nat) (s s' : MState)
    (h : s' ∈ (reChain (termsOf n T) Re.eol).run false s) :
    ∃ vs, s.rest = specPath T vs ∧ s'.caps = capsOf n vs s.caps ∧
      List.Forall₂ segmentOf (specKeysOf T) vs := by
  induction T generalizing n s with
  | nil =>
    simp only [termsOf, reChain, Re.run] at h
    split at h
    · rename_i he
      simp only [List.mem_singleton] at h
      subst h
      exact ⟨[], by simpa [specPath] using he, rfl, by simp [specKeysOf]⟩
    · simp at h
  | cons t T ih =>
    have hT' := plainTokens_cons t T hT
    cases t with
    | lit cs =>
      simp only [termsOf, reChain_append] at h
      obtain ⟨s0, h1, _, h3, h4⟩ := mem_run_chars cs _ s s' h
      obtain ⟨vs, h5, h6, h7⟩ := ih hT' n s0 h4
      exact ⟨vs, by rw [h1, h5, specPath], by rw [h6, h3], by simpa [specKeysOf] using h7⟩
    | key k =>
      simp only [termsOf, reChain_append, reChain] at h
      obtain ⟨s0, h1, _, h3, h4⟩ := mem_run_chars k.pfx _ s s' h
      obtain ⟨s1, hs1, hs'⟩ := (mem_run_seq false _ _ s0 s').mp h4
      obtain ⟨s2, hs2, rfl⟩ := (mem_run_group false _ _ s0 s1).mp hs1
      obtain ⟨w, h5, h6, h7, h8, h9⟩ := mem_run_reSegment _ s0 s2 hs2
      obtain ⟨vs, h10, h11, h12⟩ := ih hT' (n + 1) _ hs'
      refine ⟨w :: vs, ?_, ?_, ?_⟩
      · simp only at h10
        rw [h1, h5, h10, specPath, List.append_assoc]
      · simp only at h11
        rw [h11, capsOf, h7, h3, h5, h6]
        simp
      · simp only [specKeysOf, List.filterMap_cons]
        exact List.Forall₂.cons ⟨h8, h9⟩ h12

/-! ## The groups of the match, the extracted map and the rendering -/

theorem lookup_capsOf_le (vs : List Str) (n : Nat) (caps : List (Nat × Str)) (i : Nat)
    (hi : i ≤ n) : (capsOf n vs caps).lookup i = caps.lookup i := by
  induction vs generalizing n caps with
  | nil => rfl
  | cons v vs ih =>
    rw [capsOf, ih (n + 1) _ (by omega), List.lookup_cons]
    have : (i == n + 1) = false := by simp; omega
    simp [this]

theorem lookup_capsOf (vs : List Str) (n : Nat) (caps : List (Nat × Str)) (j : Nat)
    (hj : j < vs.length) : (capsOf n vs caps).lookup (n + 1 + j) = some (vs.get ⟨j, hj⟩) := by
  induction vs generalizing n caps j with
  | nil => simp at hj
  | cons v vs ih =>
    rw [capsOf]
    cases j with
    | zero =>
      rw [lookup_capsOf_le vs (n + 1) _ (n + 1 + 0) (by omega)]
      simp [List.lookup_cons]
    | succ j =>
      have := ih (n + 1) ((n + 1, v) :: caps) j (by simpa using hj)
      rw [show n + 1 + (j + 1) = n + 1 + 1 + j by omega, this]
      simp

/-- The map extracted for keys with distinct names gives each key the text of its group. -/
theorem specExtractFrom_get (m : SMatch) (keys : List PathKey) (i j : Nat)
    (hj : j < keys.length) (hnd : (keys.map (fun k => k.name)).Nodup) :
    specExtractFrom m i keys (keys.get ⟨j, hj⟩).name = some [m.str (i + j)] := by
  induction keys generalizing i j with
  | nil => simp at hj
  | cons k keys ih =>
    simp only [List.map_cons, List.nodup_cons, List.mem_map, not_exists, not_and] at hnd
    cases j with
    | zero => simp [specExtractFrom]
    | succ j =>
      have hj' : j < keys.length := by simpa using hj
      have hne : (keys.get ⟨j, hj'⟩).name ≠ k.name := hnd.1 _ (List.get_mem _ _ _)
      simp only [specExtractFrom, List.get_cons_succ, hne, if_false]
      rw [ih (i + 1) j hj' hnd.2, show i + 1 + j = i + (j + 1) by omega]

theorem encodeStep_unreserved (c : Char) (hc : c ∈ specUnreserved) : encodeStep [] c = [c] := by
  have hlt : ∀ x ∈ specUnreserved, x.toNat < 256 := by decide
  have h := encodeStep_byte_ofNat c.toNat (hlt c hc)
  rw [Char.ofNat_toNat] at h
  rw [h, specEncodeByte, if_pos hc]

/-- A value of unreserved characters is encoded as itself. -/
theorem encodeURIComponent_unreserved (v : Str) (hv : ∀ c ∈ v, c ∈ specUnreserved) :
    encodeURIComponent v = v := by
  unfold encodeURIComponent
  rw [foldl_encodeStep, List.nil_append]
  induction v with
  | nil => rfl
  | cons c v ih =>
    simp only [List.map_cons, List.flatten_cons,
      encodeStep_unreserved c (hv c (List.mem_cons_self _ _)),
      ih (fun x hx => hv x (List.mem_cons_of_mem _ hx))]
    rfl

/-- The lazy or greedy loop over a class can read all the characters of that class. -/
theorem starLoop_eat_all (g : Bool) (p : Char → Bool) (w : Str) (hw : ∀ c ∈ w, p c = true)
    (fuel : Nat) (hf : w.length ≤ fuel) (pos : Nat) (caps : List (Nat × Str)) :
    (⟨pos + w.length, [], caps⟩ : MState) ∈ starLoop g (fun s1 => s1.eat p) fuel ⟨pos, w, caps⟩ := by
  induction w generalizing fuel pos with
  | nil =>
    cases fuel with
    | zero => simp [starLoop]
    | succ fuel => cases g <;> simp [starLoop, MState.eat]
  | cons c w ih =>
    cases fuel with
    | zero => simp at hf
    | succ fuel =>
      have hc : p c = true := hw c (List.mem_cons_self _ _)
      have := ih (fun x hx => hw x (List.mem_cons_of_mem _ hx)) fuel (by simpa using hf) (pos + 1)
      have hmem : (⟨pos + (c :: w).length, [], caps⟩ : MState) ∈
          ((MState.eat p ⟨pos, c :: w, caps⟩).filter
            (fun s' => decide (s'.rest.length < (c :: w).length))).flatMap
            (starLoop g (fun s1 => s1.eat p) fuel) := by
        simp only [MState.eat, hc, if_true, List.mem_flatMap]
        refine ⟨⟨pos + 1, w, caps⟩, by simp, ?_⟩
        rw [show pos + (c :: w).length = pos + 1 + w.length by simp; omega]
        exact this
      cases g
      · simp only [starLoop, Bool.false_eq_true, if_false, List.mem_cons]
        exact Or.inr hmem
      · simp only [starLoop, if_true, List.mem_append]
        exact Or.inl hmem

theorem regex_search_of_mem (ic : Bool) (re : Re) (subj : Str) (s' : MState)
    (h : s' ∈ re.run ic ⟨0, subj, []⟩) : ∃ res, regex_search ic re subj = some res := by
  unfold regex_search
  cases subj with
  | nil =>
    simp only [searchFrom]
    cases hr : re.run ic ⟨0, [], []⟩ with
    | nil => rw [hr] at h; cases h
    | cons x xs => exact ⟨_, rfl⟩
  | cons c t =>
    simp only [searchFrom]
    cases hr : re.run ic ⟨0, c :: t, []⟩ with
    | nil => rw [hr] at h; cases h
    | cons x xs => exact ⟨_, rfl⟩

/-- The anchored default pattern accepts a text that is not empty and has no delimiter. -/
theorem search_segment (d : Char) (v : Str) (hne : v ≠ []) (hv : ∀ c ∈ v, c ≠ d) :
    ∃ res, regex_search false (Re.seq Re.bol (Re.seq (reSegment d) Re.eol)) v = some res := by
  apply regex_search_of_mem false _ v ⟨0 + v.length, [], []⟩
  have hp : ∀ c ∈ v, (true != [ClassItem.single d].any (ClassItem.accepts false c)) = true := by
    intro c hc
    have := hv c hc
    simp [ClassItem.accepts, this]
    exact fun h => this h.symm
  cases v with
  | nil => exact absurd rfl hne
  | cons c w =>
    rw [mem_run_seq]
    refine ⟨⟨0, c :: w, []⟩, by simp [Re.run], ?_⟩
    rw [mem_run_seq]
    refine ⟨⟨0 + (c :: w).length, [], []⟩, ?_, by simp [Re.run]⟩
    unfold reSegment Re.plus
    rw [mem_run_seq]
    refine ⟨⟨1, w, []⟩, ?_, ?_⟩
    · simp only [Re.run, MState.eat, hp c (List.mem_cons_self _ _), if_true]
      simp
    · simp only [Re.run]
      have := starLoop_eat_all false
        (fun x => true != [ClassItem.single d].any (ClassItem.accepts false x)) w
        (fun x hx => hp x (List.mem_cons_of_mem _ hx)) w.length (Nat.le_refl _) 1 []
      rw [show 0 + (c :: w).length = 1 + w.length by simp; omega]
      exact this

theorem compile_segment_slash :
    Regex.compile ("^".toList ++ "[^\\/]+?".toList ++ "$".toList) ⟨false, true⟩
      = some ⟨Re.seq Re.bol (Re.seq (reSegment '/') Re.eol), false⟩ := by
  decide!

theorem compile_segment_dot :
    Regex.compile ("^".toList ++ "[^.]+?".toList ++ "$".toList) ⟨false, true⟩
      = some ⟨Re.seq Re.bol (Re.seq (reSegment '.') Re.eol), false⟩ := by
  decide!

/-- The expression that `init` attaches to a plain key. -/
theorem initToken_plainKey (k : PathKey) (h : plainKey k = true) :
    initToken (key k)
      = some (some ⟨Re.seq Re.bol (Re.seq (reSegment (delimiterChar k)) Re.eol), false⟩) := by
  rcases plainKey_cases k h with hk | hk | hk <;> rw [hk] <;>
    simp only [initToken, compile_segment_slash, compile_segment_dot, delimiterChar] <;> rfl

/-- With one valid value of unreserved characters for each key, the inverse compiler of plain
tokens returns the literals and, for each key, its prefix and its value. -/
theorem renderTokens_plain (data : SegmentMap) (T : List PathToken) (hT : plainTokens T)
    (vs : List Str) (ms : List (Option Regex)) (hms : initMatches T = some ms)
    (hvs : List.Forall₂ (fun k v => data k.name = some [v] ∧ segmentOf k v ∧
      ∀ c ∈ v, c ∈ specUnreserved) (specKeysOf T) vs) (acc : Str) :
    renderTokens data (T.zip ms) acc = CallResult.returned (acc ++ specPath T vs) := by
  induction T generalizing vs ms acc with
  | nil =>
    simp only [initMatches, Option.some.injEq] at hms
    subst hms
    simp [renderTokens, specPath]
  | cons t T ih =>
    have hT' := plainTokens_cons t T hT
    cases hr : initMatches T with
    | none =>
      simp only [initMatches, hr] at hms
      split at hms <;> simp at hms
    | some ms' =>
      cases t with
      | lit s =>
        simp only [initMatches, initToken, hr, Option.map_some', Option.some.injEq] at hms
        subst hms
        simp only [List.zip_cons_cons, renderTokens]
        rw [show List.zipWith Prod.mk T ms' = T.zip ms' from rfl,
          ih hT' vs ms' hr (by simpa [specKeysOf] using hvs), specPath, List.append_assoc]
      | key k =>
        have hk : plainKey k = true := hT (key k) (List.mem_cons_self _ _)
        simp only [initMatches, initToken_plainKey k hk, hr, Option.map_some',
          Option.some.injEq] at hms
        subst hms
        simp only [specKeysOf, List.filterMap_cons] at hvs
        cases hvs with
        | cons hv hrest =>
          rename_i v vs'
          obtain ⟨hd, ⟨hne, hdel⟩, hun⟩ := hv
          obtain ⟨res, hres⟩ := search_segment (delimiterChar k) v hne hdel
          have hrep : k.rep = false := by
            rcases plainKey_cases k hk with e | e | e <;> rw [e]
          simp only [List.zip_cons_cons, renderTokens, hd, hrep, Bool.not_false, Bool.true_and,
            List.length_singleton, gt_iff_lt, Nat.lt_irrefl, decide_False, Bool.false_eq_true,
            if_false, List.isEmpty_cons, renderValues, encodeURIComponent_unreserved v hun,
            Regex.search, hres, beq_self_eq_true, if_true]
          rw [show List.zipWith Prod.mk T ms' = T.zip ms' from rfl,
            ih hT' vs' ms' hr hrest, specPath]
          simp

theorem specSource_strict_end (T : List PathToken) :
    specSource T (PR_SENSITIVE ||| PR_STRICT ||| PR_END)
      = "^".toList ++ (T.map specPiece).flatten ++ "$".toList := by
  have h1 : Nat.testBit (PR_SENSITIVE ||| PR_STRICT ||| PR_END) 1 = true := by decide
  have h2 : Nat.testBit (PR_SENSITIVE ||| PR_STRICT ||| PR_END) 2 = true := by decide
  simp [specSource, h1, h2]

/-- What a match of the compiled expression of plain tokens says about the subject. -/
theorem search_plainTokens (T : List PathToken) (hT : plainTokens T) (path : Str) (m : SMatch)
    (h : regex_search false (Re.seq Re.bol (reChain (termsOf 0 T) Re.eol)) path = some m) :
    ∃ vs, path = specPath T vs ∧ m.caps = capsOf 0 vs [] ∧
      List.Forall₂ segmentOf (specKeysOf T) vs := by
  obtain ⟨k, s', w, -, -, hhead, -, -, hcaps, -⟩ := searchFrom_some false _ 0 path m h
  have hmem : s' ∈ (Re.seq Re.bol (reChain (termsOf 0 T) Re.eol)).run false
      ⟨0 + k, path.drop k, []⟩ := List.mem_of_mem_head? hhead
  obtain ⟨s1, hs1, hs'⟩ := (mem_run_seq false _ _ _ s').mp hmem
  simp only [Re.run] at hs1
  split at hs1
  · rename_i hk
    have hk0 : k = 0 := by
      have : 0 + k = 0 := hk
      omega
    subst hk0
    simp only [List.mem_singleton] at hs1
    subst hs1
    obtain ⟨vs, h1, h2, h3⟩ := mem_run_tokens T hT 0 _ s' hs'
    exact ⟨vs, by simpa using h1, by rw [hcaps, h2], h3⟩
  · simp at hs1

/-- C18 (amended): let the tokens `T` of a pattern `p` be literals without a backslash and plain
parameters `:name` (no group body, no suffix, no wildcard) with pairwise distinct names, `T`
not empty. Then `pathToRegexp(p)` with the options `SENSITIVE`, `STRICT` and `END` returns a
source that compiles, `compilePath(p)` returns a function, and for every path that the regex
matches with capture groups made of unreserved characters, rendering the data map that assigns
the capture groups to the key names in declared order returns that path. -/
theorem round_trip_plain (p : Str) (T : List PathToken) (hp : parsePath p = some T)
    (hne : T ≠ []) (hT : plainTokens T)
    (hnd : ((specKeysOf T).map (fun k => k.name)).Nodup) :
    ∃ re rx pf,
      pathToRegexp p (PR_SENSITIVE ||| PR_STRICT ||| PR_END) = some re ∧
      to_regex re = some rx ∧ compilePath p = some pf ∧
      ∀ path m, rx.search path = some m →
        (∀ i, 1 ≤ i → i ≤ (specKeysOf T).length → ∀ c ∈ m.str i, c ∈ specUnreserved) →
        pf.call (specExtract (specKeysOf T) m) = CallResult.returned path := by
  have hms : ∃ ms, initMatches T = some ms := by
    clear hp hne hnd
    induction T with
    | nil => exact ⟨[], rfl⟩
    | cons t T ih =>
      obtain ⟨ms, hms⟩ := ih (plainTokens_cons t T hT)
      cases t with
      | lit s => exact ⟨none :: ms, by simp [initMatches, initToken, hms]⟩
      | key k =>
        have hk : plainKey k = true := hT (key k) (List.mem_cons_self _ _)
        exact ⟨some ⟨Re.seq Re.bol (Re.seq (reSegment (delimiterChar k)) Re.eol), false⟩ :: ms,
          by simp [initMatches, initToken_plainKey k hk, hms]⟩
  obtain ⟨ms, hms⟩ := hms
  refine ⟨⟨specSource T (PR_SENSITIVE ||| PR_STRICT ||| PR_END),
      pathFlags (PR_SENSITIVE ||| PR_STRICT ||| PR_END)⟩,
    ⟨Re.seq Re.bol (reChain (termsOf 0 T) Re.eol), false⟩, ⟨T, ms⟩, ?_, ?_, ?_, ?_⟩
  · simp only [pathToRegexp, hp]
    exact tokensToRegExp_eq T _ hne
  · simp only [to_regex, specSource_strict_end, compile_plainTokens T hT]
    rfl
  · simp [compilePath, hp, PathFunction.init, hms]
  · intro path m hm hun
    obtain ⟨vs, hpath, hcaps, hseg⟩ := search_plainTokens T hT path m hm
    have hlen := hseg.length_eq
    have hstr : ∀ j (hj : j < vs.length), m.str (1 + j) = vs.get ⟨j, hj⟩ := by
      intro j hj
      have := lookup_capsOf vs 0 [] j hj
      simp only [SMatch.str, hcaps, show 1 + j ≠ 0 by omega, if_false]
      rw [show 1 + j = 0 + 1 + j by omega, this]
      rfl
    have hall : List.Forall₂ (fun k v => specExtract (specKeysOf T) m k.name = some [v] ∧
        segmentOf k v ∧ ∀ c ∈ v, c ∈ specUnreserved) (specKeysOf T) vs := by
      rw [List.forall₂_iff_get]
      refine ⟨hlen, fun j h1 h2 => ⟨?_, hseg.get h1 h2, ?_⟩⟩
      · rw [specExtract, specExtractFrom_get m _ 1 j h1 hnd, hstr j h2]
      · rw [← hstr j h2]
        exact hun (1 + j) (by omega) (by omega)
    have := renderTokens_plain _ T hT vs ms hms hall []
    simpa [PathFunction.call, hpath] using this

theorem round_trip_plain_witness :
    parsePath "/user/:id".toList
      = some [lit "/user".toList,
          key ⟨"id".toList, "/".toList, "/".toList, false, false, "[^\\/]+?".toList⟩] ∧
    [lit "/user".toList,
      key ⟨"id".toList, "/".toList, "/".toList, false, false, "[^\\/]+?".toList⟩] ≠ [] ∧
    plainTokens [lit "/user".toList,
      key ⟨"id".toList, "/".toList, "/".toList, false, false, "[^\\/]+?".toList⟩] ∧
    ((specKeysOf [lit "/user".toList,
      key ⟨"id".toList, "/".toList, "/".toList, false, false, "[^\\/]+?".toList⟩]).map
        (fun k => k.name)).Nodup ∧
    ∃ re rx pf,
      pathToRegexp "/user/:id".toList (PR_SENSITIVE ||| PR_STRICT ||| PR_END) = some re ∧
      to_regex re = some rx ∧ compilePath "/user/:id".toList = some pf ∧
      ∀ path m, rx.search path = some m →
        (∀ i, 1 ≤ i →
          i ≤ (specKeysOf [lit "/user".toList,
            key ⟨"id".toList, "/".toList, "/".toList, false, false,
              "[^\\/]+?".toList⟩]).length →
          ∀ c ∈ m.str i, c ∈ specUnreserved) →
        pf.call (specExtract (specKeysOf [lit "/user".toList,
          key ⟨"id".toList, "/".toList, "/".toList, false, false, "[^\\/]+?".toList⟩]) m)
          = CallResult.returned path :=
  have hplain : plainTokens [lit "/user".toList,
      key ⟨"id".toList, "/".toList, "/".toList, false, false, "[^\\/]+?".toList⟩] := by
    intro t ht
    simp only [List.mem_cons, List.mem_singleton, List.mem_nil_iff, or_false] at ht
    rcases ht with rfl | rfl <;> decide
  ⟨by decide!, by simp, hplain, by decide,
    round_trip_plain "/user/:id".toList _ (by decide!) (by simp) hplain (by decide)⟩

/-- The round trip of the test-suite's pattern `"/user/:id"` under the options `SENSITIVE`,
`STRICT` and `END`, evaluated: `"/user/123"` comes back, and `"/USER/123"` and `"/user/123/"`
are not matched. -/
theorem round_trip_test :
    specRoundTrip "/user/:id".toList (PR_SENSITIVE ||| PR_STRICT ||| PR_END) "/user/123".toList
      = some (CallResult.returned "/user/123".toList) ∧
    specRoundTrip "/user/:id".toList (PR_SENSITIVE ||| PR_STRICT ||| PR_END) "/USER/123".toList
      = none ∧
    specRoundTrip "/user/:id".toList (PR_SENSITIVE ||| PR_STRICT ||| PR_END) "/user/123/".toList
      = none ∧
    specRoundTrip "/a.:x/b:y".toList (PR_SENSITIVE ||| PR_STRICT ||| PR_END) "/a.txt/bc".toList
      = some (CallResult.returned "/a.txt/bc".toList) := by
  refine ⟨by decide!, by decide!, by decide!, by decide!⟩

/-! ## The escape of a literal -/

theorem escapeString_eq_specEscape (s : Str) : escapeString s = specEscape s := by
  induction s with
  | nil => rfl
  | cons c s ih =>
    rw [escapeString_cons, ih, escapeStringStep_nil]
    simp [specEscape, escapedChars]

theorem specEscape_id (s : Str) (h : ∀ c ∈ s, c ∉ ".+*?=^!:${}()[]|/".toList) :
    specEscape s = s := by
  induction s with
  | nil => rfl
  | cons c s ih =>
    have hc := h c (List.mem_cons_self _ _)
    have ih := ih (fun x hx => h x (List.mem_cons_of_mem _ hx))
    unfold specEscape at ih ⊢
    simp only [List.map_cons, List.flatten_cons, if_neg hc, ih]
    rfl

/-- C21: `escapeString s` is `s` with exactly one backslash inserted before each character of
the escape set and every other character copied unchanged; on a string without a character of
the escape set it is the identity, and applying it twice is the same as applying it once. The
values for `"/a.b"` and `"user"` are evaluated. -/
theorem escapeString_spec (s : Str) :
    escapeString s = specEscape s ∧
    ((∀ c ∈ s, c ∉ ".+*?=^!:${}()[]|/".toList) →
      escapeString s = s ∧ escapeString (escapeString s) = escapeString s) ∧
    escapeString "/a.b".toList = "\\/a\\.b".toList ∧
    escapeString "user".toList = "user".toList ∧
    escapeString (escapeString "user".toList) = escapeString "user".toList := by
  refine ⟨escapeString_eq_specEscape s, fun h => ?_, by decide, by decide, by decide⟩
  have hid : escapeString s = s := by
    rw [escapeString_eq_specEscape, specEscape_id s h]
  exact ⟨hid, by rw [hid, hid]⟩

/-! ## The message for a list given to a non-repeating key -/

/-- C23 fails at `"/user/:id"` with the two values `1` and `2` for `id`: the call throws the
`UNEXPECTED_REPEAT` error, whose message names the key, but the list in the message is
`[1, "1", "2"]`, with the first value rendered twice; `to_string` of three values renders
four. -/
theorem to_string_repeats_first :
    (compilePath "/user/:id".toList).map
        (fun pf => pf.call (singleEntry "id".toList ["1".toList, "2".toList]))
      = some (CallResult.thrown ⟨ErrorKind.UNEXPECTED_REPEAT,
          "Expected \"id\" to not repeat, but received \"[1, \"1\", \"2\"]\"".toList⟩) ∧
    to_string ["1".toList, "2".toList] = "[1, \"1\", \"2\"]".toList ∧
    to_string ["a".toList, "b".toList, "c".toList] = "[a, \"a\", \"b\", \"c\"]".toList ∧
    to_string ["a".toList] = "[a, \"a\"]".toList := by
  refine ⟨by decide!, by decide!, by decide!, by decide!⟩

/-! ## The trailing slash in non-strict mode -/

theorem specLastIsSlashLiteral_concat (T : List PathToken) (s : Str) :
    specLastIsSlashLiteral (T ++ [lit s]) = decide (s.getLast? = some '/') := by
  simp [specLastIsSlashLiteral]

/-- C24: without `STRICT`, when the last token is the literal `s ++ "/"` and `s` does not end
in `/`, `tokensToRegExp` returns what it returns when the last literal is `s`; the route
before the cut ends in the escaped slash `\/`, which is what the cut removes. At the default
options `"/:test/"` and `"/:test"` give the source `^\/([^\/]+?)(?:\/(?=$))?$`. -/
theorem tokensToRegExp_trailing_slash (T : List PathToken) (s : Str) (O : Nat)
    (hO : O.testBit 1 = false) (hs : s.getLast? ≠ some '/') :
    tokensToRegExp (T ++ [lit (s ++ "/".toList)]) O = tokensToRegExp (T ++ [lit s]) O ∧
    (T ++ [lit (s ++ "/".toList)]).foldl routeStep []
      = (T ++ [lit s]).foldl routeStep [] ++ "\\/".toList ∧
    substr ((T ++ [lit (s ++ "/".toList)]).foldl routeStep []) 0
        (sizeSub ((T ++ [lit (s ++ "/".toList)]).foldl routeStep []).length 2)
      = (T ++ [lit s]).foldl routeStep [] ∧
    (pathToRegexp "/:test/".toList PR_END).map (fun re => re.source)
      = some "^\\/([^\\/]+?)(?:\\/(?=$))?$".toList ∧
    (pathToRegexp "/:test".toList PR_END).map (fun re => re.source)
      = some "^\\/([^\\/]+?)(?:\\/(?=$))?$".toList := by
  have hroute : (T ++ [lit (s ++ "/".toList)]).foldl routeStep []
      = (T ++ [lit s]).foldl routeStep [] ++ "\\/".toList := by
    simp only [foldl_routeStep, List.nil_append, List.map_append, List.map_cons, List.map_nil,
      List.flatten_append, List.flatten_cons, List.flatten_nil, List.append_nil, specPiece,
      escapeString_append, List.append_assoc]
    rfl
  refine ⟨?_, hroute, ?_, by decide!, by decide!⟩
  · rw [tokensToRegExp_eq _ O (by simp), tokensToRegExp_eq _ O (by simp)]
    congr 2
    have h1 : specLastIsSlashLiteral (T ++ [lit (s ++ "/".toList)]) = true := by
      rw [specLastIsSlashLiteral_concat]
      simp
    have h2 : specLastIsSlashLiteral (T ++ [lit s]) = false := by
      rw [specLastIsSlashLiteral_concat]
      simpa using hs
    have hb : ((T ++ [lit (s ++ "/".toList)]).map specPiece).flatten
        = ((T ++ [lit s]).map specPiece).flatten ++ ['\\', '/'] := by
      have := hroute
      simpa only [foldl_routeStep, List.nil_append] using this
    unfold specSource
    simp only [h1, h2, hO, hb]
    simp
  · rw [hroute]
    have := substr_sizeSub_two ((T ++ [lit s]).foldl routeStep []) '\\' '/'
    rw [show "\\/".toList = ['\\', '/'] from rfl, this]
    rw [show (T ++ [lit s]).foldl routeStep [] ++ ['\\', '/']
      = ((T ++ [lit s]).foldl routeStep [] ++ ['\\']) ++ ['/'] by simp,
      List.dropLast_concat, List.dropLast_concat]

theorem tokensToRegExp_trailing_slash_witness :
    Nat.testBit PR_END 1 = false ∧ "/a".toList.getLast? ≠ some '/' ∧
    tokensToRegExp
        ([key ⟨"test".toList, "/".toList, "/".toList, false, false, "[^\\/]+?".toList⟩]
          ++ [lit ("/a".toList ++ "/".toList)]) PR_END
      = tokensToRegExp
        ([key ⟨"test".toList, "/".toList, "/".toList, false, false, "[^\\/]+?".toList⟩]
          ++ [lit "/a".toList]) PR_END :=
  ⟨by decide, by decide,
    (tokensToRegExp_trailing_slash
      [key ⟨"test".toList, "/".toList, "/".toList, false, false, "[^\\/]+?".toList⟩]
      "/a".toList PR_END (by decide) (by decide)).1⟩

/-! ## The encoding of values can be decoded -/

set_option maxRecDepth 100000 in
theorem encodeStep_encodesChar : ∀ n, n < 256 →
    encodesChar (Char.ofNat n) (encodeStep [] (Char.ofNat n)) = true := by
  decide!

theorem specDecode_append (c : Char) (p rest : Str) (h : encodesChar c p = true) :
    specDecode (p ++ rest) = c :: specDecode rest := by
  unfold encodesChar at h
  split at h
  · rename_i x
    simp only [Bool.or_eq_true, Bool.and_eq_true, beq_iff_eq, bne_iff_ne, ne_eq] at h
    rcases h with ⟨⟨rfl, h1⟩, h2⟩ | ⟨rfl, rfl⟩
    · simp only [List.singleton_append]
      conv_lhs => unfold specDecode
      split <;> simp_all
    · rfl
  · rename_i a b
    simp only [beq_iff_eq] at h
    simp [specDecode, h]
  · cases h

/-- The decoder undoes `encodeURIComponent` on byte strings. -/
theorem specDecode_encode (s : Str) (hs : ∀ c ∈ s, c.toNat < 256) :
    specDecode (encodeURIComponent s) = s := by
  unfold encodeURIComponent
  rw [foldl_encodeStep, List.nil_append]
  induction s with
  | nil => rfl
  | cons c s ih =>
    have hc := encodeStep_encodesChar c.toNat (hs c (List.mem_cons_self _ _))
    rw [Char.ofNat_toNat] at hc
    simp only [List.map_cons, List.flatten_cons]
    rw [specDecode_append c _ _ hc, ih (fun x hx => hs x (List.mem_cons_of_mem _ hx))]

/-- C28: `encodeURIComponent` is injective on byte strings: two byte strings with the same
encoding are equal. -/
theorem encodeURIComponent_injective (s t : Str) (hs : ∀ c ∈ s, c.toNat < 256)
    (ht : ∀ c ∈ t, c.toNat < 256) (h : encodeURIComponent s = encodeURIComponent t) :
    s = t := by
  rw [← specDecode_encode s hs, ← specDecode_encode t ht, h]

theorem encodeURIComponent_injective_witness :
    (∀ c ∈ "a +%".toList, c.toNat < 256) ∧ (∀ c ∈ "a +%".toList, c.toNat < 256) ∧
    encodeURIComponent "a +%".toList = encodeURIComponent "a +%".toList ∧
    encodeURIComponent "a +%".toList = "a+%2B%25".toList ∧
    "a +%".toList = "a +%".toList :=
  ⟨by decide, by decide, rfl, by decide!,
    encodeURIComponent_injective "a +%".toList "a +%".toList (by decide) (by decide) rfl⟩

/-! ## What an encoded value holds -/

set_option maxRecDepth 100000 in
theorem encodeStep_piece_byte : ∀ n, n < 256 →
    encodedPiece (encodeStep [] (Char.ofNat n)) = true := by
  decide!

set_option maxRecDepth 100000 in
theorem hexchar_digits : ∀ n, n < 256 →
    encodedPiece ['%', (hexchar n).1, (hexchar n).2] = true := by
  decide!

theorem encodeStep_wide (c : Char) (h : 256 ≤ c.toNat) :
    encodeStep [] c = ['%', (hexchar (c.toNat % 256)).1, (hexchar (c.toNat % 256)).2] := by
  have hle : ∀ d : Char, d.toNat < 256 → ¬ c ≤ d := by
    intro d hd hcd
    have : c.toNat ≤ d.toNat := hcd
    omega
  have hne : ∀ d : Char, d.toNat < 256 → c ≠ d := by
    intro d hd hcd
    subst hcd
    omega
  unfold encodeStep
  simp [hle '9' (by decide), hle 'z' (by decide), hle 'Z' (by decide),
    hne '-' (by decide), hne '_' (by decide), hne '.' (by decide), hne '!' (by decide),
    hne '~' (by decide), hne '*' (by decide), hne '\'' (by decide), hne '(' (by decide),
    hne ')' (by decide), hne ' ' (by decide)]

theorem encodeStep_piece (c : Char) : encodedPiece (encodeStep [] c) = true := by
  by_cases h : c.toNat < 256
  · have := encodeStep_piece_byte c.toNat h
    rwa [Char.ofNat_toNat] at this
  · rw [encodeStep_wide c (by omega)]
    exact hexchar_digits _ (Nat.mod_lt _ (by decide))

theorem encodedPiece_chars (p : Str) (h : encodedPiece p = true) :
    ∀ c ∈ p, c ∈ specEncodedChars := by
  have hhex : ∀ a, specIsHexDigit a = true → a ∈ specEncodedChars := by
    intro a ha
    simp only [specIsHexDigit, decide_eq_true_eq, String.toList, List.mem_cons,
      List.mem_nil_iff, or_false] at ha
    rcases ha with rfl | rfl | rfl | rfl | rfl | rfl | rfl | rfl | rfl | rfl | rfl | rfl |
      rfl | rfl | rfl | rfl <;> decide
  unfold encodedPiece at h
  split at h
  · rename_i x
    simp only [Bool.and_eq_true, decide_eq_true_eq] at h
    intro c hc
    rw [List.mem_singleton] at hc
    rw [hc]
    exact h.1.1
  · rename_i a b
    simp only [Bool.and_eq_true] at h
    intro c hc
    simp only [List.mem_cons, List.mem_nil_iff, or_false] at hc
    rcases hc with rfl | rfl | rfl
    · decide
    · exact hhex _ h.1
    · exact hhex _ h.2
  · cases h

theorem specPercentOk_piece (p rest : Str) (h : encodedPiece p = true) :
    specPercentOk (p ++ rest) = specPercentOk rest := by
  have hhex : ∀ a, specIsHexDigit a = true → (a != '%') = true := by
    intro a ha
    simp only [specIsHexDigit, decide_eq_true_eq, String.toList, List.mem_cons,
      List.mem_nil_iff, or_false] at ha
    rcases ha with rfl | rfl | rfl | rfl | rfl | rfl | rfl | rfl | rfl | rfl | rfl | rfl |
      rfl | rfl | rfl | rfl <;> decide
  unfold encodedPiece at h
  split at h
  · rename_i x
    simp only [Bool.and_eq_true, decide_eq_true_eq] at h
    simp [specPercentOk, h.1.2]
  · rename_i a b
    simp only [Bool.and_eq_true] at h
    simp [specPercentOk, h.1, h.2, hhex a h.1, hhex b h.2]
  · cases h

/-- An encoded value holds only letters, digits, `- _ . ! ~ * ' ( ) + %`, so no `/`, and
each of its `%` is followed by two uppercase hexadecimal digits. -/
theorem encodeURIComponent_chars (v : Str) :
    (∀ c ∈ encodeURIComponent v, c ∈ specEncodedChars) ∧
    '/' ∉ encodeURIComponent v ∧
    specPercentOk (encodeURIComponent v) = true := by
  have hall : (∀ c ∈ encodeURIComponent v, c ∈ specEncodedChars) ∧
      specPercentOk (encodeURIComponent v) = true := by
    unfold encodeURIComponent
    rw [foldl_encodeStep, List.nil_append]
    induction v with
    | nil => exact ⟨by simp, rfl⟩
    | cons c v ih =>
      simp only [List.map_cons, List.flatten_cons]
      refine ⟨?_, ?_⟩
      · intro x hx
        rcases List.mem_append.mp hx with hx | hx
        · exact encodedPiece_chars _ (encodeStep_piece c) x hx
        · exact ih.1 x hx
      · rw [specPercentOk_piece _ _ (encodeStep_piece c)]
        exact ih.2
  refine ⟨hall.1, fun h => ?_, hall.2⟩
  have := hall.1 '/' h
  revert this
  decide

theorem walkStep_refl {Response : Type} (n : Nat) (ctx ctx' : Context Response)
    (hc : ctx'.current_ = ctx.current_) (he : ctx'.entered = ctx.entered)
    (hn : ctx.current_ ≤ n) : walkStep n ctx ctx' :=
  ⟨by omega, by omega, [], by simp [he], List.Pairwise.nil, by simp⟩

theorem walkStep_trans {Response : Type} (n : Nat) (a b c : Context Response)
    (hab : walkStep n a b) (hbc : walkStep n b c) : walkStep n a c := by
  obtain ⟨h1, h2, new1, h3, h4, h5⟩ := hab
  obtain ⟨h6, h7, new2, h8, h9, h10⟩ := hbc
  refine ⟨by omega, h7, new1 ++ new2, by rw [h8, h3, List.append_assoc], ?_, ?_⟩
  · rw [List.pairwise_append]
    refine ⟨h4, h9, fun i hi j hj => ?_⟩
    have := h5 i hi
    have := h10 j hj
    omega
  · intro i hi
    rcases List.mem_append.mp hi with hi | hi
    · have := h5 i hi
      omega
    · have := h10 i hi
      omega

/-- The loop of `Context::next` moves the cursor forward, not past the end, and enters at
most the matcher right before the new cursor. -/
theorem scan_walk {Response : Type} (req : Request) (n : Nat) (rest : List (Matcher Response))
    (ctx : Context Response) (h : ctx.current_ + rest.length ≤ n) :
    walkStep n ctx (Context.scan req rest ctx).2 ∧
      ((Context.scan req rest ctx).1 ≠ none →
        ctx.current_ < (Context.scan req rest ctx).2.current_) := by
  induction rest generalizing ctx with
  | nil =>
    simp only [Context.scan]
    exact ⟨walkStep_refl n _ _ rfl rfl (by simpa using h), fun h => absurd rfl h⟩
  | cons matcher rest ih =>
    simp only [List.length_cons] at h
    simp only [Context.scan]
    split
    · split
      · refine ⟨⟨by simp, by simp; omega, [ctx.current_], rfl, by simp, by simp⟩, ?_⟩
        intro _
        simp
      · have := ih { ctx with current_ := ctx.current_ + 1, match_ := none }
          (by simp; omega)
        refine ⟨walkStep_trans n ctx _ _ ⟨by simp, by simp; omega, [], by simp, by simp,
          by simp⟩ this.1, fun hne => ?_⟩
        have := this.2 hne
        simp only at this
        omega
    · have := ih { ctx with current_ := ctx.current_ + 1 } (by simp; omega)
      refine ⟨walkStep_trans n ctx _ _ ⟨by simp, by simp; omega, [], by simp, by simp,
        by simp⟩ this.1, fun hne => ?_⟩
      have := this.2 hne
      simp only at this
      omega

/-- A handler whose calls of `ctx.next()` return and obey the walk returns and obeys it. -/
theorem run_walk {Response : Type} (n b : Nat)
    (next : Context Response → Option (Context Response))
    (hnext : ∀ c, b ≤ c.current_ → c.current_ ≤ n → ∃ c', next c = some c' ∧ walkStep n c c')
    (prog : HandlerProg Response) (ctx : Context Response) (hb : b ≤ ctx.current_)
    (hn : ctx.current_ ≤ n) :
    ∃ ctx', prog.run next ctx = some ctx' ∧ walkStep n ctx ctx' := by
  induction prog generalizing ctx with
  | done => exact ⟨ctx, rfl, walkStep_refl n _ _ rfl rfl hn⟩
  | next k ih =>
    obtain ⟨c1, h1, w1⟩ := hnext ctx hb hn
    obtain ⟨c2, h2, w2⟩ := ih c1 (by have := w1.1; omega) w1.2.1
    exact ⟨c2, by simp [HandlerProg.run, h1, h2], walkStep_trans n _ _ _ w1 w2⟩
  | readMatch i k ih =>
    obtain ⟨c2, h2, w2⟩ := ih (ctx.match i) ctx hb hn
    exact ⟨c2, by simp [HandlerProg.run, h2], w2⟩
  | update f k ih =>
    obtain ⟨c2, h2, w2⟩ := ih { ctx with response := f ctx.response } hb hn
    exact ⟨c2, by simp [HandlerProg.run, h2], w2⟩
  | read k ih =>
    obtain ⟨c2, h2, w2⟩ := ih ctx.response ctx hb hn
    exact ⟨c2, by simp [HandlerProg.run, h2], w2⟩

/-- Every call of `ctx.next()` returns and obeys the walk, whatever the handlers do. -/
theorem next_walk {Response : Type} (matchers : List (Matcher Response)) (req : Request)
    (fuel : Nat) (ctx : Context Response) (hn : ctx.current_ ≤ matchers.length)
    (hf : matchers.length < ctx.current_ + fuel) :
    ∃ ctx', Context.next matchers req fuel ctx = some ctx' ∧
      walkStep matchers.length ctx ctx' := by
  induction fuel generalizing ctx with
  | zero => omega
  | succ fuel ih =>
    have hs := scan_walk req matchers.length (matchers.drop ctx.current_) ctx
      (by simp; omega)
    simp only [Context.next]
    cases hr : Context.scan req (matchers.drop ctx.current_) ctx with
    | mk r ctx1 =>
      rw [hr] at hs
      cases r with
      | none => exact ⟨ctx1, rfl, hs.1⟩
      | some matcher =>
        have hlt := hs.2 (by simp)
        simp only at hlt
        obtain ⟨ctx2, h2, w2⟩ := run_walk matchers.length ctx1.current_
          (Context.next matchers req fuel)
          (fun c hb hc => ih c hc (by omega)) (matcher.handler req) ctx1 (Nat.le_refl _)
          hs.1.2.1
        exact ⟨ctx2, h2, walkStep_trans _ _ _ _ hs.1 w2⟩

/-- C25: `handleRequest` returns, whatever the handlers do with `ctx.next()`; at its end the
cursor is not past the end of the matcher list, the handlers entered are matchers of the list,
entered in strictly increasing order, so each one at most once. Every call of `ctx.next()`,
from a state whose cursor is within the list, returns, moves the cursor forward only and not
past the end, and enters handlers in strictly increasing order between the old and the new
cursor. In `matchersNextTwice` the first handler calls `ctx.next()` twice and the three
handlers are entered in the order 0, 1, 2. -/
theorem handleRequest_walk {Response : Type} (router : HttpRouter Response) (req : Request)
    (response : Response) :
    (∃ ctx, router.handleRequest req response = some ctx ∧
      ctx.current_ ≤ router.matchers_.length ∧
      ctx.entered.Pairwise (fun i j => i < j) ∧ ctx.entered.Nodup ∧
      ∀ i ∈ ctx.entered, i < router.matchers_.length) ∧
    (∀ (fuel : Nat) (ctx : Context Response), ctx.current_ ≤ router.matchers_.length →
      router.matchers_.length < ctx.current_ + fuel →
      ∃ ctx', Context.next router.matchers_ req fuel ctx = some ctx' ∧
        walkStep router.matchers_.length ctx ctx') ∧
    (HttpRouter.handleRequest ⟨matchersNextTwice⟩ ⟨"GET".toList, "/user/1".toList⟩ []).map
        (fun ctx => (ctx.current_, ctx.entered, ctx.response))
      = some (3, [0, 1, 2],
          ["A1".toList, "B".toList, "A2".toList, "C".toList, "A3".toList]) := by
  refine ⟨?_, fun fuel ctx => next_walk router.matchers_ req fuel ctx, by decide!⟩
  obtain ⟨ctx, h, w⟩ := next_walk router.matchers_ req (router.matchers_.length + 1)
    ⟨0, none, response, []⟩ (Nat.zero_le _) (by simp)
  obtain ⟨-, h2, new, h3, h4, h5⟩ := w
  simp only [List.nil_append] at h3
  refine ⟨ctx, h, h2, by rw [h3]; exact h4, ?_, ?_⟩
  · rw [h3]
    exact h4.imp (fun hij => Nat.ne_of_lt hij)
  · intro i hi
    rw [h3] at hi
    have := h5 i hi
    omega

/-! ## The groups of a match -/

theorem lookup_append_of_ne (k : Nat) (new l : List (Nat × Str)) (h : ∀ p ∈ new, p.1 ≠ k) :
    (new ++ l).lookup k = l.lookup k := by
  induction new with
  | nil => rfl
  | cons p new ih =>
    obtain ⟨i, v⟩ := p
    have hi : (k == i) = false := by
      have := h (i, v) (List.mem_cons_self _ _)
      simp only [ne_eq] at this
      simp
      exact fun e => this e.symm
    rw [List.cons_append, List.lookup_cons, hi]
    exact ih (fun p hp => h p (List.mem_cons_of_mem _ hp))

theorem starLoop_caps (g : Bool) (G : List Nat) (step : MState → List MState)
    (hstep : ∀ s s', s' ∈ step s → ∃ new, s'.caps = new ++ s.caps ∧ ∀ p ∈ new, p.1 ∈ G)
    (fuel : Nat) (s s' : MState) (h : s' ∈ starLoop g step fuel s) :
    ∃ new, s'.caps = new ++ s.caps ∧ ∀ p ∈ new, p.1 ∈ G := by
  induction fuel generalizing s with
  | zero =>
    simp only [starLoop, List.mem_singleton] at h
    subst h
    exact ⟨[], rfl, by simp⟩
  | succ fuel ih =>
    simp only [starLoop] at h
    have hmore : ∀ s1, s1 ∈ (step s).filter (fun s1 => decide (s1.rest.length < s.rest.length)) →
        s' ∈ starLoop g step fuel s1 → ∃ new, s'.caps = new ++ s.caps ∧ ∀ p ∈ new, p.1 ∈ G := by
      intro s1 hs1 hs'
      obtain ⟨n1, h1, h2⟩ := hstep s s1 (List.mem_filter.mp hs1).1
      obtain ⟨n2, h3, h4⟩ := ih s1 hs'
      refine ⟨n2 ++ n1, by rw [h3, h1, List.append_assoc], fun p hp => ?_⟩
      rcases List.mem_append.mp hp with hp | hp
      · exact h4 p hp
      · exact h2 p hp
    cases g with
    | true =>
      simp only [if_true, List.mem_append, List.mem_flatMap, List.mem_singleton] at h
      rcases h with ⟨s1, hs1, hs'⟩ | rfl
      · exact hmore s1 hs1 hs'
      · exact ⟨[], rfl, by simp⟩
    | false =>
      simp only [Bool.false_eq_true, if_false, List.mem_cons, List.mem_flatMap] at h
      rcases h with rfl | ⟨s1, hs1, hs'⟩
      · exact ⟨[], rfl, by simp⟩
      · exact hmore s1 hs1 hs'

/-- A match adds to the groups closed so far only groups of the expression. -/
theorem run_caps (ic : Bool) (re : Re) (s s' : MState) (h : s' ∈ re.run ic s) :
    ∃ new, s'.caps = new ++ s.caps ∧ ∀ p ∈ new, p.1 ∈ re.groups := by
  induction re generalizing s s' with
  | empty =>
    simp only [Re.run, List.mem_singleton] at h
    subst h
    exact ⟨[], rfl, by simp⟩
  | char c =>
    obtain ⟨x, _, _, _, h3⟩ := eat_mem _ s s' (by simpa [Re.run] using h)
    exact ⟨[], by simpa using h3, by simp⟩
  | any =>
    obtain ⟨x, _, _, _, h3⟩ := eat_mem _ s s' (by simpa [Re.run] using h)
    exact ⟨[], by simpa using h3, by simp⟩
  | cls neg items =>
    obtain ⟨x, _, _, _, h3⟩ := eat_mem _ s s' (by simpa [Re.run] using h)
    exact ⟨[], by simpa using h3, by simp⟩
  | seq a b iha ihb =>
    simp only [Re.run, List.mem_flatMap] at h
    obtain ⟨s1, hs1, hs'⟩ := h
    obtain ⟨n1, h1, h2⟩ := iha s s1 hs1
    obtain ⟨n2, h3, h4⟩ := ihb s1 s' hs'
    refine ⟨n2 ++ n1, by rw [h3, h1, List.append_assoc], fun p hp => ?_⟩
    simp only [Re.groups, List.mem_append]
    rcases List.mem_append.mp hp with hp | hp
    · exact Or.inr (h4 p hp)
    · exact Or.inl (h2 p hp)
  | alt a b iha ihb =>
    simp only [Re.run, List.mem_append] at h
    rcases h with h | h
    · obtain ⟨n1, h1, h2⟩ := iha s s' h
      exact ⟨n1, h1, fun p hp => by simp [Re.groups, h2 p hp]⟩
    · obtain ⟨n1, h1, h2⟩ := ihb s s' h
      exact ⟨n1, h1, fun p hp => by simp [Re.groups, h2 p hp]⟩
  | star g r ih =>
    simp only [Re.run] at h
    exact starLoop_caps g r.groups _ (fun s1 s2 h12 => ih s1 s2 h12) _ s s' h
  | group n r ih =>
    obtain ⟨s1, hs1, rfl⟩ := (mem_run_group ic n r s s').mp h
    obtain ⟨n1, h1, h2⟩ := ih s s1 hs1
    refine ⟨(n, s.rest.take (s1.pos - s.pos)) :: n1, by simp [h1], fun p hp => ?_⟩
    rcases List.mem_cons.mp hp with rfl | hp
    · simp [Re.groups]
    · simp [Re.groups, h2 p hp]
  | look neg r ih =>
    simp only [Re.run] at h
    split at h
    · split at h
      · simp only [List.mem_singleton] at h
        subst h
        exact ⟨[], rfl, by simp⟩
      · simp at h
    · rename_i s1 tl hr
      split at h
      · simp at h
      · simp only [List.mem_singleton] at h
        subst h
        obtain ⟨n1, h1, h2⟩ := ih s s1 (by rw [hr]; exact List.mem_cons_self _ _)
        exact ⟨n1, h1, fun p hp => h2 p hp⟩
  | bol =>
    simp only [Re.run] at h
    split at h
    · simp only [List.mem_singleton] at h
      subst h
      exact ⟨[], rfl, by simp⟩
    · simp at h
  | eol =>
    simp only [Re.run] at h
    split at h
    · simp only [List.mem_singleton] at h
      subst h
      exact ⟨[], rfl, by simp⟩
    · simp at h

/-! ## The key tokens are well formed -/

/-- Group 2 of a match of `PATH_REGEXP`, the prefix, is empty, `/` or `.`. -/
theorem run_PATH_REGEXP_prefix (s s' : MState) (hs : s.caps = [])
    (h : s' ∈ PATH_REGEXP.run false s) :
    (s'.caps.lookup 2).getD [] = [] ∨ (s'.caps.lookup 2).getD [] = ['/'] ∨
      (s'.caps.lookup 2).getD [] = ['.'] := by
  unfold PATH_REGEXP at h
  rcases (mem_run_alt false _ _ s s').mp h with h | h
  · obtain ⟨s1, hs1, rfl⟩ := (mem_run_group false 1 _ s s').mp h
    obtain ⟨new, h1, h2⟩ := run_caps false reEscaped s s1 hs1
    have hnew : new = [] := by
      cases new with
      | nil => rfl
      | cons p new =>
        have := h2 p (List.mem_cons_self _ _)
        simp [reEscaped, Re.groups] at this
    rw [hnew, hs] at h1
    simp [h1, List.lookup]
  · obtain ⟨s1, hs1, h⟩ := (mem_run_seq false _ _ s s').mp h
    obtain ⟨new, h1, h2⟩ := run_caps false _ s1 s' h
    have hne : ∀ p ∈ new, p.1 ≠ 2 := by
      intro p hp h2'
      have := h2 p hp
      rw [h2'] at this
      revert this
      decide
    rw [h1, lookup_append_of_ne 2 new s1.caps hne]
    unfold rePrefix Re.opt at hs1
    simp only [if_true] at hs1
    rcases (mem_run_alt false _ _ s s1).mp hs1 with hs1 | hs1
    · obtain ⟨s2, hs2, rfl⟩ := (mem_run_group false 2 _ s s1).mp hs1
      simp only [Re.run] at hs2
      obtain ⟨x, hx, h3, h4, h5⟩ := eat_mem _ s s2 hs2
      have htake : s.rest.take (s2.pos - s.pos) = [x] := by
        rw [h3, h4]
        simp
      simp only [List.lookup, beq_self_eq_true, Option.getD_some, htake]
      simp [ClassItem.accepts] at hx
      rcases hx with rfl | rfl
      · exact Or.inr (Or.inl rfl)
      · exact Or.inr (Or.inr rfl)
    · simp only [Re.run, List.mem_singleton] at hs1
      subst hs1
      simp [hs]

theorem search_PATH_REGEXP_prefix (subj : Str) (res : SMatch)
    (h : regex_search false PATH_REGEXP subj = some res) :
    res.str 2 = [] ∨ res.str 2 = ['/'] ∨ res.str 2 = ['.'] := by
  obtain ⟨k, s', w, -, -, hhead, -, -, hcaps, -⟩ := searchFrom_some false _ 0 subj res h
  have := run_PATH_REGEXP_prefix ⟨0 + k, subj.drop k, []⟩ s' rfl (List.mem_of_mem_head? hhead)
  simpa [SMatch.str, hcaps] using this

theorem toDigitsCore_ne_nil (b f n : Nat) (ds : List Char) (h : 0 < f ∨ ds ≠ []) :
    Nat.toDigitsCore b f n ds ≠ [] := by
  induction f generalizing n ds with
  | zero =>
    rcases h with h | h
    · omega
    · simpa [Nat.toDigitsCore] using h
  | succ f ih =>
    simp only [Nat.toDigitsCore]
    split
    · simp
    · exact ih _ _ (Or.inr (by simp))

theorem to_string_int_ne_nil (key : Nat) : to_string_int key ≠ [] := by
  unfold to_string_int Nat.repr Nat.toDigits
  exact toDigitsCore_ne_nil 10 (key + 1) key [] (Or.inl (Nat.succ_pos _))

theorem escapeGroup_ne_nil (b : Str) (h : b ≠ []) : escapeGroup b ≠ [] := by
  rw [escapeGroup_eq_spec]
  cases b with
  | nil => exact absurd rfl h
  | cons c b =>
    unfold specEscapeGroup
    simp only [List.map_cons, List.flatten_cons]
    split <;> simp

/-- The key built from a match of `PATH_REGEXP` is well formed. -/
theorem keyOfMatch_wellFormed (res : SMatch) (n : Nat)
    (hp : res.str 2 = [] ∨ res.str 2 = ['/'] ∨ res.str 2 = ['.']) :
    specWellFormedKey (keyOfMatch res n).1 = true := by
  have hname : (if (!(res.str 3).isEmpty) = true then res.str 3 else to_string_int n) ≠ [] := by
    split
    · rename_i h
      simpa using h
    · exact to_string_int_ne_nil n
  have hpat : ∀ d : Str, escapeGroup
      (if (!(res.str 4).isEmpty) = true then res.str 4
       else if (!(res.str 5).isEmpty) = true then res.str 5
       else if (!(res.str 7).isEmpty) = true then ".*".toList
       else "[^".toList ++ d ++ "]+?".toList) ≠ [] := by
    intro d
    apply escapeGroup_ne_nil
    split
    · rename_i h
      simpa using h
    · split
      · rename_i h
        simpa using h
      · split <;> simp
  unfold specWellFormedKey keyOfMatch
  simp only [Bool.and_eq_true, Bool.not_eq_true', List.isEmpty_eq_false, ne_eq]
  refine ⟨⟨⟨⟨?_, ?_⟩, ?_⟩, ?_⟩, ?_⟩
  · simpa using hname
  · rcases hp with h | h | h <;> simp [h]
  · rcases hp with h | h | h <;> simp [h]
  · rcases hp with h | h | h <;> simp [h]
  · simpa using hpat _

theorem parseLoop_wellFormed (str : Str) (fuel : Nat) (st st' : ParseState)
    (hst : ∀ t ∈ st.tokens, specWellFormedToken t = true)
    (h : parseLoop str fuel st = some st') :
    ∀ t ∈ st'.tokens, specWellFormedToken t = true := by
  induction fuel generalizing st with
  | zero => simp [parseLoop] at h
  | succ fuel ih =>
    simp only [parseLoop] at h
    cases hs : regex_search false PATH_REGEXP (str.drop st.index) with
    | none =>
      simp only [hs, Option.some.injEq] at h
      subst h
      exact hst
    | some res =>
      simp only [hs] at h
      have hp := search_PATH_REGEXP_prefix _ res hs
      split at h
      · exact ih _ (by simpa using hst) h
      · refine ih _ ?_ h
        intro t ht
        simp only [List.mem_append, List.mem_singleton] at ht
        rcases ht with ht | rfl
        · split at ht
          · rename_i hne
            rcases List.mem_append.mp ht with ht | ht
            · exact hst t ht
            · rw [List.mem_singleton] at ht
              subst ht
              simpa [specWellFormedToken] using hne
          · exact hst t ht
        · exact keyOfMatch_wellFormed res st.key hp

theorem parseFinish_wellFormed (str : Str) (st : ParseState)
    (hst : ∀ t ∈ st.tokens, specWellFormedToken t = true) :
    ∀ t ∈ parseFinish str st, specWellFormedToken t = true := by
  unfold parseFinish
  simp only
  generalize (if st.index < str.length then st.path ++ str.drop st.index else st.path) = path
  split
  · rename_i hne
    intro t ht
    rcases List.mem_append.mp ht with ht | ht
    · exact hst t ht
    · rw [List.mem_singleton] at ht
      subst ht
      simpa [specWellFormedToken] using hne
  · exact hst

/-- C26: for every input string, every token that `parsePath` returns is well formed: a key has
a name that is not empty, the prefix `""`, `"/"` or `"."`, as delimiter its prefix when that is
not empty and `"/"` otherwise, and a pattern that is not empty; a literal is not empty. Each
key is built from the match of one construct of the pattern, and `repeat` and `optional` are
both true exactly when the suffix of that match is `*`. The tokens of `"/:a*/(b)+/c"` are
evaluated. -/
theorem parsePath_wellFormed :
    (∀ str : Str, ∃ tokens, parsePath str = some tokens ∧
      (∀ t ∈ tokens, specWellFormedToken t = true) ∧
      specKeysOf tokens = keysOfMatches 0 (specKeyMatches str)) ∧
    (∀ (m : SMatch) (n : Nat),
      ((keyOfMatch m n).1.rep = true ∧ (keyOfMatch m n).1.optional = true)
        ↔ m.str 6 = "*".toList) ∧
    parsePath "/:a*/(b)+/c".toList
      = some [key ⟨"a".toList, "/".toList, "/".toList, true, true, "[^\\/]+?".toList⟩,
          key ⟨"0".toList, "/".toList, "/".toList, false, true, "b".toList⟩,
          lit "/c".toList] := by
  refine ⟨fun str => ?_, fun m n => ?_, by decide!⟩
  · cases hl : parseLoop str (str.length + 1) ⟨[], 0, 0, []⟩ with
    | none =>
      obtain ⟨st', h⟩ := parseLoop_some str (str.length + 1) ⟨[], 0, 0, []⟩ (by simp) (by simp)
      rw [hl] at h
      cases h
    | some st' =>
      refine ⟨parseFinish str st', by simp [parsePath, hl], ?_, ?_⟩
      · exact parseFinish_wellFormed str st' (parseLoop_wellFormed str _ _ st' (by simp) hl)
      · rw [specKeysOf_parseFinish]
        have hk := parseLoop_keys str _ _ _ hl
        simpa [specKeysOf] using hk
  · simp only [keyOfMatch, Bool.or_eq_true, beq_iff_eq]
    constructor
    · rintro ⟨h1 | h1, h2 | h2⟩
      · rw [h1] at h2
        exact absurd h2 (by decide)
      · exact h2
      · exact h1
      · exact h1
    · intro h
      exact ⟨Or.inr h, Or.inr h⟩

/-! ## Capturing groups and keys -/

/-- C27 fails at the pattern `/:a(\(\))/:b`: it has the two keys `a` and `b`, and
`escapeGroup` puts a backslash before each parenthesis of the body `\(\)`, also before the
escaped ones, which gives `\\(\\)`: a backslash, and a group around a backslash. The emitted
source has three capturing groups, and so has the compiled expression; in the match of the path
`/\\/x` group 2 is the inner group of the first key, and the value `x` of the second key is in
group 3. -/
theorem escaped_parenthesis_adds_group :
    (specKeysOfPattern patternEscapedParens).map (fun k => (k.name, k.pattern))
      = [("a".toList, "\\\\(\\\\)".toList), ("b".toList, "[^\\/]+?".toList)] ∧
    (pathToRegexp patternEscapedParens PR_END).map (fun re => re.source)
      = some "^\\/(\\\\(\\\\))\\/([^\\/]+?)(?:\\/(?=$))?$".toList ∧
    (pathToRegexp patternEscapedParens PR_END).map
        (fun re => specCountGroups false false re.source) = some 3 ∧
    ((pathToRegexp patternEscapedParens PR_END).bind to_regex).map (fun rx => rx.re.groups)
      = some [1, 2, 3] ∧
    ((pathToRegexp patternEscapedParens PR_END).bind to_regex).map
        (fun rx => (rx.search "/\\\\/x".toList).map (fun m => (m.str 1, m.str 2, m.str 3)))
      = some (some ("\\\\".toList, "\\".toList, "x".toList)) ∧
    escapeGroup "\\(\\)".toList = "\\\\(\\\\)".toList := by
  refine ⟨by decide!, by decide!, by decide!, by decide!, by decide!, by decide!⟩

/-! ## From the rendered path back to the values -/

/-- C5 (as stated) fails where no group body is involved. For `"/:a-:b"` the map with `x-y`
for `a` and `z` for `b` is accepted and rendered as `"/x-y-z"`; the regular expression emitted
at the default options matches this path, but its groups are `x` and `y-z`: the default
pattern of `a` stops at the first `-` that lets the rest match. For `":a+"` the two values `x`
and `y` are accepted and joined with the delimiter `/` to `"x/y"`, which the emitted regular
expression, whose repetition uses the empty prefix, does not match. -/
theorem rendered_path_groups_differ :
    (compilePath "/:a-:b".toList).map
        (fun pf => pf.call (twoEntries "a".toList ["x-y".toList] "b".toList ["z".toList]))
      = some (CallResult.returned "/x-y-z".toList) ∧
    (pathToRegexp "/:a-:b".toList PR_END).map RegExp.source
      = some "^\\/([^\\/]+?)-([^\\/]+?)(?:\\/(?=$))?$".toList ∧
    ((pathToRegexp "/:a-:b".toList PR_END).bind to_regex).map
        (fun re => (re.search "/x-y-z".toList).map (fun m => (m.str 1, m.str 2)))
      = some (some ("x".toList, "y-z".toList)) ∧
    (encodeURIComponent "x-y".toList, encodeURIComponent "z".toList)
      = ("x-y".toList, "z".toList) ∧
    (compilePath ":a+".toList).map
        (fun pf => pf.call (singleEntry "a".toList ["x".toList, "y".toList]))
      = some (CallResult.returned "x/y".toList) ∧
    (pathToRegexp ":a+".toList PR_END).map RegExp.source
      = some "^([^\\/]+?(?:[^\\/]+?)*)(?:\\/(?=$))?$".toList ∧
    ((pathToRegexp ":a+".toList PR_END).bind to_regex).map
        (fun re => re.search "x/y".toList)
      = some none := by
  refine ⟨by decide!, by decide!, by decide!, by decide!, by decide!, by decide!, by decide!⟩

/-! ## Reading the source emitted at the default options -/

theorem parseAlternative_laxEnd (f n : Nat) :
    parseAlternative (f + 10) "(?:\\/(?=$))?$".toList n = some (reLaxEnd, [], n) := by
  simp [parseAlternative, parseTerm, parseDisjunction, escapeAtom, classEscape, controlEscape,
    quantifiers, closeParen, withQuantifiers, Re.mkSeq, reLaxEnd, Re.opt]

/-- The source of plain tokens followed by a tail is read as the chain of their terms and
the expression of the tail. -/
theorem parseAlternative_tokens_tail (T : List PathToken) (hT : plainTokens T) (tail : Str)
    (u : Re) (hne : u ≠ Re.empty) (hstart : termStart tail) (F : Nat)
    (htail : ∀ m, parseAlternative (F + 4) tail m = some (u, [], m)) (n : Nat) :
    parseAlternative (F + 4 + (termsOf n T).length) ((T.map specPiece).flatten ++ tail) n
      = some (reChain (termsOf n T) u, [], n + (specKeysOf T).length) := by
  induction T generalizing n with
  | nil => exact htail n
  | cons t T ih =>
    have hT' := plainTokens_cons t T hT
    have hs : termStart ((T.map specPiece).flatten ++ tail) := termStart_body T _ hstart hT'
    simp only [List.map_cons, List.flatten_cons, List.append_assoc]
    cases t with
    | lit s =>
      have hbs : '\\' ∉ s := hT (lit s) (List.mem_cons_self _ _)
      have ih := ih hT' n
      have h := parseAlternative_chars s hbs _ [] _ n _ (F + 3 + (termsOf n T).length) hs
        (by rw [show F + 3 + (termsOf n T).length + 1 = F + 4 + (termsOf n T).length by omega]
            exact ih)
        (reChain_ne_empty _ _ hne)
      simp only [specPiece, termsOf, List.length_append, List.length_map]
      rw [show F + 4 + (s.length + (termsOf n T).length)
        = F + 3 + (termsOf n T).length + 1 + s.length by omega]
      rw [h, reChain_append]
      simp [specKeysOf]
    | key k =>
      have hk : plainKey k = true := hT (key k) (List.mem_cons_self _ _)
      have ih := ih hT' (n + 1)
      have hg := parseAlternative_step (F + 4 + (termsOf (n + 1) T).length) n (n + 1) _
        ("(".toList ++ k.pattern ++ ")".toList ++ ((T.map specPiece).flatten ++ tail))
        _ _ _ _
        ⟨'(', _, rfl, by decide, by decide, by decide, by decide, by decide, by decide⟩
        (by rw [show F + 4 + (termsOf (n + 1) T).length = F + (termsOf (n + 1) T).length + 4
              by omega]
            exact parseTerm_plainKey k hk _ n _ hs)
        ih (reChain_ne_empty _ _ hne)
      have h := parseAlternative_chars k.pfx (plainKey_pfx k hk)
        ("(".toList ++ k.pattern ++ ")".toList ++ ((T.map specPiece).flatten ++ tail))
        [] _ n _ (F + 4 + (termsOf (n + 1) T).length)
        ⟨'(', _, rfl, by decide, by decide, by decide, by decide, by decide, by decide⟩
        hg (by simp)
      have e : escapeString k.pfx ++ ("(".toList ++ k.pattern ++ ")".toList)
            ++ ((T.map specPiece).flatten ++ tail)
          = escapeString k.pfx ++ ("(".toList ++ k.pattern ++ ")".toList
            ++ ((T.map specPiece).flatten ++ tail)) := by
        simp only [List.append_assoc]
      rw [specPiece_plainKey k hk, e]
      simp only [termsOf, List.length_append, List.length_map, List.length_cons]
      rw [show F + 4 + (k.pfx.length + ((termsOf (n + 1) T).length + 1))
        = F + 4 + (termsOf (n + 1) T).length + 1 + k.pfx.length by omega]
      rw [h, reChain_append]
      simp [specKeysOf, reChain]
      omega

/-- The expression that the source `"^" ++ body ++ "(?:\/(?=$))?$"` of plain tokens compiles
to. -/
theorem compile_plainTokens_lax (T : List PathToken) (hT : plainTokens T) (flags : RegexFlags) :
    Regex.compile ("^".toList ++ (T.map specPiece).flatten ++ "(?:\\/(?=$))?$".toList) flags
      = some ⟨Re.seq Re.bol (reChain (termsOf 0 T) reLaxEnd), flags.icase⟩ := by
  have hlen := termsOf_length T hT 0
  obtain ⟨f, hf⟩ : ∃ f,
      4 * ("^".toList ++ (T.map specPiece).flatten ++ "(?:\\/(?=$))?$".toList).length + 8
        = (f + 6 + 4 + (termsOf 0 T).length) + 1 + 1 := by
    refine ⟨4 * ("^".toList ++ (T.map specPiece).flatten ++ "(?:\\/(?=$))?$".toList).length
      - 4 - (termsOf 0 T).length, ?_⟩
    simp only [List.length_append]
    generalize ((T.map specPiece).flatten).length = b at *
    have : "(?:\\/(?=$))?$".toList.length = 13 := rfl
    have : "^".toList.length = 1 := rfl
    omega
  have hstart : termStart "(?:\\/(?=$))?$".toList :=
    ⟨'(', _, rfl, by decide, by decide, by decide, by decide, by decide, by decide⟩
  have htail := parseAlternative_tokens_tail T hT "(?:\\/(?=$))?$".toList reLaxEnd
    (by simp [reLaxEnd]) hstart (f + 6) (fun m => parseAlternative_laxEnd f m) 0
  have hstep := parseAlternative_step (f + 6 + 4 + (termsOf 0 T).length) 0 0 _
    ('^' :: ((T.map specPiece).flatten ++ "(?:\\/(?=$))?$".toList)) _ [] Re.bol _
    ⟨'^', _, rfl, by decide, by decide, by decide, by decide, by decide, by decide⟩
    (by rw [show f + 6 + 4 + (termsOf 0 T).length = (f + 9 + (termsOf 0 T).length) + 1 by omega]
        simp [parseTerm])
    htail (reChain_ne_empty _ _ (by simp [reLaxEnd]))
  unfold Regex.compile
  rw [hf]
  simp only [parseDisjunction]
  have e : "^".toList ++ (T.map specPiece).flatten ++ "(?:\\/(?=$))?$".toList
      = '^' :: ((T.map specPiece).flatten ++ "(?:\\/(?=$))?$".toList) := by simp
  rw [e, hstep]

/-! ## Matching without regard to case -/

theorem ofNat_lower_ne : ∀ n, n < 91 → 65 ≤ n →
    Char.ofNat (n + 32) ≠ '/' ∧ Char.ofNat (n + 32) ≠ '.' := by
  decide!

/-- No other character is equal to `/` or `.` when case is ignored. -/
theorem toLower_eq_delimiter (d x : Char) (hd : d = '/' ∨ d = '.')
    (h : d.toLower = x.toLower) : x = d := by
  have hdl : d.toLower = d := by
    rcases hd with rfl | rfl <;> decide
  rw [hdl] at h
  unfold Char.toLower at h
  simp only at h
  split at h
  · rename_i hx
    have := ofNat_lower_ne x.toNat (by omega) hx.1
    rcases hd with rfl | rfl
    · exact absurd h.symm this.1
    · exact absurd h.symm this.2
  · exact h.symm

theorem segment_class_icase (d x : Char) (hd : d = '/' ∨ d = '.') :
    (true != [ClassItem.single d].any (ClassItem.accepts true x)) = true ↔ x ≠ d := by
  simp only [List.any_cons, List.any_nil, Bool.or_false, ClassItem.accepts, if_true]
  constructor
  · intro h hx
    subst hx
    simp at h
  · intro h
    have : ¬ d.toLower = x.toLower := fun e => h (toLower_eq_delimiter d x hd e)
    simp [this]

/-- What `[^d]+?` reads when case is ignored: one character or more, none of them `d`. -/
theorem mem_run_reSegment_icase (d : Char) (hd : d = '/' ∨ d = '.') (s s' : MState)
    (h : s' ∈ (reSegment d).run true s) :
    ∃ w, s.rest = w ++ s'.rest ∧ s'.pos = s.pos + w.length ∧ s'.caps = s.caps ∧
      w ≠ [] ∧ ∀ c ∈ w, c ≠ d := by
  unfold reSegment Re.plus at h
  obtain ⟨s1, hs1, hs'⟩ := (mem_run_seq true _ _ s s').mp h
  simp only [Re.run] at hs1 hs'
  obtain ⟨x, hx, h1, h2, h3⟩ := eat_mem _ s s1 hs1
  obtain ⟨w, h4, h5, h6, h7⟩ := starLoop_eat _ _ _ s1 s' hs'
  refine ⟨x :: w, ?_, ?_, ?_, by simp, ?_⟩
  · rw [h1, h4, List.cons_append]
  · rw [h5, h2, List.length_cons]
    omega
  · rw [h6, h3]
  · intro c hc
    rcases List.mem_cons.mp hc with rfl | hc
    · exact (segment_class_icase d _ hd).mp hx
    · exact (segment_class_icase d c hd).mp (h7 c hc)

/-- A chain of characters reads as many characters, and the groups stay as they are. -/
theorem mem_run_chars_icase (cs : Str) (u : Re) (s s' : MState)
    (h : s' ∈ (reChain (cs.map Re.char) u).run true s) :
    ∃ s0 cs', s.rest = cs' ++ s0.rest ∧ cs'.length = cs.length ∧ s0.caps = s.caps ∧
      s0.pos = s.pos + cs.length ∧
      List.Forall₂ (fun c x => c.toLower = x.toLower) cs cs' ∧ s' ∈ u.run true s0 := by
  induction cs generalizing s with
  | nil => exact ⟨s, [], rfl, rfl, rfl, rfl, List.Forall₂.nil, h⟩
  | cons c cs ih =>
    simp only [List.map_cons, reChain] at h
    obtain ⟨s1, hs1, hs'⟩ := (mem_run_seq true _ _ s s').mp h
    obtain ⟨x, h1, h2, h3, h4⟩ := mem_run_char true c s s1 hs1
    obtain ⟨s0, cs', h5, h6, h7, h8, h9, h10⟩ := ih s1 hs'
    simp only [if_true, beq_iff_eq] at h4
    refine ⟨s0, x :: cs', ?_, by simp [h6], by rw [h7, h3], ?_, List.Forall₂.cons h4 h9, h10⟩
    · rw [h1, h5, List.cons_append]
    · rw [h8, h2, List.length_cons]
      omega

/-- The chain of the characters `cs` can read the text `cs` itself. -/
theorem run_chars_self (ic : Bool) (cs : Str) (u : Re) (pos : Nat) (rest : Str)
    (caps : List (Nat × Str)) (s' : MState)
    (h : s' ∈ u.run ic ⟨pos + cs.length, rest, caps⟩) :
    s' ∈ (reChain (cs.map Re.char) u).run ic ⟨pos, cs ++ rest, caps⟩ := by
  induction cs generalizing pos with
  | nil => simpa using h
  | cons c cs ih =>
    simp only [List.map_cons, reChain]
    rw [mem_run_seq]
    refine ⟨⟨pos + 1, cs ++ rest, caps⟩, ?_, ?_⟩
    · simp [Re.run, MState.eat]
    · apply ih
      rw [show pos + 1 + cs.length = pos + (c :: cs).length by simp; omega]
      exact h

/-- What the expression of the lax end reads: nothing, or one `/`, up to the end of the
subject; it closes no group. -/
theorem mem_run_laxEnd (s s' : MState) (h : s' ∈ reLaxEnd.run true s) :
    (s.rest = [] ∨ s.rest = ['/']) ∧ s'.caps = s.caps := by
  obtain ⟨new, h1, h2⟩ := run_caps true reLaxEnd s s' h
  have hnew : new = [] := by
    cases new with
    | nil => rfl
    | cons p new =>
      have := h2 p (List.mem_cons_self _ _)
      simp [reLaxEnd, Re.opt, Re.groups] at this
  refine ⟨?_, by rw [h1, hnew, List.nil_append]⟩
  unfold reLaxEnd Re.opt at h
  simp only [if_true] at h
  obtain ⟨s1, hs1, hs'⟩ := (mem_run_seq true _ _ s s').mp h
  have hend : s1.rest = [] := by
    simp only [Re.run] at hs'
    split at hs'
    · rename_i he
      simpa using he
    · simp at hs'
  rcases (mem_run_alt true _ _ s s1).mp hs1 with hs1 | hs1
  · obtain ⟨s2, hs2, hs3⟩ := (mem_run_seq true _ _ s s1).mp hs1
    obtain ⟨x, h3, -, -, h4⟩ := mem_run_char true '/' s s2 hs2
    simp only [if_true, beq_iff_eq] at h4
    have hx := toLower_eq_delimiter '/' x (Or.inl rfl) h4
    simp only [Re.run] at hs3
    by_cases he : s2.rest.isEmpty = true
    · have he' : s2.rest = [] := by simpa using he
      right
      rw [h3, he', hx]
    · simp [he] at hs3
  · simp only [Re.run, List.mem_singleton] at hs1
    subst hs1
    exact Or.inl hend

theorem run_laxEnd_mem (pos : Nat) (rest : Str) (caps : List (Nat × Str))
    (h : rest = [] ∨ rest = ['/']) : ∃ s', s' ∈ reLaxEnd.run true ⟨pos, rest, caps⟩ := by
  rcases h with rfl | rfl
  · exact ⟨⟨pos, [], caps⟩, by simp [reLaxEnd, Re.opt, Re.run, MState.eat]⟩
  · exact ⟨⟨pos + 1, [], caps⟩, by simp [reLaxEnd, Re.opt, Re.run, MState.eat]⟩

/-! ## The groups of the match of a rendered path -/

theorem plainKey_delimiter (k : PathKey) (h : plainKey k = true) :
    (delimiterChar k = '/' ∨ delimiterChar k = '.') ∧
      (k.pfx = [] ∨ k.pfx = [delimiterChar k]) := by
  rcases plainKey_cases k h with hk | hk | hk <;> rw [hk] <;> simp [delimiterChar]

/-- What the expression for the tokens after a key reads begins with the delimiter of the key or
with `/`, or it reads nothing. -/
theorem chain_first (d : Char) (hd : d = '/' ∨ d = '.') (extra : Str) (B : List PathToken)
    (hB : delimitedAfter d extra B = true) (n : Nat) (s1 s' : MState)
    (h : s' ∈ (reChain (termsOf n B) reLaxEnd).run true s1) :
    s1.rest = [] ∨ ∃ t, s1.rest = d :: t ∨ s1.rest = '/' :: t := by
  induction B with
  | nil =>
    simp only [termsOf, reChain] at h
    rcases (mem_run_laxEnd s1 s' h).1 with h1 | h1
    · exact Or.inl h1
    · exact Or.inr ⟨[], Or.inr h1⟩
  | cons t B ih =>
    cases t with
    | lit cs =>
      cases cs with
      | nil =>
        simp only [termsOf, List.map_nil, List.nil_append] at h
        exact ih (by simpa [delimitedAfter] using hB) h
      | cons c cs =>
        simp only [delimitedAfter, beq_iff_eq] at hB
        subst hB
        simp only [termsOf, List.map_cons, List.cons_append, reChain] at h
        obtain ⟨s2, hs2, -⟩ := (mem_run_seq true _ _ s1 s').mp h
        obtain ⟨x, h1, -, -, h4⟩ := mem_run_char true c s1 s2 hs2
        simp only [if_true, beq_iff_eq] at h4
        rw [toLower_eq_delimiter c x hd h4] at h1
        exact Or.inr ⟨_, Or.inl h1⟩
    | key k =>
      simp only [delimitedAfter, beq_iff_eq] at hB
      simp only [termsOf, hB, List.map_cons, List.map_nil, List.cons_append, List.nil_append,
        reChain] at h
      obtain ⟨s2, hs2, -⟩ := (mem_run_seq true _ _ s1 s').mp h
      obtain ⟨x, h1, -, -, h4⟩ := mem_run_char true d s1 s2 hs2
      simp only [if_true, beq_iff_eq] at h4
      rw [toLower_eq_delimiter d x hd h4] at h1
      exact Or.inr ⟨_, Or.inl h1⟩

/-- What follows the value of a key in a rendered path begins with the delimiter of the key,
or nothing follows. -/
theorem path_first (d : Char) (extra : Str) (B : List PathToken)
    (hB : delimitedAfter d extra B = true) (es : List Str) :
    specPath B es ++ extra = [] ∨ ∃ t, specPath B es ++ extra = d :: t := by
  induction B with
  | nil =>
    simp only [delimitedAfter, Bool.or_eq_true, List.isEmpty_iff, beq_iff_eq] at hB
    rcases hB with h | h
    · exact Or.inl (by simp [specPath, h])
    · exact Or.inr ⟨[], by simp [specPath, h]⟩
  | cons t B ih =>
    cases t with
    | lit cs =>
      cases cs with
      | nil =>
        simp only [specPath, List.nil_append]
        exact ih (by simpa [delimitedAfter] using hB)
      | cons c cs =>
        simp only [delimitedAfter, beq_iff_eq] at hB
        subst hB
        exact Or.inr ⟨cs ++ (specPath B es ++ extra), by simp [specPath]⟩
    | key k =>
      simp only [delimitedAfter, beq_iff_eq] at hB
      cases es with
      | nil => exact Or.inr ⟨specPath B [] ++ extra, by simp [specPath, hB]⟩
      | cons v vs => exact Or.inr ⟨v ++ (specPath B vs ++ extra), by simp [specPath, hB]⟩

/-- Two ways to cut a text behind a value agree, when the value has neither the delimiter
nor `/` and what follows it begins with one of them. -/
theorem value_unique (d : Char) (e v re rv : Str) (h : e ++ re = v ++ rv)
    (he : ∀ c ∈ e, c ≠ d ∧ c ≠ '/') (hv : ∀ c ∈ v, c ≠ d)
    (hre : re = [] ∨ ∃ t, re = d :: t)
    (hrv : rv = [] ∨ ∃ t, rv = d :: t ∨ rv = '/' :: t) : e = v ∧ re = rv := by
  induction e generalizing v with
  | nil =>
    cases v with
    | nil => exact ⟨rfl, by simpa using h⟩
    | cons c v =>
      rcases hre with hre | ⟨t, hre⟩
      · rw [hre] at h
        simp at h
      · rw [hre] at h
        simp only [List.nil_append, List.cons_append, List.cons.injEq] at h
        exact absurd h.1.symm (hv c (List.mem_cons_self _ _))
  | cons c e ih =>
    cases v with
    | nil =>
      simp only [List.cons_append, List.nil_append] at h
      have hc := he c (List.mem_cons_self _ _)
      rcases hrv with hrv | ⟨t, hrv | hrv⟩
      · rw [hrv] at h
        simp at h
      · rw [hrv] at h
        simp only [List.cons.injEq] at h
        exact absurd h.1 hc.1
      · rw [hrv] at h
        simp only [List.cons.injEq] at h
        exact absurd h.1 hc.2
    | cons c' v =>
      simp only [List.cons_append, List.cons.injEq] at h
      obtain ⟨h1, h2⟩ := ih v h.2 (fun x hx => he x (List.mem_cons_of_mem _ hx))
        (fun x hx => hv x (List.mem_cons_of_mem _ hx))
      exact ⟨by rw [h.1, h1], h2⟩

/-- Every match of the expression of plain tokens, with the lax end, on a rendered path has
the encoded values as its groups, when every key is followed by its delimiter. -/
theorem run_tokens_groups (T : List PathToken) (hT : plainTokens T) (extra : Str)
    (hD : keysDelimited extra T = true) (es : List Str)
    (hes : List.Forall₂ encodedSegmentOf (specKeysOf T) es) (n : Nat) (s s' : MState)
    (hrest : s.rest = specPath T es ++ extra)
    (h : s' ∈ (reChain (termsOf n T) reLaxEnd).run true s) :
    s'.caps = capsOf n es s.caps := by
  induction T generalizing es n s with
  | nil =>
    simp only [specKeysOf, List.filterMap_nil, List.forall₂_nil_left_iff] at hes
    subst hes
    simp only [termsOf, reChain] at h
    exact (mem_run_laxEnd s s' h).2
  | cons t T ih =>
    have hT' := plainTokens_cons t T hT
    cases t with
    | lit cs =>
      simp only [termsOf, reChain_append] at h
      obtain ⟨s0, cs', h1, h2, h3, -, -, h6⟩ := mem_run_chars_icase cs _ s s' h
      have hD' : keysDelimited extra T = true := by simpa [keysDelimited] using hD
      have hr0 : s0.rest = specPath T es ++ extra := by
        rw [hrest, specPath, List.append_assoc] at h1
        exact (List.append_inj h1 h2.symm).2.symm
      rw [ih hT' hD' es (by simpa [specKeysOf] using hes) n s0 hr0 h6, h3]
    | key k =>
      have hk : plainKey k = true := hT (key k) (List.mem_cons_self _ _)
      obtain ⟨hd, -⟩ := plainKey_delimiter k hk
      simp only [keysDelimited, Bool.and_eq_true] at hD
      simp only [specKeysOf, List.filterMap_cons] at hes
      cases hes with
      | cons he hes' =>
        rename_i e es'
        obtain ⟨-, he2, he3⟩ := he
        simp only [termsOf, reChain_append, reChain] at h
        obtain ⟨s0, cs', h1, h2, h3, -, -, h6⟩ := mem_run_chars_icase k.pfx _ s s' h
        have hr0 : s0.rest = e ++ (specPath T es' ++ extra) := by
          rw [hrest, specPath, List.append_assoc, List.append_assoc] at h1
          exact (List.append_inj h1 h2.symm).2.symm
        obtain ⟨s1, hs1, hs'⟩ := (mem_run_seq true _ _ s0 s').mp h6
        obtain ⟨s2, hs2, rfl⟩ := (mem_run_group true _ _ s0 s1).mp hs1
        obtain ⟨v, h7, h8, h9, -, h11⟩ := mem_run_reSegment_icase _ hd s0 s2 hs2
        have hfirst := chain_first _ hd extra T hD.1 (n + 1) _ s' hs'
        simp only at hfirst
        have hpath := path_first _ extra T hD.1 es'
        have huniq := value_unique (delimiterChar k) e v (specPath T es' ++ extra) s2.rest
          (by rw [← hr0, h7])
          (fun c hc => ⟨he2 c hc, fun h => he3 (h ▸ hc)⟩) h11 hpath hfirst
        have htake : s0.rest.take (s2.pos - s0.pos) = e := by
          rw [h7, h8, ← huniq.1]
          simp
        rw [ih hT' hD.2 es' hes' (n + 1) _ (by simpa using huniq.2.symm) hs']
        simp only [htake, h9, h3, capsOf]

theorem starLoop_eat_prefix (g : Bool) (p : Char → Bool) (w : Str) (hw : ∀ c ∈ w, p c = true)
    (rest : Str) (fuel : Nat) (hf : w.length ≤ fuel) (pos : Nat) (caps : List (Nat × Str)) :
    (⟨pos + w.length, rest, caps⟩ : MState)
      ∈ starLoop g (fun s1 => s1.eat p) fuel ⟨pos, w ++ rest, caps⟩ := by
  induction w generalizing fuel pos with
  | nil =>
    cases fuel with
    | zero => simp [starLoop]
    | succ fuel => cases g <;> simp [starLoop]
  | cons c w ih =>
    cases fuel with
    | zero => simp at hf
    | succ fuel =>
      have hc : p c = true := hw c (List.mem_cons_self _ _)
      have := ih (fun x hx => hw x (List.mem_cons_of_mem _ hx)) fuel (by simpa using hf) (pos + 1)
      have hmem : (⟨pos + (c :: w).length, rest, caps⟩ : MState) ∈
          ((MState.eat p ⟨pos, c :: w ++ rest, caps⟩).filter
            (fun s' => decide (s'.rest.length < (c :: w ++ rest).length))).flatMap
            (starLoop g (fun s1 => s1.eat p) fuel) := by
        simp only [List.cons_append, MState.eat, hc, if_true, List.mem_flatMap]
        refine ⟨⟨pos + 1, w ++ rest, caps⟩, by simp, ?_⟩
        rw [show pos + (c :: w).length = pos + 1 + w.length by simp; omega]
        exact this
      cases g
      · simp only [starLoop, Bool.false_eq_true, if_false, List.mem_cons]
        exact Or.inr hmem
      · simp only [starLoop, if_true, List.mem_append]
        exact Or.inl hmem

/-- The expression of plain tokens, with the lax end, matches every rendered path. -/
theorem run_tokens_exists (T : List PathToken) (hT : plainTokens T) (extra : Str)
    (hextra : extra = [] ∨ extra = ['/']) (es : List Str)
    (hes : List.Forall₂ encodedSegmentOf (specKeysOf T) es) (n pos : Nat)
    (caps : List (Nat × Str)) :
    ∃ s', s' ∈ (reChain (termsOf n T) reLaxEnd).run true ⟨pos, specPath T es ++ extra, caps⟩ := by
  induction T generalizing es n pos caps with
  | nil =>
    simp only [termsOf, reChain, specPath, List.nil_append]
    exact run_laxEnd_mem pos extra caps hextra
  | cons t T ih =>
    have hT' := plainTokens_cons t T hT
    cases t with
    | lit cs =>
      obtain ⟨s', hs'⟩ := ih hT' es (by simpa [specKeysOf] using hes) n (pos + cs.length) caps
      refine ⟨s', ?_⟩
      simp only [termsOf, reChain_append, specPath, List.append_assoc]
      exact run_chars_self true cs _ pos _ caps s' hs'
    | key k =>
      have hk : plainKey k = true := hT (key k) (List.mem_cons_self _ _)
      obtain ⟨hd, -⟩ := plainKey_delimiter k hk
      simp only [specKeysOf, List.filterMap_cons] at hes
      cases hes with
      | cons he hes' =>
        rename_i e es'
        obtain ⟨he1, he2, -⟩ := he
        obtain ⟨s', hs'⟩ := ih hT' es' hes' (n + 1) (pos + k.pfx.length + e.length)
          ((n + 1, e) :: caps)
        refine ⟨s', ?_⟩
        simp only [termsOf, reChain_append, reChain, specPath, List.append_assoc]
        apply run_chars_self true k.pfx _ pos _ caps s'
        rw [mem_run_seq]
        refine ⟨⟨pos + k.pfx.length + e.length, specPath T es' ++ extra, (n + 1, e) :: caps⟩,
          ?_, hs'⟩
        rw [mem_run_group]
        refine ⟨⟨pos + k.pfx.length + e.length, specPath T es' ++ extra, caps⟩, ?_, by simp⟩
        have hp : ∀ c ∈ e, (true != [ClassItem.single (delimiterChar k)].any
            (ClassItem.accepts true c)) = true :=
          fun c hc => (segment_class_icase _ c hd).mpr (he2 c hc)
        cases e with
        | nil => exact absurd rfl he1
        | cons c w =>
          unfold reSegment Re.plus
          rw [mem_run_seq]
          refine ⟨⟨pos + k.pfx.length + 1, w ++ (specPath T es' ++ extra), caps⟩, ?_, ?_⟩
          · simp only [Re.run, MState.eat, List.cons_append, hp c (List.mem_cons_self _ _),
              if_true]
            simp
          · simp only [Re.run]
            have := starLoop_eat_prefix false
              (fun x => true != [ClassItem.single (delimiterChar k)].any
                (ClassItem.accepts true x)) w
              (fun x hx => hp x (List.mem_cons_of_mem _ hx)) (specPath T es' ++ extra)
              (w ++ (specPath T es' ++ extra)).length (by simp) (pos + k.pfx.length + 1) caps
            rw [show pos + k.pfx.length + (c :: w).length = pos + k.pfx.length + 1 + w.length
              by simp; omega]
            exact this

/-! ## The values that the inverse compiler accepts for plain tokens -/

/-- The anchored default pattern accepts only a text that is not empty and has no
delimiter. -/
theorem search_segment_inv (d : Char) (e : Str) (res : SMatch)
    (h : regex_search false (Re.seq Re.bol (Re.seq (reSegment d) Re.eol)) e = some res) :
    e ≠ [] ∧ ∀ c ∈ e, c ≠ d := by
  obtain ⟨k, s', w, -, -, hhead, -, -, -, -⟩ := searchFrom_some false _ 0 e res h
  have hmem := List.mem_of_mem_head? hhead
  obtain ⟨s1, hs1, hs'⟩ := (mem_run_seq false _ _ _ s').mp hmem
  simp only [Re.run] at hs1
  split at hs1
  · rename_i hk
    have hk0 : k = 0 := by
      have : 0 + k = 0 := hk
      omega
    subst hk0
    simp only [List.mem_singleton] at hs1
    subst hs1
    obtain ⟨s2, hs2, hs3⟩ := (mem_run_seq false _ _ _ s').mp hs'
    obtain ⟨v, h1, -, -, h4, h5⟩ := mem_run_reSegment d _ s2 hs2
    simp only [Re.run] at hs3
    split at hs3
    · rename_i he
      have he' : s2.rest = [] := by simpa using he
      simp only [List.drop_zero] at h1
      rw [he', List.append_nil] at h1
      rw [h1]
      exact ⟨h4, h5⟩
    · simp at hs3
  · simp at hs1

/-- When the inverse compiler of plain tokens returns, every key has exactly one value, whose
encoding is not empty and has neither the delimiter of the key nor `/`, and the path is the
literals and, for each key, its prefix and its encoded value. -/
theorem renderTokens_plain_inv (data : SegmentMap) (T : List PathToken) (hT : plainTokens T)
    (ms : List (Option Regex)) (hms : initMatches T = some ms) (acc path : Str)
    (h : renderTokens data (T.zip ms) acc = CallResult.returned path) :
    ∃ vs, List.Forall₂ (fun k v => data k.name = some [v] ∧
        encodedSegmentOf k (encodeURIComponent v)) (specKeysOf T) vs ∧
      path = acc ++ specPath T (vs.map encodeURIComponent) := by
  induction T generalizing ms acc with
  | nil =>
    simp only [initMatches, Option.some.injEq] at hms
    subst hms
    simp only [List.zip_nil_left, renderTokens, CallResult.returned.injEq] at h
    exact ⟨[], by simp [specKeysOf], by simp [specPath, h]⟩
  | cons t T ih =>
    have hT' := plainTokens_cons t T hT
    cases hr : initMatches T with
    | none =>
      simp only [initMatches, hr] at hms
      split at hms <;> simp at hms
    | some ms' =>
      cases t with
      | lit s =>
        simp only [initMatches, initToken, hr, Option.map_some', Option.some.injEq] at hms
        subst hms
        simp only [List.zip_cons_cons, renderTokens] at h
        obtain ⟨vs, h1, h2⟩ := ih hT' ms' hr (acc ++ s) h
        exact ⟨vs, by simpa [specKeysOf] using h1, by rw [h2, specPath, List.append_assoc]⟩
      | key k =>
        have hk : plainKey k = true := hT (key k) (List.mem_cons_self _ _)
        simp only [initMatches, initToken_plainKey k hk, hr, Option.map_some',
          Option.some.injEq] at hms
        subst hms
        have hrep : k.rep = false := by
          rcases plainKey_cases k hk with e | e | e <;> rw [e]
        have hopt : k.optional = false := by
          rcases plainKey_cases k hk with e | e | e <;> rw [e]
        simp only [List.zip_cons_cons, renderTokens, hrep, hopt, Bool.not_false, Bool.true_and,
          Bool.false_eq_true, if_false] at h
        cases hd : data k.name with
        | none => simp [hd] at h
        | some value =>
          simp only [hd] at h
          cases value with
          | nil => simp at h
          | cons v rest =>
            cases rest with
            | cons v2 rest2 => simp at h
            | nil =>
              simp only [List.length_singleton, gt_iff_lt, Nat.lt_irrefl, decide_False,
                Bool.false_eq_true, if_false, List.isEmpty_cons, renderValues,
                Regex.search] at h
              cases hs : regex_search false
                  (Re.seq Re.bol (Re.seq (reSegment (delimiterChar k)) Re.eol))
                  (encodeURIComponent v) with
              | none => simp [hs] at h
              | some res =>
                simp only [hs, beq_self_eq_true, if_true] at h
                obtain ⟨vs, h1, h2⟩ := ih hT' ms' hr _ h
                obtain ⟨h3, h4⟩ := search_segment_inv _ _ res hs
                refine ⟨v :: vs, ?_, ?_⟩
                · simp only [specKeysOf, List.filterMap_cons]
                  exact List.Forall₂.cons ⟨hd, h3, h4, (encodeURIComponent_chars v).2.1⟩ h1
                · rw [h2]
                  simp [specPath]

/-! ## The source at the default options, with the cut of a trailing slash -/

theorem delimitedAfter_cut (d : Char) (B : List PathToken) (s : Str)
    (h : delimitedAfter d [] (B ++ [lit (s ++ ['/'])]) = true) :
    delimitedAfter d ['/'] (B ++ [lit s]) = true := by
  induction B with
  | nil =>
    cases s with
    | nil =>
      simp only [List.nil_append, delimitedAfter, beq_iff_eq] at h
      subst h
      simp [delimitedAfter]
    | cons c s => simpa [delimitedAfter] using h
  | cons t B ih =>
    cases t with
    | lit cs =>
      cases cs with
      | nil => exact ih (by simpa [delimitedAfter] using h)
      | cons c cs => simpa [delimitedAfter] using h
    | key k => simpa [delimitedAfter] using h

theorem keysDelimited_cut (T : List PathToken) (s : Str)
    (h : keysDelimited [] (T ++ [lit (s ++ ['/'])]) = true) :
    keysDelimited ['/'] (T ++ [lit s]) = true := by
  induction T with
  | nil => rfl
  | cons t T ih =>
    cases t with
    | lit cs => exact ih (by simpa [keysDelimited] using h)
    | key k =>
      simp only [List.cons_append, keysDelimited, Bool.and_eq_true] at h ⊢
      exact ⟨delimitedAfter_cut _ T s h.1, ih h.2⟩

theorem specPath_cut (T : List PathToken) (s : Str) (es : List Str) :
    specPath (T ++ [lit (s ++ ['/'])]) es = specPath (T ++ [lit s]) es ++ ['/'] := by
  induction T generalizing es with
  | nil => simp [specPath]
  | cons t T ih =>
    cases t with
    | lit cs => simp [specPath, ih]
    | key k =>
      cases es with
      | nil => simp [specPath, ih]
      | cons v vs => simp [specPath, ih]

/-- The source at the default options is `^`, the route of tokens `Tc`, and the lax end;
`Tc` is the tokens themselves, or the tokens without the trailing slash of their last
literal, and then the paths of `Tc` are those of the tokens without their last `/`. -/
theorem lax_form (T : List PathToken) (hT : plainTokens T)
    (hD : keysDelimited [] T = true) :
    ∃ Tc extra, plainTokens Tc ∧ keysDelimited extra Tc = true ∧
      (extra = [] ∨ extra = ['/']) ∧ specKeysOf Tc = specKeysOf T ∧
      specSource T PR_END
        = "^".toList ++ (Tc.map specPiece).flatten ++ "(?:\\/(?=$))?$".toList ∧
      ∀ es, specPath T es = specPath Tc es ++ extra := by
  have h1 : Nat.testBit PR_END 1 = false := by decide
  have h2 : Nat.testBit PR_END 2 = true := by decide
  cases hl : specLastIsSlashLiteral T with
  | false =>
    refine ⟨T, [], hT, hD, Or.inl rfl, rfl, ?_, fun es => by simp⟩
    simp [specSource, h1, h2, hl]
  | true =>
    have hdec : ∃ T' s', T = T' ++ [lit (s' ++ ['/'])] := by
      unfold specLastIsSlashLiteral at hl
      split at hl
      · rename_i s hs
        rw [List.getLast?_eq_some_iff] at hs
        obtain ⟨T', rfl⟩ := hs
        simp only [decide_eq_true_eq] at hl
        rw [List.getLast?_eq_some_iff] at hl
        obtain ⟨s', rfl⟩ := hl
        exact ⟨T', s', rfl⟩
      · simp at hl
    obtain ⟨T', s', rfl⟩ := hdec
    refine ⟨T' ++ [lit s'], ['/'], ?_, keysDelimited_cut T' s' hD, Or.inr rfl, ?_, ?_,
      fun es => specPath_cut T' s' es⟩
    · intro t ht
      rcases List.mem_append.mp ht with ht | ht
      · exact hT t (List.mem_append_left _ ht)
      · rw [List.mem_singleton] at ht
        subst ht
        have := hT (lit (s' ++ ['/'])) (by simp)
        simp only at this ⊢
        exact fun h => this (List.mem_append_left _ h)
    · simp [specKeysOf_append, specKeysOf]
    · have hb : ((T' ++ [lit (s' ++ ['/'])]).map specPiece).flatten.dropLast.dropLast
          = ((T' ++ [lit s']).map specPiece).flatten := by
        simp only [List.map_append, List.map_cons, List.map_nil, List.flatten_append,
          List.flatten_cons, List.flatten_nil, List.append_nil, specPiece, escapeString_append]
        rw [show escapeString ['/'] = ['\\', '/'] from rfl]
        rw [show (T'.map specPiece).flatten ++ (escapeString s' ++ ['\\', '/'])
          = (((T'.map specPiece).flatten ++ escapeString s') ++ ['\\']) ++ ['/'] by simp,
          List.dropLast_concat, List.dropLast_concat]
      unfold specSource
      simp only [h1, h2, hl, hb]
      simp

/-- The compiled default-options expression of plain tokens matches a rendered path, and the
groups of the match are the encoded values. -/
theorem search_rendered (Tc : List PathToken) (hT : plainTokens Tc) (extra : Str)
    (hextra : extra = [] ∨ extra = ['/']) (hD : keysDelimited extra Tc = true)
    (es : List Str) (hes : List.Forall₂ encodedSegmentOf (specKeysOf Tc) es) :
    ∃ m, regex_search true (Re.seq Re.bol (reChain (termsOf 0 Tc) reLaxEnd))
        (specPath Tc es ++ extra) = some m ∧ m.caps = capsOf 0 es [] := by
  obtain ⟨s0, hs0⟩ := run_tokens_exists Tc hT extra hextra es hes 0 0 []
  have hmem : s0 ∈ (Re.seq Re.bol (reChain (termsOf 0 Tc) reLaxEnd)).run true
      ⟨0, specPath Tc es ++ extra, []⟩ := by
    rw [mem_run_seq]
    exact ⟨⟨0, specPath Tc es ++ extra, []⟩, by simp [Re.run], hs0⟩
  obtain ⟨m, hm⟩ := regex_search_of_mem true _ _ s0 hmem
  refine ⟨m, hm, ?_⟩
  obtain ⟨k, s', w, -, -, hhead, -, -, hcaps, -⟩ := searchFrom_some true _ 0 _ m hm
  have hmem' := List.mem_of_mem_head? hhead
  obtain ⟨s1, hs1, hs'⟩ := (mem_run_seq true _ _ _ s').mp hmem'
  simp only [Re.run] at hs1
  split at hs1
  · rename_i hk
    have hk0 : k = 0 := by
      have : 0 + k = 0 := hk
      omega
    subst hk0
    simp only [List.mem_singleton] at hs1
    subst hs1
    rw [hcaps]
    exact run_tokens_groups Tc hT extra hD es hes 0 _ s' (by simp) hs'
  · simp at hs1

/-- C5 (amended): let the tokens `T` of a pattern `p` be literals without a backslash and plain
parameters `:name` (no group body, no suffix, no wildcard), `T` not empty, each parameter
followed by its delimiter (at the beginning of the next literal, or as the prefix of the next
parameter) or by the end of the pattern. Then for every data map that the function of
`compilePath(p)` accepts, the path it returns is matched by the regular expression that
`pathToRegexp(p)` emits at the default options, and the groups 1, 2, ... of the match are, in
key order, the encoded values of the data map, each key having exactly one value. -/
theorem rendered_path_matched (p : Str) (T : List PathToken) (pf : PathFunction)
    (data : SegmentMap) (path : Str) (hp : parsePath p = some T) (hne : T ≠ [])
    (hT : plainTokens T) (hD : keysDelimited [] T = true)
    (hpf : compilePath p = some pf) (hcall : pf.call data = CallResult.returned path) :
    ∃ re rx m, pathToRegexp p PR_END = some re ∧ to_regex re = some rx ∧
      rx.search path = some m ∧
      List.Forall₂ (fun k g => ∃ v, data k.name = some [v] ∧ g = encodeURIComponent v)
        (specKeysOf T) ((List.range (specKeysOf T).length).map (fun j => m.str (j + 1))) := by
  have hinit : PathFunction.init T = some pf := by
    simpa [compilePath, hp] using hpf
  obtain ⟨ht, hms⟩ := init_eq T pf hinit
  unfold PathFunction.call at hcall
  rw [ht] at hcall
  obtain ⟨vs, hvs, hpath⟩ := renderTokens_plain_inv data T hT pf.matches_ hms [] path hcall
  rw [List.nil_append] at hpath
  obtain ⟨Tc, extra, hTc, hDc, hextra, hkeys, hsrc, hpaths⟩ := lax_form T hT hD
  have hes : List.Forall₂ encodedSegmentOf (specKeysOf Tc) (vs.map encodeURIComponent) := by
    rw [hkeys, List.forall₂_map_right_iff]
    exact hvs.imp (fun _ _ h => h.2)
  obtain ⟨m, hm, hcaps⟩ := search_rendered Tc hTc extra hextra hDc _ hes
  rw [← hpaths, ← hpath] at hm
  refine ⟨⟨specSource T PR_END, pathFlags PR_END⟩,
    ⟨Re.seq Re.bol (reChain (termsOf 0 Tc) reLaxEnd), true⟩, m, ?_, ?_, hm, ?_⟩
  · simp only [pathToRegexp, hp]
    exact tokensToRegExp_eq T _ hne
  · simp only [to_regex, hsrc, compile_plainTokens_lax Tc hTc]
    rfl
  · have hlen := hvs.length_eq
    rw [List.forall₂_iff_get]
    refine ⟨by simp, fun j h1 h2 => ⟨vs.get ⟨j, by omega⟩, (hvs.get h1 (by omega)).1, ?_⟩⟩
    have hj : j < (vs.map encodeURIComponent).length := by simp; omega
    have hl := lookup_capsOf (vs.map encodeURIComponent) 0 [] j hj
    simp only [List.get_eq_getElem, List.getElem_map, List.getElem_range, SMatch.str, hcaps,
      show j + 1 ≠ 0 by omega, if_false]
    rw [show j + 1 = 0 + 1 + j by omega, hl]
    simp

theorem rendered_path_matched_witness :
    parsePath "/user/:id/".toList
      = some [lit "/user".toList,
          key ⟨"id".toList, "/".toList, "/".toList, false, false, "[^\\/]+?".toList⟩,
          lit "/".toList] ∧
    [lit "/user".toList,
      key ⟨"id".toList, "/".toList, "/".toList, false, false, "[^\\/]+?".toList⟩,
      lit "/".toList] ≠ [] ∧
    plainTokens [lit "/user".toList,
      key ⟨"id".toList, "/".toList, "/".toList, false, false, "[^\\/]+?".toList⟩,
      lit "/".toList] ∧
    keysDelimited [] [lit "/user".toList,
      key ⟨"id".toList, "/".toList, "/".toList, false, false, "[^\\/]+?".toList⟩,
      lit "/".toList] = true ∧
    (compilePath "/user/:id/".toList).map
        (fun pf => pf.call (singleEntry "id".toList ["a b".toList]))
      = some (CallResult.returned "/user/a+b/".toList) ∧
    ∃ re rx m, pathToRegexp "/user/:id/".toList PR_END = some re ∧ to_regex re = some rx ∧
      rx.search "/user/a+b/".toList = some m ∧
      List.Forall₂
        (fun k g => ∃ v, singleEntry "id".toList ["a b".toList] k.name = some [v] ∧
          g = encodeURIComponent v)
        (specKeysOf [lit "/user".toList,
          key ⟨"id".toList, "/".toList, "/".toList, false, false, "[^\\/]+?".toList⟩,
          lit "/".toList])
        ((List.range (specKeysOf [lit "/user".toList,
          key ⟨"id".toList, "/".toList, "/".toList, false, false, "[^\\/]+?".toList⟩,
          lit "/".toList]).length).map (fun j => m.str (j + 1))) :=
  have hplain : plainTokens [lit "/user".toList,
      key ⟨"id".toList, "/".toList, "/".toList, false, false, "[^\\/]+?".toList⟩,
      lit "/".toList] := by
    intro t ht
    simp only [List.mem_cons, List.mem_singleton, List.mem_nil_iff, or_false] at ht
    rcases ht with rfl | rfl | rfl <;> decide
  ⟨by decide!, by simp, hplain, by decide, by decide!,
    rendered_path_matched "/user/:id/".toList _
      ⟨[lit "/user".toList,
          key ⟨"id".toList, "/".toList, "/".toList, false, false, "[^\\/]+?".toList⟩,
          lit "/".toList],
        [none, keyRegex ⟨"id".toList, "/".toList, "/".toList, false, false,
          "[^\\/]+?".toList⟩, none]⟩
      (singleEntry "id".toList ["a b".toList]) "/user/a+b/".toList
      (by decide!) (by simp) hplain (by decide) (by decide!) (by decide!)⟩

/-- The match of the witness, evaluated: at the default options the path `"/user/a+b/"`
rendered for `"/user/:id/"` is matched with `a+b` as group 1. -/
theorem rendered_path_matched_test :
    ((pathToRegexp "/user/:id/".toList PR_END).bind to_regex).map
        (fun rx => (rx.search "/user/a+b/".toList).map (fun m => m.str 1))
      = some (some "a+b".toList) ∧
    ((pathToRegexp "/:a/:b".toList PR_END).bind to_regex).map
        (fun rx => (rx.search "/x-y/z".toList).map (fun m => (m.str 1, m.str 2)))
      = some (some ("x-y".toList, "z".toList)) := by
  refine ⟨by decide!, by decide!⟩

end HttpUtils
